import Mathlib

/-!
# fgqcanvas: property-tree mirror session, canvas group and image loader

A shallow embedding of `TemporaryWidget` (src/temporarywidget.cpp),
`FGCanvasGroup` (src/fgcanvasgroup.cpp) and `FGQCanvasImageLoader`
(src/fgqcanvasimageloader.cpp), with the Qt value types they use.

* `QByteArray` and the bytes of a `QString` are lists of characters (one
  character per byte, exact for ASCII paths).
* A `QJsonValue` is the inductive type `JsonValue`; numbers are whole numbers.
* `LocalProp` (localprop.h is not part of the sources) is modelled from the
  specification of the Local Property Node.
* A `LocalProp*` is a `NodeRef`: the position of the node below the session root
  together with the serial number the node received when it was allocated. Nodes
  never move, so a live node is found at its position; a reference whose position
  no longer holds a node of that serial is dangling, and using it is a fault.
* A property value (`QVariant`) is the `JsonValue` it was made from.
* `std::sort` and `FGCanvasElement::zIndex()` are parameters of `doPaint`; of
  `std::sort` only its promise `IsStdSort` is assumed. `LibStdCxx.sort` is the
  `std::sort` of GNU libstdc++, which keeps that promise and is used where the order
  of children of equal z-index matters.
* `int` arithmetic wraps to 32 bits (`wrapInt32`); a `QList::at` out of range has no
  result.
-/

/-! ## Qt value types -/

/-- Bytes of a `QByteArray`. -/
abbrev QByteArray := List Char

/-- The value held by a `QJsonValue`. -/
inductive JsonValue where
  | undefined
  | null
  | bool (b : Bool)
  | num (n : Int)
  | str (s : String)
  | arr (items : List JsonValue)
  | obj (members : List (String × JsonValue))

/-- `QJsonValue::toArray()`: the elements of an array, the empty array otherwise. -/
def JsonValue.toArray : JsonValue → List JsonValue
  | .arr items => items
  | _ => []

/-- `QJsonValue::toObject()`: the members of an object, the empty object otherwise. -/
def JsonValue.toObject : JsonValue → List (String × JsonValue)
  | .obj members => members
  | _ => []

/-- `QJsonValue::toString()`: the string, the null string otherwise. -/
def JsonValue.toQString : JsonValue → String
  | .str s => s
  | _ => ""

/-- `QJsonValue::toInt()`: a whole number that fits an `int`, 0 otherwise. -/
def JsonValue.toInt : JsonValue → Int
  | .num n => if -2147483648 ≤ n ∧ n ≤ 2147483647 then n else 0
  | _ => 0

/-- `QJsonValue::isObject()`. -/
def JsonValue.isObject : JsonValue → Bool
  | .obj _ => true
  | _ => false

/-- `QJsonObject::value(key)`: the member of that name, `Undefined` when absent. -/
def objValue (o : List (String × JsonValue)) (key : String) : JsonValue :=
  match o.lookup key with
  | some v => v
  | none => .undefined

/-- Conversion of an `int` to `unsigned int`. -/
def toUInt (n : Int) : Nat := (n % 4294967296).toNat

/-- `QString::toUtf8()`. -/
def toUtf8 (s : String) : QByteArray := s.toList

/-- `QByteArray::indexOf(ba)`: the position of the first occurrence, -1 when there is none. -/
def QByteArray.indexOf : QByteArray → QByteArray → Int
  | [], needle => if needle.isPrefixOf [] then 0 else -1
  | c :: hay, needle =>
    if needle.isPrefixOf (c :: hay) then 0
    else
      let r := QByteArray.indexOf hay needle
      if r < 0 then -1 else r + 1

/-- `QByteArray::mid(pos)`: the bytes from position `pos` on. -/
def QByteArray.mid (b : QByteArray) (pos : Nat) : QByteArray := b.drop pos

/-- `QByteArray::split(sep)`: never empty; an empty array splits into one empty part. -/
def QByteArray.split (sep : Char) : QByteArray → List QByteArray
  | [] => [[]]
  | c :: cs =>
    if c = sep then [] :: QByteArray.split sep cs
    else
      match QByteArray.split sep cs with
      | [] => [[c]]
      | s :: ss => (c :: s) :: ss

/-! ## Local property nodes -/

/-- Ways in which processing stops without a result. -/
inductive Fault where
  | malformedPath
  | danglingNode
  | nullParent
deriving DecidableEq, Repr

/-- Modelled from the spec: `NameIndexTuple` (localprop.h), the name and index of a
property node among its siblings. -/
structure NameIndexTuple where
  name : QByteArray
  index : Nat
deriving DecidableEq, Repr

/-- Modelled from the spec: class `LocalProp` (localprop.h, localprop.cpp), the Local
Property Node: identity `(parent, name, index)`, a value and an ordered list of owned
children. `serial` is the allocation serial that tells one allocation from another. -/
inductive LocalProp where
  | mk (id : NameIndexTuple) (serial : Nat) (value : JsonValue) (children : List LocalProp)

namespace LocalProp

/-- Modelled from the spec: name and index of the node. -/
def id : LocalProp → NameIndexTuple
  | .mk i _ _ _ => i

/-- Modelled from the spec: allocation serial of the node. -/
def serial : LocalProp → Nat
  | .mk _ s _ _ => s

/-- Modelled from the spec: stored value of the node. -/
def value : LocalProp → JsonValue
  | .mk _ _ v _ => v

/-- Modelled from the spec: ordered children of the node. -/
def children : LocalProp → List LocalProp
  | .mk _ _ _ cs => cs

/-- Modelled from the spec: `LocalProp::name()`. -/
def name (p : LocalProp) : QByteArray := p.id.name

/-- Modelled from the spec: the existing child that `getOrCreateChild(name, index)`
returns: the first child in the list with that name and index. -/
def findChild (cs : List LocalProp) (k : NameIndexTuple) : Option LocalProp :=
  cs.find? (fun c => decide (c.id = k))

/-- Modelled from the spec: a child list with `n` in the place of the first child of
the given name and index (an update below that child; no reordering). -/
def replaceChild : List LocalProp → NameIndexTuple → LocalProp → List LocalProp
  | [], _, _ => []
  | c :: cs, k, n => if c.id = k then n :: cs else c :: replaceChild cs k n

/-- Modelled from the spec: a child list without its first child of the given name
and index (`removeChild`). -/
def eraseChild : List LocalProp → NameIndexTuple → List LocalProp
  | [], _ => []
  | c :: cs, k => if c.id = k then cs else c :: eraseChild cs k

/-- Modelled from the spec: the node reached from `t` by walking the segments without
creating any, if every step exists. -/
def getNode : LocalProp → List NameIndexTuple → Option LocalProp
  | t, [] => some t
  | t, k :: ks =>
    match findChild t.children k with
    | some c => getNode c ks
    | none => none

/-- Modelled from the spec: `getOrCreateChild(name, index)` applied along a path
("returns existing child or creates and appends one", "walks/creates nodes
component-wise"). Returns the new tree, the next free serial and the serial of the
node reached. A created node has no value and no children. -/
def getOrCreateWithSegs : LocalProp → List NameIndexTuple → Nat → LocalProp × Nat × Nat
  | t, [], fresh => (t, fresh, t.serial)
  | t, k :: ks, fresh =>
    match findChild t.children k with
    | some c =>
      let r := getOrCreateWithSegs c ks fresh
      (.mk t.id t.serial t.value (replaceChild t.children k r.1), r.2.1, r.2.2)
    | none =>
      let r := getOrCreateWithSegs (.mk k fresh .undefined []) ks (fresh + 1)
      (.mk t.id t.serial t.value (t.children ++ [r.1]), r.2.1, r.2.2)

/-- Modelled from the spec: `setValue(variant)` on the node at a position ("updates
stored value"; setting an identical value leaves the node as it is). -/
def setValueAt : LocalProp → List NameIndexTuple → JsonValue → Option LocalProp
  | t, [], v => some (.mk t.id t.serial v t.children)
  | t, k :: ks, v =>
    match findChild t.children k with
    | some c =>
      match setValueAt c ks v with
      | some c1 => some (.mk t.id t.serial t.value (replaceChild t.children k c1))
      | none => none
    | none => none

/-- Modelled from the spec: `removeChild` of the node at a position from its parent
("detaches and destroys a child and its entire subtree"). The root has no parent. -/
def removeAt : LocalProp → List NameIndexTuple → Option LocalProp
  | _, [] => none
  | t, [k] =>
    match findChild t.children k with
    | some _ => some (.mk t.id t.serial t.value (eraseChild t.children k))
    | none => none
  | t, k :: k2 :: ks =>
    match findChild t.children k with
    | some c =>
      match removeAt c (k2 :: ks) with
      | some c1 => some (.mk t.id t.serial t.value (replaceChild t.children k c1))
      | none => none
    | none => none

end LocalProp

/-- Modelled from the spec: value of a decimal digit of an index `[n]`, if the
character is one. -/
def digitValue (c : Char) : Option Nat :=
  if '0' ≤ c ∧ c ≤ '9' then some (c.toNat - '0'.toNat) else none

/-- Modelled from the spec: value of the non-empty string of decimal digits of an
index `[n]`. -/
def parseDecimal : List Char → Option Nat
  | [] => none
  | cs => cs.foldl (fun acc c =>
      match acc, digitValue c with
      | some a, some d => some (10 * a + d)
      | _, _ => none) (some 0)

/-- Modelled from the spec: one path segment ("index syntax: trailing `[n]`, default
index 0"; "Fails with `MalformedPath` on empty segments"). A segment without a
well-formed trailing `[n]` is a name with index 0. -/
def parseSegment (seg : QByteArray) : Except Fault NameIndexTuple :=
  if seg = [] then .error .malformedPath
  else
    let nm := seg.takeWhile (fun c => c != '[')
    match seg.dropWhile (fun c => c != '[') with
    | [] => .ok ⟨seg, 0⟩
    | _ :: rest =>
      if rest.getLast? = some ']' then
        match parseDecimal rest.dropLast with
        | some n => .ok ⟨nm, n⟩
        | none => .ok ⟨seg, 0⟩
      else .ok ⟨seg, 0⟩

/-- Modelled from the spec: every segment parsed in turn; the first fault wins. -/
def parseSegments : List QByteArray → Except Fault (List NameIndexTuple)
  | [] => .ok []
  | s :: ss =>
    match parseSegment s with
    | .error e => .error e
    | .ok k =>
      match parseSegments ss with
      | .error e => .error e
      | .ok ks => .ok (k :: ks)

/-- Modelled from the spec: the segments of a path ("splits a slash-separated path
into `(name, index)` segments"). The empty path has no segment and names the node
itself. -/
def parsePath (path : QByteArray) : Except Fault (List NameIndexTuple) :=
  if path = [] then .ok [] else parseSegments (QByteArray.split '/' path)

/-- The pointer `LocalProp*`: position below the session root and allocation serial. -/
structure NodeRef where
  path : List NameIndexTuple
  serial : Nat
deriving DecidableEq, Repr

/-- The live node a reference points to, `none` for a dangling reference. -/
def deref (root : LocalProp) (r : NodeRef) : Option LocalProp :=
  match root.getNode r.path with
  | some n => if n.serial = r.serial then some n else none
  | none => none

/-- Modelled from the spec: `LocalProp::getOrCreateWithPath(path)`, the resolver
`resolvePath`: the tree after creating what is missing, the next free serial, and the
reference to the node reached. -/
def LocalProp.getOrCreateWithPath (root : LocalProp) (path : QByteArray) (fresh : Nat) :
    Except Fault (LocalProp × Nat × NodeRef) :=
  match parsePath path with
  | .error e => .error e
  | .ok segs =>
    let r := root.getOrCreateWithSegs segs fresh
    .ok (r.1, r.2.1, ⟨segs, r.2.2⟩)

/-- Modelled from the spec: `LocalProp::processChange(json)`, `setValue` through a
pointer. A dangling pointer is a fault. -/
def processChange (root : LocalProp) (r : NodeRef) (v : JsonValue) : Except Fault LocalProp :=
  match deref root r with
  | none => .error .danglingNode
  | some _ =>
    match root.setValueAt r.path v with
    | some t => .ok t
    | none => .error .danglingNode

/-- Modelled from the spec: `prop->parent()->removeChild(prop)` through a pointer. A
dangling pointer is a fault, and so is the root, whose parent is null. -/
def removeFromParent (root : LocalProp) (r : NodeRef) : Except Fault LocalProp :=
  match deref root r with
  | none => .error .danglingNode
  | some _ =>
    match root.removeAt r.path with
    | some t => .ok t
    | none => .error .nullParent

/-! ## The mirror session: `TemporaryWidget` -/

/-- The session state of `TemporaryWidget`: the root path being mirrored, the local
property root, the id table and the next free allocation serial. -/
structure TemporaryWidget where
  rootPropertyPath : QByteArray
  m_localPropertyRoot : LocalProp
  idPropertyDict : Nat → Option NodeRef
  nextSerial : Nat

namespace TemporaryWidget

/-- `QHash::insert` on the id table. -/
def dictInsert (d : Nat → Option NodeRef) (k : Nat) (r : NodeRef) : Nat → Option NodeRef :=
  fun i => if i = k then some r else d i

/-- `QHash::remove` on the id table. -/
def dictRemove (d : Nat → Option NodeRef) (k : Nat) : Nat → Option NodeRef :=
  fun i => if i = k then none else d i

/-- `TemporaryWidget::propertyFromPath`: resolves below the local root. -/
def propertyFromPath (w : TemporaryWidget) (path : QByteArray) :
    Except Fault (LocalProp × Nat × NodeRef) :=
  w.m_localPropertyRoot.getOrCreateWithPath path w.nextSerial

/-- Body of the loop over `created` in `onTextMessageReceived` for one entry. -/
def createdStep (w : TemporaryWidget) (v : JsonValue) : Except Fault TemporaryWidget :=
  let newProp := v.toObject
  let nodePath := toUtf8 (objValue newProp "path").toQString
  if QByteArray.indexOf nodePath w.rootPropertyPath ≠ 0 then
    .ok w
  else
    let localPath := nodePath.mid (w.rootPropertyPath.length + 1)
    match w.propertyFromPath localPath with
    | .error e => .error e
    | .ok (root1, fresh1, newNode) =>
      let propId := toUInt (objValue newProp "id").toInt
      match w.idPropertyDict propId with
      | some old =>
        -- the warning prints `idPropertyDict.value(propId)->path()`
        match deref root1 old with
        | none => .error .danglingNode
        | some _ =>
          match processChange root1 newNode (objValue newProp "value") with
          | .error e => .error e
          | .ok root2 =>
            .ok { w with m_localPropertyRoot := root2, nextSerial := fresh1 }
      | none =>
        match processChange root1 newNode (objValue newProp "value") with
        | .error e => .error e
        | .ok root2 =>
          .ok { w with m_localPropertyRoot := root2, nextSerial := fresh1,
                       idPropertyDict := dictInsert w.idPropertyDict propId newNode }

/-- Body of the loop over the removals in `onTextMessageReceived` for one entry. -/
def removedStep (w : TemporaryWidget) (v : JsonValue) : Except Fault TemporaryWidget :=
  let propId := toUInt v.toInt
  match w.idPropertyDict propId with
  | some prop =>
    match removeFromParent w.m_localPropertyRoot prop with
    | .error e => .error e
    | .ok root1 =>
      .ok { w with m_localPropertyRoot := root1,
                   idPropertyDict := dictRemove w.idPropertyDict propId }
  | none => .ok w

/-- Body of the loop over `changed` in `onTextMessageReceived` for one entry. -/
def changedStep (w : TemporaryWidget) (v : JsonValue) : Except Fault TemporaryWidget :=
  let change := v.toArray
  if change.length ≠ 2 then
    .ok w
  else
    let propId := toUInt (change.getD 0 .undefined).toInt
    match w.idPropertyDict propId with
    | none => .ok w
    | some lp =>
      match processChange w.m_localPropertyRoot lp (change.getD 1 .undefined) with
      | .error e => .error e
      | .ok root1 => .ok { w with m_localPropertyRoot := root1 }

/-- `Q_FOREACH` over a JSON array with a loop body that may fault. -/
def forEach (step : TemporaryWidget → JsonValue → Except Fault TemporaryWidget) :
    TemporaryWidget → List JsonValue → Except Fault TemporaryWidget
  | w, [] => .ok w
  | w, v :: vs =>
    match step w v with
    | .error e => .error e
    | .ok w1 => forEach step w1 vs

/-- `TemporaryWidget::onTextMessageReceived` on the parsed JSON document: the created
entries, then the removals (read from the member `remvoed`), then the changes. -/
def onTextMessageReceived (w : TemporaryWidget) (json : JsonValue) :
    Except Fault TemporaryWidget :=
  if json.isObject then
    let created := (objValue json.toObject "created").toArray
    match forEach createdStep w created with
    | .error e => .error e
    | .ok w1 =>
      let removed := (objValue json.toObject "remvoed").toArray
      match forEach removedStep w1 removed with
      | .error e => .error e
      | .ok w2 =>
        let changed := (objValue json.toObject "changed").toArray
        forEach changedStep w2 changed
  else
    .ok w

/-- `TemporaryWidget::onStartConnect`: the URL opened and the root path stored, or
nothing when the socket URL does not start with `ws`. -/
def onStartConnect (socketURL propertyPath : List Char) : Option (List Char × QByteArray) :=
  let wsUrl := socketURL
  if ¬ ("ws".toList.isPrefixOf wsUrl) then
    none
  else
    let propPath := propertyPath
    let wsUrl := if wsUrl.getLast? = some '/' then wsUrl.take (wsUrl.length - 1) else wsUrl
    let rootPath := propPath
    let rootPath := if ¬ (propPath.head? = some '/') then '/' :: propPath else rootPath
    let rootPath := if propPath.getLast? = some '/' then rootPath.take (rootPath.length - 1)
      else rootPath
    some (wsUrl ++ rootPath, rootPath)

/-- State after `onConnected`: a fresh root named "" and, as at construction, an empty
id table. -/
def connected (rootPath : QByteArray) : TemporaryWidget :=
  { rootPropertyPath := rootPath,
    m_localPropertyRoot := .mk ⟨[], 0⟩ 0 .undefined [],
    idPropertyDict := fun _ => none,
    nextSerial := 1 }

end TemporaryWidget

/-! ## The canvas group: `FGCanvasGroup` -/

/-- Modelled from the spec: `LocalProp::name()` read through a pointer: the name in the
last segment of the position, the empty name for the root. -/
def NodeRef.name (r : NodeRef) : QByteArray :=
  match r.path.getLast? with
  | some k => k.name
  | none => []

/-- The element classes a group instantiates. -/
inductive ElementKind where
  | group
  | path
  | text
  | image
  | map
deriving DecidableEq, Repr

/-- An entry of `_children`: the element made by `new FGCanvasGroup(this, prop)`,
`new FGCanvasPath(this, prop)`, ...: its class and the property node it is bound to. -/
structure FGCanvasElement where
  kind : ElementKind
  property : NodeRef
deriving DecidableEq, Repr

/-- Slots of the group that `onChildAdded` connects to `LocalProp::valueChanged`. -/
inductive GroupSlot where
  | markClipDirty
  | markCachedSymbolDirty
deriving DecidableEq, Repr

/-- Signals a group emits. -/
inductive GroupSignal where
  | childAdded
  | childRemoved (index : Int)
deriving DecidableEq, Repr

/-- A `QRectF` with whole coordinates. -/
structure QRectF where
  x : Int
  y : Int
  width : Int
  height : Int
deriving DecidableEq, Repr

/-- The members of `FGCanvasGroup`; `isRootGroup` is `parent() == nullptr`, and
`connections` are the `valueChanged` connections made so far. -/
structure FGCanvasGroup where
  isRootGroup : Bool
  _children : List FGCanvasElement
  connections : List (NodeRef × GroupSlot)
  _clipDirty : Bool
  _zIndicesDirty : Bool
  _cachedSymbolDirty : Bool
  _hasClip : Bool
  _clipRect : QRectF
deriving DecidableEq, Repr

namespace FGCanvasGroup

/-- `FGCanvasGroup::markChildZIndicesDirty`. -/
def markChildZIndicesDirty (g : FGCanvasGroup) : FGCanvasGroup :=
  { g with _zIndicesDirty := true }

/-- `FGCanvasGroup::markClipDirty`. -/
def markClipDirty (g : FGCanvasGroup) : FGCanvasGroup :=
  { g with _clipDirty := true }

/-- `FGCanvasGroup::markCachedSymbolDirty`. -/
def markCachedSymbolDirty (g : FGCanvasGroup) : FGCanvasGroup :=
  { g with _cachedSymbolDirty := true }

/-- `FGCanvasGroup::onChildAdded`: the value returned, the group afterwards and the
signals emitted. `base` is the verdict of `FGCanvasElement::onChildAdded`, whose
source is not part of the repository files. Every element branch returns right after
`newChildCount++`, so the counter is still 0 where it is tested before `emit
childAdded()`. -/
def onChildAdded (base : NodeRef → Bool) (g : FGCanvasGroup) (prop : NodeRef) :
    Bool × FGCanvasGroup × List GroupSignal :=
  let isRootGroup := g.isRootGroup
  let newChildCount : Int := 0
  if base prop then
    (true, g, [])
  else
    let nm := prop.name
    if nm = "group".toList then
      (true, { g with _children := g._children ++ [⟨.group, prop⟩] }, [])
    else if nm = "path".toList then
      (true, { g with _children := g._children ++ [⟨.path, prop⟩] }, [])
    else if nm = "text".toList then
      (true, { g with _children := g._children ++ [⟨.text, prop⟩] }, [])
    else if nm = "image".toList then
      (true, { g with _children := g._children ++ [⟨.image, prop⟩] }, [])
    else if nm = "map".toList then
      (true, { g with _children := g._children ++ [⟨.map, prop⟩] }, [])
    else if nm = "clip".toList then
      (true, { g with connections := g.connections ++ [(prop, .markClipDirty)] }, [])
    else if nm = "symbol-type".toList then
      (true, { g with connections := g.connections ++ [(prop, .markCachedSymbolDirty)] }, [])
    else if isRootGroup ∧ (nm = "view".toList ∨ nm = "size".toList
        ∨ "status".toList.isPrefixOf nm ∨ nm = "name".toList
        ∨ nm = "mipmapping".toList ∨ nm = "placement".toList) then
      (true, g, [])
    else if newChildCount > 0 then
      (false, g, [.childAdded])
    else
      (false, g, [])

/-- `FGCanvasGroup::indexOfChildWithProp`: position of the first child bound to the
node (`std::find_if`), -1 when there is none. The distance is taken as an unbounded
integer (exact for child lists shorter than 2^31). -/
def indexOfChildWithProp (g : FGCanvasGroup) (prop : NodeRef) : Int :=
  let it := g._children.findIdx (fun child => decide (child.property = prop))
  if it = g._children.length then -1 else (it : Int)

/-- `FGCanvasGroup::onChildRemoved`: the value returned, the group afterwards and the
signals emitted. `base` is the verdict of `FGCanvasElement::onChildRemoved`, whose
source is not part of the repository files. -/
def onChildRemoved (base : NodeRef → Bool) (g : FGCanvasGroup) (prop : NodeRef) :
    Bool × FGCanvasGroup × List GroupSignal :=
  if base prop then
    (true, g, [])
  else
    let nm := prop.name
    if nm = "group".toList ∨ nm = "image".toList ∨ nm = "path".toList
        ∨ nm = "text".toList ∨ nm = "map".toList then
      let removedChildIndex := g.indexOfChildWithProp prop
      if removedChildIndex ≥ 0 then
        (true, { g with _children := g._children.eraseIdx removedChildIndex.toNat },
          [.childRemoved removedChildIndex])
      else
        (true, g, [])
    else
      (false, g, [])

end FGCanvasGroup

/-! ## Readings of the tree and of messages used to state the properties -/

/-- Allocation serial of the node at a position, if there is one. -/
def serialAt (t : LocalProp) (q : List NameIndexTuple) : Option Nat :=
  (t.getNode q).map LocalProp.serial

/-- Value of the node at a position, if there is one. -/
def valueAt (t : LocalProp) (q : List NameIndexTuple) : Option JsonValue :=
  (t.getNode q).map LocalProp.value

/-- Every reference in the id table points to a live node. -/
def dictLive (w : TemporaryWidget) : Prop :=
  ∀ i r, w.idPropertyDict i = some r → serialAt w.m_localPropertyRoot r.path = some r.serial

/-- The local path of a `created` entry as the spec describes it: the remote path with
the root prefix and the following '/' stripped, split into segments. `none` when the
path is not the root followed by '/', or when a segment is malformed. -/
def localSegs (root : QByteArray) (e : JsonValue) : Option (List NameIndexTuple) :=
  let p := toUtf8 (objValue e.toObject "path").toQString
  if (root ++ ['/']).isPrefixOf p then
    match parsePath (p.drop (root.length + 1)) with
    | .ok segs => some segs
    | .error _ => none
  else none

/-- The id a `created` entry carries, as the handler reads it. -/
def entryId (e : JsonValue) : Nat := toUInt (objValue e.toObject "id").toInt

/-- The initial value a `created` entry carries. -/
def entryValue (e : JsonValue) : JsonValue := objValue e.toObject "value"

/-- An array with every element that is not a 2-element array deleted. -/
def keepPairs : JsonValue → JsonValue
  | .arr items => .arr (items.filter (fun x => decide (x.toArray.length = 2)))
  | other => other

/-- A message with every `changed` entry that is not a 2-element array deleted. -/
def dropMalformedChanges : JsonValue → JsonValue
  | .obj members =>
    .obj (members.map (fun m => if m.1 = "changed" then (m.1, keepPairs m.2) else m))
  | other => other

/-- The element class the group instantiates for a tag name. -/
def ElementKind.ofName (nm : QByteArray) : Option ElementKind :=
  if nm = "group".toList then some .group
  else if nm = "path".toList then some .path
  else if nm = "text".toList then some .text
  else if nm = "image".toList then some .image
  else if nm = "map".toList then some .map
  else none

/-- A session mirroring `/canvas` with the nodes `group` (id 1) and `group/path`
(id 2), as left by a message that created both. -/
def sampleSession : TemporaryWidget :=
  { rootPropertyPath := "/canvas".toList,
    m_localPropertyRoot :=
      .mk ⟨[], 0⟩ 0 .undefined
        [.mk ⟨"group".toList, 0⟩ 1 .null [.mk ⟨"path".toList, 0⟩ 2 .null []]],
    idPropertyDict := fun i =>
      if i = 1 then some ⟨[⟨"group".toList, 0⟩], 1⟩
      else if i = 2 then some ⟨[⟨"group".toList, 0⟩, ⟨"path".toList, 0⟩], 2⟩
      else none,
    nextSerial := 3 }

/-- A root group with three children bound to the nodes `group`, `path` and `text`. -/
def sampleGroup : FGCanvasGroup :=
  { isRootGroup := true,
    _children := [⟨.group, ⟨[⟨"group".toList, 0⟩], 1⟩⟩, ⟨.path, ⟨[⟨"path".toList, 0⟩], 2⟩⟩,
                  ⟨.text, ⟨[⟨"text".toList, 0⟩], 3⟩⟩],
    connections := [],
    _clipDirty := false,
    _zIndicesDirty := false,
    _cachedSymbolDirty := false,
    _hasClip := false,
    _clipRect := ⟨0, 0, 0, 0⟩ }

/-- A session that mirrors `/canvas` after the node `group` (id 1) of `sampleSession`
was removed: id 2 still names the destroyed node `group/path`. -/
def staleSession : TemporaryWidget :=
  { rootPropertyPath := "/canvas".toList,
    m_localPropertyRoot := .mk ⟨[], 0⟩ 0 .undefined [],
    idPropertyDict := fun i =>
      if i = 2 then some ⟨[⟨"group".toList, 0⟩, ⟨"path".toList, 0⟩], 2⟩ else none,
    nextSerial := 3 }

/-! ## Painting the group: `FGCanvasGroup::doPaint` -/

/-- `QVariant::isNull()` on a property value: the invalid `QVariant()` and the null
value are null. -/
def QVariant.isNull : JsonValue → Bool
  | .undefined => true
  | .null => true
  | _ => false

/-- Decimal digits of a natural number, most significant first; `fuel` bounds the
number of digits. -/
def decimalDigits : Nat → Nat → List Char
  | 0, _ => []
  | fuel + 1, n =>
    if n < 10 then [Char.ofNat (48 + n)]
    else decimalDigits fuel (n / 10) ++ [Char.ofNat (48 + n % 10)]

/-- Decimal rendering of a whole number, as `QVariant::toString()` prints one. -/
def renderInt (n : Int) : List Char :=
  if n < 0 then '-' :: decimalDigits (n.natAbs + 1) n.natAbs
  else decimalDigits (n.natAbs + 1) n.natAbs

/-- `QVariant::toString()` on a property value: strings as they are, whole numbers in
decimal, booleans as `true` and `false`, the empty string otherwise. -/
def QVariant.toQString : JsonValue → List Char
  | .str s => s.toList
  | .num n => renderInt n
  | .bool true => "true".toList
  | .bool false => "false".toList
  | _ => []

/-- White space as `QString::toInt` skips it at both ends. -/
def isSpace (c : Char) : Bool :=
  c = ' ' ∨ c = '\t' ∨ c = '\n' ∨ c = '\r' ∨ c.toNat = 11 ∨ c.toNat = 12

/-- `QString::trimmed()`. -/
def trimmed (s : List Char) : List Char :=
  ((s.dropWhile isSpace).reverse.dropWhile isSpace).reverse

/-- `QString::toInt()`: the decimal number in the string, with an optional sign and
surrounding white space; 0 when the string is not a number or the number does not
fit an `int`. -/
def QString.toInt (s : List Char) : Int :=
  match trimmed s with
  | '-' :: ds =>
    match parseDecimal ds with
    | some n => if n ≤ 2147483648 then -(n : Int) else 0
    | none => 0
  | '+' :: ds =>
    match parseDecimal ds with
    | some n => if n ≤ 2147483647 then (n : Int) else 0
    | none => 0
  | ds =>
    match parseDecimal ds with
    | some n => if n ≤ 2147483647 then (n : Int) else 0
    | none => 0

/-- `QList::at(i)`: the element at the index; `none` when the index is out of range,
where the access has no defined result. -/
def QStringList.atIndex (l : List (List Char)) (i : Nat) : Option (List Char) :=
  l.get? i

/-- Result of an `int` operation, wrapped to 32 bits. -/
def wrapInt32 (n : Int) : Int := (n + 2147483648) % 4294967296 - 2147483648

/-- Calls made on the painter and on the children during `doPaint`. -/
inductive PaintOp where
  | save
  | setPenYellow
  | setBrushYellowDiagCross
  | drawRect (r : QRectF)
  | restore
  | paintChild (e : FGCanvasElement)
  | setClippingFalse
deriving DecidableEq, Repr

/-- What `std::sort` promises for a comparison `comp` that is a strict weak ordering:
the result is a rearrangement of the input in which no element is followed by one
that `comp` puts before it. The order of equivalent elements is not promised. -/
def IsStdSort
    (stdSort : (FGCanvasElement → FGCanvasElement → Bool) → List FGCanvasElement →
      List FGCanvasElement) : Prop :=
  ∀ (comp : FGCanvasElement → FGCanvasElement → Bool),
    (∀ a b, comp a b = true → comp b a = false) →
    (∀ a b c, comp a b = false → comp b c = false → comp a c = false) →
    ∀ l, (stdSort comp l).Perm l
      ∧ (stdSort comp l).Pairwise (fun a b => comp b a = false)

namespace FGCanvasGroup

/-- The clip part of `FGCanvasGroup::doPaint`: the group after the block guarded by
`_clipDirty`; `none` when an access `clipRectDesc.at(i)` is out of range. -/
def recomputeClip (clipSpec : JsonValue) (g : FGCanvasGroup) : Option FGCanvasGroup :=
  if g._clipDirty then
    if QVariant.isNull clipSpec then
      some { g with _hasClip := false, _clipDirty := false }
    else
      let clipRectDesc := QByteArray.split ',' (QVariant.toQString clipSpec)
      match QStringList.atIndex clipRectDesc 0, QStringList.atIndex clipRectDesc 1,
          QStringList.atIndex clipRectDesc 2, QStringList.atIndex clipRectDesc 3 with
      | some f0, some f1, some f2, some f3 =>
        let top := QString.toInt f0
        let right := QString.toInt f1
        let bottom := QString.toInt f2
        let left := QString.toInt f3
        some { g with
          _clipRect := ⟨left, top, wrapInt32 (right - left), wrapInt32 (bottom - top)⟩,
          _hasClip := true,
          _clipDirty := false }
      | _, _, _, _ => none
  else
    some g

/-- `FGCanvasGroup::doPaint`: the group afterwards and the calls made, `none` when an
access `clipRectDesc.at(i)` is out of range. `clipSpec` is what
`_propertyRoot->value("clip", QVariant())` returns: the value of the property `clip`,
the invalid `QVariant()` when the property is absent. `stdSort` is `std::sort` and
`zIndex` is `FGCanvasElement::zIndex()`, neither of which is part of the repository
files. -/
def doPaint
    (stdSort : (FGCanvasElement → FGCanvasElement → Bool) → List FGCanvasElement →
      List FGCanvasElement)
    (zIndex : FGCanvasElement → Int) (clipSpec : JsonValue) (g : FGCanvasGroup) :
    Option (FGCanvasGroup × List PaintOp) :=
  match recomputeClip clipSpec g with
  | none => none
  | some g1 =>
    let g2 :=
      if g1._zIndicesDirty then
        { g1 with
          _children := stdSort (fun a b => decide (zIndex a < zIndex b)) g1._children,
          _zIndicesDirty := false }
      else g1
    let g3 := if g2._cachedSymbolDirty then { g2 with _cachedSymbolDirty := false } else g2
    let ops :=
      (if g3._hasClip then
        [PaintOp.save, .setPenYellow, .setBrushYellowDiagCross, .drawRect g3._clipRect,
          .restore]
       else [])
      ++ g3._children.map PaintOp.paintChild
      ++ (if g3._hasClip then [PaintOp.setClippingFalse] else [])
    some (g3, ops)

end FGCanvasGroup

/-- A stable sort of `prev` by z-index ascending, in the words of the specification:
a permutation of it, non-decreasing in `zIndex`, with the children of equal `zIndex`
in their previous relative order. -/
def IsStableSortByZ (zIndex : FGCanvasElement → Int) (prev out : List FGCanvasElement) :
    Prop :=
  out.Perm prev
    ∧ out.Pairwise (fun a b => zIndex a ≤ zIndex b)
    ∧ ∀ z : Int, out.filter (fun e => decide (zIndex e = z))
        = prev.filter (fun e => decide (zIndex e = z))

/-- A sort that meets the promise of `std::sort` and is not stable: insertion sort of
the reversed input. -/
def reverseInsertionSort (comp : FGCanvasElement → FGCanvasElement → Bool)
    (l : List FGCanvasElement) : List FGCanvasElement :=
  l.reverse.insertionSort (fun a b => comp b a = false)

/-! ## `std::sort` as GNU libstdc++ implements it

The routines of bits/stl_algo.h and bits/stl_heap.h behind `std::sort(first, last,
comp)`, on a list with positions in place of random-access iterators. Loops take the
length of the list as fuel, which no loop exhausts. -/

namespace LibStdCxx

/-- The element `*(begin + i)`; `d` stands in where the list has no such element. -/
def elemAt {α : Type} (d : α) (l : List α) (i : Nat) : α := l.getD i d

/-- `std::iter_swap(begin + i, begin + j)`. -/
def iter_swap {α : Type} (d : α) (l : List α) (i j : Nat) : List α :=
  (l.set i (elemAt d l j)).set j (elemAt d l i)

/-- `std::__lg(n)`: the floor of the binary logarithm. -/
def __lg : Nat → Nat → Nat
  | 0, _ => 0
  | fuel + 1, n => if n < 2 then 0 else __lg fuel (n / 2) + 1

/-- `std::__move_median_to_first(result, a, b, c, comp)`. -/
def __move_median_to_first {α : Type} (comp : α → α → Bool) (d : α) (l : List α)
    (result a b c : Nat) : List α :=
  if comp (elemAt d l a) (elemAt d l b) then
    if comp (elemAt d l b) (elemAt d l c) then iter_swap d l result b
    else if comp (elemAt d l a) (elemAt d l c) then iter_swap d l result c
    else iter_swap d l result a
  else if comp (elemAt d l a) (elemAt d l c) then iter_swap d l result a
  else if comp (elemAt d l b) (elemAt d l c) then iter_swap d l result c
  else iter_swap d l result b

/-- The loop `while (comp(first, pivot)) ++first;` of `std::__unguarded_partition`. -/
def skipLess {α : Type} (comp : α → α → Bool) (d : α) (l : List α) (pivot : Nat) :
    Nat → Nat → Nat
  | 0, first => first
  | fuel + 1, first =>
    if comp (elemAt d l first) (elemAt d l pivot) then skipLess comp d l pivot fuel (first + 1)
    else first

/-- The loop `while (comp(pivot, last)) --last;` of `std::__unguarded_partition`. -/
def skipGreater {α : Type} (comp : α → α → Bool) (d : α) (l : List α) (pivot : Nat) :
    Nat → Nat → Nat
  | 0, last => last
  | fuel + 1, last =>
    if comp (elemAt d l pivot) (elemAt d l last) then skipGreater comp d l pivot fuel (last - 1)
    else last

/-- `std::__unguarded_partition(first, last, pivot, comp)`: the list afterwards and the
position returned. -/
def __unguarded_partition {α : Type} (comp : α → α → Bool) (d : α) (pivot : Nat) :
    Nat → List α → Nat → Nat → List α × Nat
  | 0, l, first, _ => (l, first)
  | fuel + 1, l, first, last =>
    let first1 := skipLess comp d l pivot l.length first
    let last1 := skipGreater comp d l pivot l.length (last - 1)
    if first1 < last1 then
      __unguarded_partition comp d pivot fuel (iter_swap d l first1 last1) (first1 + 1) last1
    else (l, first1)

/-- `std::__unguarded_partition_pivot(first, last, comp)`. -/
def __unguarded_partition_pivot {α : Type} (comp : α → α → Bool) (d : α) (l : List α)
    (first last : Nat) : List α × Nat :=
  let mid := first + (last - first) / 2
  let l1 := __move_median_to_first comp d l first (first + 1) mid (last - 1)
  __unguarded_partition comp d first l.length l1 (first + 1) last

/-- `std::__push_heap(first, holeIndex, topIndex, value, comp)`. -/
def __push_heap {α : Type} (comp : α → α → Bool) (d : α) (first : Nat) :
    Nat → List α → Nat → Nat → α → List α
  | 0, l, holeIndex, _, value => l.set (first + holeIndex) value
  | fuel + 1, l, holeIndex, topIndex, value =>
    let parent := (holeIndex - 1) / 2
    if holeIndex > topIndex ∧ comp (elemAt d l (first + parent)) value = true then
      __push_heap comp d first fuel (l.set (first + holeIndex) (elemAt d l (first + parent)))
        parent topIndex value
    else l.set (first + holeIndex) value

/-- The loop `while (secondChild < (len - 1) / 2)` of `std::__adjust_heap`: the list,
`holeIndex` and `secondChild` after it. -/
def siftDown {α : Type} (comp : α → α → Bool) (d : α) (first len : Nat) :
    Nat → List α → Nat → Nat → List α × Nat × Nat
  | 0, l, holeIndex, secondChild => (l, holeIndex, secondChild)
  | fuel + 1, l, holeIndex, secondChild =>
    if secondChild < (len - 1) / 2 then
      let sc := 2 * (secondChild + 1)
      let sc1 :=
        if comp (elemAt d l (first + sc)) (elemAt d l (first + (sc - 1))) then sc - 1 else sc
      siftDown comp d first len fuel (l.set (first + holeIndex) (elemAt d l (first + sc1)))
        sc1 sc1
    else (l, holeIndex, secondChild)

/-- `std::__adjust_heap(first, holeIndex, len, value, comp)`. -/
def __adjust_heap {α : Type} (comp : α → α → Bool) (d : α) (first : Nat) (l : List α)
    (holeIndex len : Nat) (value : α) : List α :=
  let r := siftDown comp d first len l.length l holeIndex holeIndex
  let r2 : List α × Nat :=
    if len % 2 = 0 ∧ r.2.2 = (len - 2) / 2 then
      (r.1.set (first + r.2.1) (elemAt d r.1 (first + (2 * (r.2.2 + 1) - 1))),
        2 * (r.2.2 + 1) - 1)
    else (r.1, r.2.1)
  __push_heap comp d first l.length r2.1 r2.2 holeIndex value

/-- The loop of `std::__make_heap`. -/
def makeHeapLoop {α : Type} (comp : α → α → Bool) (d : α) (first len : Nat) :
    Nat → List α → Nat → List α
  | 0, l, _ => l
  | fuel + 1, l, parent =>
    let l1 := __adjust_heap comp d first l parent len (elemAt d l (first + parent))
    if parent = 0 then l1 else makeHeapLoop comp d first len fuel l1 (parent - 1)

/-- `std::__make_heap(first, last, comp)`. -/
def __make_heap {α : Type} (comp : α → α → Bool) (d : α) (l : List α) (first last : Nat) :
    List α :=
  if last - first < 2 then l
  else makeHeapLoop comp d first (last - first) l.length l ((last - first - 2) / 2)

/-- `std::__pop_heap(first, last, result, comp)`. -/
def __pop_heap {α : Type} (comp : α → α → Bool) (d : α) (l : List α)
    (first last result : Nat) : List α :=
  __adjust_heap comp d first (l.set result (elemAt d l first)) 0 (last - first)
    (elemAt d l result)

/-- `std::__sort_heap(first, last, comp)`. -/
def __sort_heap {α : Type} (comp : α → α → Bool) (d : α) (first : Nat) :
    Nat → List α → Nat → List α
  | 0, l, _ => l
  | fuel + 1, l, last =>
    if last - first > 1 then
      __sort_heap comp d first fuel (__pop_heap comp d l first (last - 1) (last - 1))
        (last - 1)
    else l

/-- `std::__partial_sort(first, last, last, comp)`: `std::__heap_select`, whose loop
over `[middle, last)` is empty for `middle = last`, then `std::__sort_heap`. -/
def __partial_sort {α : Type} (comp : α → α → Bool) (d : α) (l : List α)
    (first last : Nat) : List α :=
  __sort_heap comp d first l.length (__make_heap comp d l first last) last

/-- `std::__introsort_loop(first, last, depth_limit, comp)`, with `_S_threshold` 16. -/
def __introsort_loop {α : Type} (comp : α → α → Bool) (d : α) :
    Nat → List α → Nat → Nat → Nat → List α
  | 0, l, _, _, _ => l
  | fuel + 1, l, first, last, depth_limit =>
    if last - first > 16 then
      if depth_limit = 0 then __partial_sort comp d l first last
      else
        let r := __unguarded_partition_pivot comp d l first last
        let l1 := __introsort_loop comp d fuel r.1 r.2 last (depth_limit - 1)
        __introsort_loop comp d fuel l1 first r.2 (depth_limit - 1)
    else l

/-- `std::__unguarded_linear_insert(last, comp)` with `val` the element taken from
`last`. With a strict weak ordering the loop never runs past the front of the range;
this function stops there. -/
def __unguarded_linear_insert {α : Type} (comp : α → α → Bool) (d : α) :
    Nat → List α → Nat → α → List α
  | 0, l, last, val => l.set last val
  | fuel + 1, l, last, val =>
    if last = 0 then l.set last val
    else if comp val (elemAt d l (last - 1)) then
      __unguarded_linear_insert comp d fuel (l.set last (elemAt d l (last - 1))) (last - 1) val
    else l.set last val

/-- The loop of `std::__insertion_sort`, from position `i` for `count` elements. -/
def insertionSortLoop {α : Type} (comp : α → α → Bool) (d : α) (first : Nat) :
    Nat → List α → Nat → List α
  | 0, l, _ => l
  | count + 1, l, i =>
    let l1 :=
      if comp (elemAt d l i) (elemAt d l first) then
        l.take first ++ elemAt d l i :: (l.drop first).take (i - first) ++ l.drop (i + 1)
      else __unguarded_linear_insert comp d l.length l i (elemAt d l i)
    insertionSortLoop comp d first count l1 (i + 1)

/-- `std::__insertion_sort(first, last, comp)`. -/
def __insertion_sort {α : Type} (comp : α → α → Bool) (d : α) (l : List α)
    (first last : Nat) : List α :=
  if first = last then l
  else insertionSortLoop comp d first (last - (first + 1)) l (first + 1)

/-- `std::__unguarded_insertion_sort(first, last, comp)`, from position `i` for `count`
elements. -/
def __unguarded_insertion_sort {α : Type} (comp : α → α → Bool) (d : α) :
    Nat → List α → Nat → List α
  | 0, l, _ => l
  | count + 1, l, i =>
    __unguarded_insertion_sort comp d count
      (__unguarded_linear_insert comp d l.length l i (elemAt d l i)) (i + 1)

/-- `std::__final_insertion_sort(first, last, comp)`. -/
def __final_insertion_sort {α : Type} (comp : α → α → Bool) (d : α) (l : List α)
    (first last : Nat) : List α :=
  if last - first > 16 then
    __unguarded_insertion_sort comp d (last - (first + 16))
      (__insertion_sort comp d l first (first + 16)) (first + 16)
  else __insertion_sort comp d l first last

/-- `std::sort(begin, end, comp)` over the whole list (`std::__sort`): nothing for an
empty range, else the introsort loop with depth limit `2 * __lg(n)` and the final
insertion sort. -/
def sort {α : Type} (comp : α → α → Bool) (l : List α) : List α :=
  match l with
  | [] => []
  | d :: _ =>
    __final_insertion_sort comp d
      (__introsort_loop comp d l.length l 0 l.length (2 * __lg l.length l.length)) 0 l.length

end LibStdCxx

/-- A path element bound to the node `path[i]`. -/
def wideChild (i : Nat) : FGCanvasElement := ⟨.path, ⟨[⟨"path".toList, i⟩], i + 1⟩⟩

/-- A root group with seventeen children, bound to the nodes `path[0]` to `path[16]`
in this order. -/
def wideGroup : FGCanvasGroup :=
  { isRootGroup := true,
    _children := (List.range 17).map wideChild,
    connections := [],
    _clipDirty := false,
    _zIndicesDirty := false,
    _cachedSymbolDirty := false,
    _hasClip := false,
    _clipRect := ⟨0, 0, 0, 0⟩ }

/-! ## The image loader: `FGQCanvasImageLoader` -/

/-- A `QUrl` as `getImage` builds it: scheme, host, port and path. -/
structure QUrl where
  scheme : List Char
  host : List Char
  port : Int
  path : QByteArray
deriving DecidableEq, Repr

/-- A `QPixmap`: `none` is the null pixmap `QPixmap()`, otherwise the decoded image. -/
abbrev QPixmap := Option QByteArray

/-- A transfer in flight, `QNetworkReply*`: `handle` stands for the pointer, `url` is
`reply->url()`, `image` is the property `image`, and `holder` tells whether a signal
holder was attached by `connectToImageLoaded`. -/
structure QNetworkReply where
  handle : Nat
  url : QUrl
  image : QByteArray
  holder : Bool
deriving DecidableEq, Repr

/-- The members of `FGQCanvasImageLoader`; `nextHandle` is the next fresh pointer the
downloader hands out. -/
structure FGQCanvasImageLoader where
  m_hostName : List Char
  m_port : Int
  m_cache : QByteArray → Option QPixmap
  m_transfers : List QNetworkReply
  nextHandle : Nat

namespace FGQCanvasImageLoader

/-- The URL `getImage` builds for an image path. -/
def imageUrl (l : FGQCanvasImageLoader) (imagePath : QByteArray) : QUrl :=
  { scheme := "http".toList,
    host := l.m_hostName,
    port := l.m_port,
    path := "/aircraft-dir/".toList ++ imagePath }

/-- `FGQCanvasImageLoader::getImage`: the pixmap returned and the loader afterwards. -/
def getImage (l : FGQCanvasImageLoader) (imagePath : QByteArray) :
    QPixmap × FGQCanvasImageLoader :=
  match l.m_cache imagePath with
  | some pm => (pm, l)
  | none =>
    let url := l.imageUrl imagePath
    if l.m_transfers.any (fun transfer => decide (transfer.url = url)) then
      (none, l)
    else
      let reply : QNetworkReply :=
        { handle := l.nextHandle, url := url, image := imagePath, holder := false }
      (none, { l with m_transfers := l.m_transfers ++ [reply],
                      nextHandle := l.nextHandle + 1 })

/-- `FGQCanvasImageLoader::onDownloadFinished` for the reply that sent the signal:
the loader afterwards and whether the holder's `trigger` was emitted. `loaded` is the
outcome of `pm.loadFromData(reply->readAll())`: `none` when loading failed. -/
def onDownloadFinished (l : FGQCanvasImageLoader) (reply : QNetworkReply)
    (loaded : Option QByteArray) : FGQCanvasImageLoader × Bool :=
  let removeOne := l.m_transfers.eraseP (fun t => decide (t.handle = reply.handle))
  match loaded with
  | none => ({ l with m_transfers := removeOne }, false)
  | some pm =>
    ({ l with m_cache := fun p => if p = reply.image then some (some pm) else l.m_cache p,
              m_transfers := removeOne },
      reply.holder)

/-- `FGQCanvasImageLoader::setHost`. -/
def setHost (l : FGQCanvasImageLoader) (hostName : List Char) (portNumber : Int) :
    FGQCanvasImageLoader :=
  { l with m_hostName := hostName, m_port := portNumber }

/-- The loader as constructed: nothing cached, nothing in flight. -/
def initial : FGQCanvasImageLoader :=
  { m_hostName := [],
    m_port := 0,
    m_cache := fun _ => none,
    m_transfers := [],
    nextHandle := 0 }

end FGQCanvasImageLoader

/-- What can happen to the loader: a request, the end of a transfer, a change of host. -/
inductive LoaderEvent where
  | getImage (imagePath : QByteArray)
  | downloadFinished (reply : QNetworkReply) (loaded : Option QByteArray)
  | setHost (hostName : List Char) (portNumber : Int)

/-- The loader after one event. -/
def FGQCanvasImageLoader.step (l : FGQCanvasImageLoader) : LoaderEvent → FGQCanvasImageLoader
  | .getImage p => (l.getImage p).2
  | .downloadFinished reply loaded => (l.onDownloadFinished reply loaded).1
  | .setHost h p => l.setHost h p

/-- The loader after a sequence of events. -/
def FGQCanvasImageLoader.run (l : FGQCanvasImageLoader) (evs : List LoaderEvent) :
    FGQCanvasImageLoader :=
  evs.foldl FGQCanvasImageLoader.step l

/-- No two transfers in flight have the same URL. -/
def FGQCanvasImageLoader.urlsDistinct (l : FGQCanvasImageLoader) : Prop :=
  (l.m_transfers.map QNetworkReply.url).Nodup

/-- A loader for host `localhost:8080` with `a.png` cached and a transfer for `b.png`
in flight. -/
def sampleLoader : FGQCanvasImageLoader :=
  { m_hostName := "localhost".toList,
    m_port := 8080,
    m_cache := fun p => if p = "a.png".toList then some (some "A".toList) else none,
    m_transfers :=
      [{ handle := 0,
         url := ⟨"http".toList, "localhost".toList, 8080, "/aircraft-dir/b.png".toList⟩,
         image := "b.png".toList, holder := false }],
    nextHandle := 1 }

/-! ## Readings of a message used to state what it looks up -/

/-- The segments the `created` loop resolves for an entry: `none` when the loop skips
the entry (the root is not a prefix of its path) and when the rest of the path is
malformed. -/
def handledSegs (root : QByteArray) (e : JsonValue) : Option (List NameIndexTuple) :=
  let p := toUtf8 (objValue e.toObject "path").toQString
  if QByteArray.indexOf p root ≠ 0 then none
  else
    match parsePath (p.drop (root.length + 1)) with
    | .ok segs => some segs
    | .error _ => none

/-- The `created` loop does not fault on the entry: it skips it, or the rest of its
path is well-formed. -/
def createdEntryOk (root : QByteArray) (e : JsonValue) : Prop :=
  QByteArray.indexOf (toUtf8 (objValue e.toObject "path").toQString) root ≠ 0
    ∨ (handledSegs root e).isSome = true

/-- The id a removal entry carries, as the handler reads it. -/
def removalId (r : JsonValue) : Nat := toUInt r.toInt

/-- The id a `changed` entry carries, as the handler reads it. -/
def changeId (c : JsonValue) : Nat := toUInt (c.toArray.getD 0 .undefined).toInt

/-- The value a `changed` entry carries, as the handler reads it. -/
def changeValue (c : JsonValue) : JsonValue := c.toArray.getD 1 .undefined

/-- The positions the id table points to. -/
def pathTable (w : TemporaryWidget) : Nat → Option (List NameIndexTuple) :=
  fun i => (w.idPropertyDict i).map NodeRef.path

/-- The positions the id table points to after one `created` entry: an entry the loop
handles adds its id with the position it resolves, unless the id is a key already. -/
def pathsStep (root : QByteArray) (d : Nat → Option (List NameIndexTuple))
    (x : JsonValue) : Nat → Option (List NameIndexTuple) :=
  fun i =>
    match handledSegs root x with
    | some segs => if i = entryId x ∧ (d (entryId x)).isSome = false then some segs else d i
    | none => d i

/-- The positions the id table points to after the `created` loop. -/
def pathsAfterCreated (root : QByteArray) :
    (Nat → Option (List NameIndexTuple)) → List JsonValue →
      (Nat → Option (List NameIndexTuple))
  | d, [] => d
  | d, x :: xs => pathsAfterCreated root (pathsStep root d x) xs

/-- The positions the id table of the session points to once the `created` entries of
a message have been applied. -/
def TemporaryWidget.pathsAfter (w : TemporaryWidget) (created : List JsonValue) :
    Nat → Option (List NameIndexTuple) :=
  pathsAfterCreated w.rootPropertyPath (pathTable w) created

/-! ## Lemmas on child lists and trees -/

namespace LocalProp

theorem findChild_id {cs : List LocalProp} {k : NameIndexTuple} {c : LocalProp}
    (h : findChild cs k = some c) : c.id = k := by
  have := List.find?_some h
  simpa using this

theorem findChild_replaceChild_same {cs : List LocalProp} {k : NameIndexTuple}
    {c n : LocalProp} (h : findChild cs k = some c) (hn : n.id = k) :
    findChild (replaceChild cs k n) k = some n := by
  induction cs with
  | nil => simp [findChild] at h
  | cons a cs ih =>
    by_cases ha : a.id = k
    · simp [replaceChild, ha, findChild, hn]
    · have h2 : findChild cs k = some c := by
        simpa [findChild, List.find?_cons, ha] using h
      simpa [replaceChild, ha, findChild, List.find?_cons] using ih h2

theorem findChild_replaceChild_ne {cs : List LocalProp} {k j : NameIndexTuple}
    {n : LocalProp} (hn : n.id = k) (hj : j ≠ k) :
    findChild (replaceChild cs k n) j = findChild cs j := by
  induction cs with
  | nil => simp [replaceChild]
  | cons a cs ih =>
    by_cases ha : a.id = k
    · have h1 : ¬ a.id = j := fun e => hj (e.symm.trans ha)
      have h2 : ¬ n.id = j := fun e => hj (e.symm.trans hn)
      simp [replaceChild, ha, findChild, List.find?_cons, h1, h2, hn, Ne.symm hj]
    · by_cases haj : a.id = j
      · have hak : ¬ (j = k) := hj
        simp [replaceChild, ha, findChild, List.find?_cons, haj, hak]
      · simpa [replaceChild, ha, findChild, List.find?_cons, haj] using ih

theorem findChild_append_of_some {cs l : List LocalProp} {k : NameIndexTuple}
    {c : LocalProp} (h : findChild cs k = some c) : findChild (cs ++ l) k = some c := by
  simp [findChild, List.find?_append] at h ⊢
  simp [h]

theorem findChild_append_new {cs : List LocalProp} {k : NameIndexTuple} {n : LocalProp}
    (h : findChild cs k = none) (hn : n.id = k) : findChild (cs ++ [n]) k = some n := by
  simp [findChild, List.find?_append] at h ⊢
  simp [hn]
  exact Or.inr h

end LocalProp

namespace LocalProp

@[simp] theorem id_mk (i : NameIndexTuple) (s : Nat) (v : JsonValue) (cs : List LocalProp) :
    (LocalProp.mk i s v cs).id = i := rfl

@[simp] theorem serial_mk (i : NameIndexTuple) (s : Nat) (v : JsonValue)
    (cs : List LocalProp) : (LocalProp.mk i s v cs).serial = s := rfl

@[simp] theorem value_mk (i : NameIndexTuple) (s : Nat) (v : JsonValue)
    (cs : List LocalProp) : (LocalProp.mk i s v cs).value = v := rfl

@[simp] theorem children_mk (i : NameIndexTuple) (s : Nat) (v : JsonValue)
    (cs : List LocalProp) : (LocalProp.mk i s v cs).children = cs := rfl

theorem getNode_nil (t : LocalProp) : getNode t [] = some t := by
  rw [getNode]

theorem getNode_cons_some {t c : LocalProp} {k : NameIndexTuple}
    (ks : List NameIndexTuple) (h : findChild t.children k = some c) :
    getNode t (k :: ks) = getNode c ks := by
  rw [getNode, h]

theorem getNode_cons_none {t : LocalProp} {k : NameIndexTuple}
    (ks : List NameIndexTuple) (h : findChild t.children k = none) :
    getNode t (k :: ks) = none := by
  rw [getNode, h]

theorem getOrCreateWithSegs_nil (t : LocalProp) (f : Nat) :
    getOrCreateWithSegs t [] f = (t, f, t.serial) := by
  rw [getOrCreateWithSegs]

theorem getOrCreateWithSegs_cons_some {t c : LocalProp} {k : NameIndexTuple}
    (ks : List NameIndexTuple) (f : Nat) (h : findChild t.children k = some c) :
    getOrCreateWithSegs t (k :: ks) f =
      (.mk t.id t.serial t.value (replaceChild t.children k (getOrCreateWithSegs c ks f).1),
        (getOrCreateWithSegs c ks f).2.1, (getOrCreateWithSegs c ks f).2.2) := by
  rw [getOrCreateWithSegs, h]

theorem getOrCreateWithSegs_cons_none {t : LocalProp} {k : NameIndexTuple}
    (ks : List NameIndexTuple) (f : Nat) (h : findChild t.children k = none) :
    getOrCreateWithSegs t (k :: ks) f =
      (.mk t.id t.serial t.value
          (t.children ++ [(getOrCreateWithSegs (.mk k f .undefined []) ks (f + 1)).1]),
        (getOrCreateWithSegs (.mk k f .undefined []) ks (f + 1)).2.1,
        (getOrCreateWithSegs (.mk k f .undefined []) ks (f + 1)).2.2) := by
  rw [getOrCreateWithSegs, h]

theorem setValueAt_nil (t : LocalProp) (v : JsonValue) :
    setValueAt t [] v = some (.mk t.id t.serial v t.children) := by
  rw [setValueAt]

theorem setValueAt_cons_some {t c : LocalProp} {k : NameIndexTuple}
    (ks : List NameIndexTuple) (v : JsonValue) (h : findChild t.children k = some c) :
    setValueAt t (k :: ks) v =
      (setValueAt c ks v).map
        (fun c1 => .mk t.id t.serial t.value (replaceChild t.children k c1)) := by
  rw [setValueAt, h]
  cases hc : setValueAt c ks v <;> simp [hc]

theorem setValueAt_cons_none {t : LocalProp} {k : NameIndexTuple}
    (ks : List NameIndexTuple) (v : JsonValue) (h : findChild t.children k = none) :
    setValueAt t (k :: ks) v = none := by
  rw [setValueAt, h]

theorem getOrCreateWithSegs_root (t : LocalProp) (ks : List NameIndexTuple) (f : Nat) :
    (getOrCreateWithSegs t ks f).1.id = t.id
      ∧ (getOrCreateWithSegs t ks f).1.serial = t.serial
      ∧ (getOrCreateWithSegs t ks f).1.value = t.value := by
  cases ks with
  | nil => simp [getOrCreateWithSegs_nil]
  | cons k ks =>
    cases h : findChild t.children k with
    | none => simp [getOrCreateWithSegs_cons_none ks f h]
    | some c => simp [getOrCreateWithSegs_cons_some ks f h]

/-- The node reached by `getOrCreateWithSegs` is found at the path and carries the
serial returned. -/
theorem getOrCreateWithSegs_self (ks : List NameIndexTuple) :
    ∀ (t : LocalProp) (f : Nat),
      serialAt (getOrCreateWithSegs t ks f).1 ks = some (getOrCreateWithSegs t ks f).2.2 := by
  induction ks with
  | nil => intro t f; simp [getOrCreateWithSegs_nil, serialAt, getNode_nil]
  | cons k ks ih =>
    intro t f
    cases h : findChild t.children k with
    | none =>
      have hid := (getOrCreateWithSegs_root (.mk k f .undefined []) ks (f + 1)).1
      have hf := findChild_append_new
        (n := (getOrCreateWithSegs (.mk k f .undefined []) ks (f + 1)).1) h hid
      have := ih (.mk k f .undefined []) (f + 1)
      rw [getOrCreateWithSegs_cons_none ks f h]
      simp only [serialAt] at this ⊢
      rw [getNode_cons_some ks (by simpa using hf)]
      exact this
    | some c =>
      have hid := (getOrCreateWithSegs_root c ks f).1
      have hf := findChild_replaceChild_same h (hid.trans (findChild_id h))
      have := ih c f
      rw [getOrCreateWithSegs_cons_some ks f h]
      simp only [serialAt] at this ⊢
      rw [getNode_cons_some ks (by simpa using hf)]
      exact this

/-- Nodes that exist keep their position, serial and value under `getOrCreateWithSegs`. -/
theorem getOrCreateWithSegs_preserves (ks : List NameIndexTuple) :
    ∀ (t : LocalProp) (f : Nat) (q : List NameIndexTuple) (n : LocalProp),
      getNode t q = some n →
      ∃ m, getNode (getOrCreateWithSegs t ks f).1 q = some m
        ∧ m.serial = n.serial ∧ m.value = n.value := by
  induction ks with
  | nil => intro t f q n h; exact ⟨n, by simpa [getOrCreateWithSegs_nil] using h, rfl, rfl⟩
  | cons k ks ih =>
    intro t f q n h
    cases q with
    | nil =>
      have hr := getOrCreateWithSegs_root t (k :: ks) f
      rw [getNode_nil, Option.some.injEq] at h
      subst h
      exact ⟨_, getNode_nil _, hr.2.1, hr.2.2⟩
    | cons j q =>
      cases hj : findChild t.children j with
      | none => rw [getNode_cons_none q hj] at h; exact absurd h (by simp)
      | some cj =>
        have h2 : getNode cj q = some n := by rw [getNode_cons_some q hj] at h; exact h
        cases hk : findChild t.children k with
        | none =>
          have hf : findChild (t.children ++ [(getOrCreateWithSegs
              (.mk k f .undefined []) ks (f + 1)).1]) j = some cj :=
            findChild_append_of_some hj
          refine ⟨n, ?_, rfl, rfl⟩
          rw [getOrCreateWithSegs_cons_none ks f hk, getNode_cons_some q (by simpa using hf)]
          exact h2
        | some c =>
          have hid := ((getOrCreateWithSegs_root c ks f).1).trans (findChild_id hk)
          by_cases hjk : j = k
          · subst hjk
            have hc : cj = c := by
              rw [hj] at hk
              exact Option.some.inj hk
            subst hc
            obtain ⟨m, hm, hs, hv⟩ := ih cj f q n h2
            refine ⟨m, ?_, hs, hv⟩
            rw [getOrCreateWithSegs_cons_some ks f hk,
              getNode_cons_some q (by simpa using findChild_replaceChild_same hj hid)]
            exact hm
          · refine ⟨n, ?_, rfl, rfl⟩
            have hf := (@findChild_replaceChild_ne t.children k j _ hid hjk).trans hj
            rw [getOrCreateWithSegs_cons_some ks f hk, getNode_cons_some q (by simpa using hf)]
            exact h2

theorem setValueAt_root {t u : LocalProp} {q : List NameIndexTuple} {v : JsonValue}
    (h : setValueAt t q v = some u) : u.id = t.id ∧ u.serial = t.serial := by
  cases q with
  | nil =>
    rw [setValueAt_nil, Option.some.injEq] at h
    subst h
    simp
  | cons k q =>
    cases hk : findChild t.children k with
    | none => rw [setValueAt_cons_none q v hk] at h; exact absurd h (by simp)
    | some c =>
      rw [setValueAt_cons_some q v hk] at h
      cases hc : setValueAt c q v with
      | none => rw [hc] at h; exact absurd h (by simp)
      | some c1 =>
        rw [hc, Option.map_some', Option.some.injEq] at h
        subst h
        simp

/-- Setting a value succeeds at every position that holds a node. -/
theorem setValueAt_isSome (q : List NameIndexTuple) :
    ∀ (t n : LocalProp) (v : JsonValue), getNode t q = some n →
      ∃ u, setValueAt t q v = some u := by
  induction q with
  | nil => intro t n v _; exact ⟨_, setValueAt_nil t v⟩
  | cons k q ih =>
    intro t n v h
    cases hk : findChild t.children k with
    | none => rw [getNode_cons_none q hk] at h; exact absurd h (by simp)
    | some c =>
      rw [getNode_cons_some q hk] at h
      obtain ⟨u, hu⟩ := ih c n v h
      exact ⟨_, by rw [setValueAt_cons_some q v hk, hu, Option.map_some']⟩

/-- The shape of a successful `setValueAt` below the first segment. -/
theorem setValueAt_cons_inv {t u : LocalProp} {k : NameIndexTuple}
    {q : List NameIndexTuple} {v : JsonValue} (h : setValueAt t (k :: q) v = some u) :
    ∃ c c1, findChild t.children k = some c ∧ setValueAt c q v = some c1
      ∧ c1.id = k ∧ u = .mk t.id t.serial t.value (replaceChild t.children k c1) := by
  cases hk : findChild t.children k with
  | none => rw [setValueAt_cons_none q v hk] at h; exact absurd h (by simp)
  | some c =>
    rw [setValueAt_cons_some q v hk] at h
    cases hc : setValueAt c q v with
    | none => rw [hc] at h; exact absurd h (by simp)
    | some c1 =>
      rw [hc, Option.map_some', Option.some.injEq] at h
      exact ⟨c, c1, rfl, hc, ((setValueAt_root hc).1).trans (findChild_id hk), h.symm⟩

/-- Setting a value changes no serial and moves no node. -/
theorem setValueAt_serialAt (q : List NameIndexTuple) :
    ∀ (t u : LocalProp) (v : JsonValue) (p : List NameIndexTuple),
      setValueAt t q v = some u → serialAt u p = serialAt t p := by
  induction q with
  | nil =>
    intro t u v p h
    rw [setValueAt_nil, Option.some.injEq] at h
    subst h
    cases p with
    | nil => simp [serialAt, getNode_nil]
    | cons j p => simp only [serialAt]; rw [getNode, getNode]; simp
  | cons k q ih =>
    intro t u v p h
    obtain ⟨c, c1, hk, hc, hid, hu⟩ := setValueAt_cons_inv h
    subst hu
    cases p with
    | nil => simp [serialAt, getNode_nil]
    | cons j p =>
      by_cases hjk : j = k
      · subst hjk
        have := ih c c1 v p hc
        simp only [serialAt] at this ⊢
        rw [getNode_cons_some p (by simpa using findChild_replaceChild_same hk hid),
          getNode_cons_some p hk]
        exact this
      · simp only [serialAt]
        rw [getNode, getNode]
        simp only [children_mk]
        rw [findChild_replaceChild_ne hid hjk]

/-- After setting a value the node at that position holds it. -/
theorem setValueAt_valueAt_self (q : List NameIndexTuple) :
    ∀ (t u : LocalProp) (v : JsonValue),
      setValueAt t q v = some u → valueAt u q = some v := by
  induction q with
  | nil =>
    intro t u v h
    rw [setValueAt_nil, Option.some.injEq] at h
    subst h
    simp [valueAt, getNode_nil]
  | cons k q ih =>
    intro t u v h
    obtain ⟨c, c1, hk, hc, hid, hu⟩ := setValueAt_cons_inv h
    subst hu
    have := ih c c1 v hc
    simp only [valueAt] at this ⊢
    rw [getNode_cons_some q (by simpa using findChild_replaceChild_same hk hid)]
    exact this

/-- Setting a value leaves the value at every other position as it was. -/
theorem setValueAt_valueAt_ne (q : List NameIndexTuple) :
    ∀ (t u : LocalProp) (v : JsonValue) (p : List NameIndexTuple),
      setValueAt t q v = some u → p ≠ q → valueAt u p = valueAt t p := by
  induction q with
  | nil =>
    intro t u v p h hp
    rw [setValueAt_nil, Option.some.injEq] at h
    subst h
    cases p with
    | nil => exact absurd rfl hp
    | cons j p => simp only [valueAt]; rw [getNode, getNode]; simp
  | cons k q ih =>
    intro t u v p h hp
    obtain ⟨c, c1, hk, hc, hid, hu⟩ := setValueAt_cons_inv h
    subst hu
    cases p with
    | nil => simp [valueAt, getNode_nil]
    | cons j p =>
      by_cases hjk : j = k
      · subst hjk
        have hpq : p ≠ q := fun e => hp (by rw [e])
        have := ih c c1 v p hc hpq
        simp only [valueAt] at this ⊢
        rw [getNode_cons_some p (by simpa using findChild_replaceChild_same hk hid),
          getNode_cons_some p hk]
        exact this
      · simp only [valueAt]
        rw [getNode, getNode]
        simp only [children_mk]
        rw [findChild_replaceChild_ne hid hjk]

end LocalProp

/-! ## Lemmas on the session -/

theorem QByteArray.indexOf_eq_zero {hay needle : QByteArray}
    (h : needle.isPrefixOf hay = true) : QByteArray.indexOf hay needle = 0 := by
  cases hay with
  | nil => rw [QByteArray.indexOf, if_pos h]
  | cons c hay => rw [QByteArray.indexOf, if_pos h]

theorem QByteArray.indexOf_eq_zero_iff (hay needle : QByteArray) :
    QByteArray.indexOf hay needle = 0 ↔ needle.isPrefixOf hay = true := by
  constructor
  · intro h
    by_contra hp
    cases hay with
    | nil => rw [QByteArray.indexOf, if_neg hp] at h; exact absurd h (by decide)
    | cons c hay =>
      rw [QByteArray.indexOf, if_neg hp] at h
      by_cases hr : QByteArray.indexOf hay needle < 0
      · simp only [hr, if_true] at h; exact absurd h (by decide)
      · simp only [hr, if_false] at h; omega
  · exact QByteArray.indexOf_eq_zero

theorem serialAt_getOrCreateWithSegs {t : LocalProp} {p : List NameIndexTuple} {s : Nat}
    (ks : List NameIndexTuple) (f : Nat) (h : serialAt t p = some s) :
    serialAt (t.getOrCreateWithSegs ks f).1 p = some s := by
  unfold serialAt at h ⊢
  cases hn : t.getNode p with
  | none => rw [hn] at h; exact absurd h (by simp)
  | some n =>
    rw [hn] at h
    obtain ⟨m, hm, hs, _⟩ := LocalProp.getOrCreateWithSegs_preserves ks t f p n hn
    rw [hm]
    simpa [hs] using h

theorem valueAt_getOrCreateWithSegs {t : LocalProp} {p : List NameIndexTuple}
    {x : JsonValue} (ks : List NameIndexTuple) (f : Nat) (h : valueAt t p = some x) :
    valueAt (t.getOrCreateWithSegs ks f).1 p = some x := by
  unfold valueAt at h ⊢
  cases hn : t.getNode p with
  | none => rw [hn] at h; exact absurd h (by simp)
  | some n =>
    rw [hn] at h
    obtain ⟨m, hm, _, hv⟩ := LocalProp.getOrCreateWithSegs_preserves ks t f p n hn
    rw [hm]
    simpa [hv] using h

theorem deref_eq_some_iff (t : LocalProp) (r : NodeRef) :
    (∃ n, deref t r = some n) ↔ serialAt t r.path = some r.serial := by
  unfold deref serialAt
  cases h : t.getNode r.path with
  | none => simp
  | some n =>
    by_cases hs : n.serial = r.serial <;> simp [hs]

/-- A change through a live pointer succeeds; the node then holds the value, and no
other node changes value, serial or place. -/
theorem processChange_live {t : LocalProp} {r : NodeRef} (v : JsonValue)
    (h : serialAt t r.path = some r.serial) :
    ∃ u, processChange t r v = .ok u ∧ valueAt u r.path = some v
      ∧ (∀ p, serialAt u p = serialAt t p)
      ∧ (∀ p, p ≠ r.path → valueAt u p = valueAt t p) := by
  obtain ⟨n, hn⟩ := (deref_eq_some_iff t r).mpr h
  have hg : ∃ m, t.getNode r.path = some m := by
    unfold serialAt at h
    cases hm : t.getNode r.path with
    | none => rw [hm] at h; exact absurd h (by simp)
    | some m => exact ⟨m, rfl⟩
  obtain ⟨m, hm⟩ := hg
  obtain ⟨u, hu⟩ := LocalProp.setValueAt_isSome r.path t m v hm
  refine ⟨u, ?_, LocalProp.setValueAt_valueAt_self r.path t u v hu,
    fun p => LocalProp.setValueAt_serialAt r.path t u v p hu,
    fun p hp => LocalProp.setValueAt_valueAt_ne r.path t u v p hu hp⟩
  unfold processChange
  rw [hn]
  simp only [hu]

namespace TemporaryWidget

theorem forEach_append (step : TemporaryWidget → JsonValue → Except Fault TemporaryWidget)
    (xs ys : List JsonValue) : ∀ w : TemporaryWidget,
    forEach step w (xs ++ ys) =
      match forEach step w xs with
      | .error e => .error e
      | .ok w1 => forEach step w1 ys := by
  induction xs with
  | nil => intro w; simp [forEach]
  | cons x xs ih =>
    intro w
    cases h : step w x with
    | error e => simp [forEach, h]
    | ok w1 => simp [forEach, h, ih w1]

/-- What `createdStep` computes for an entry whose path is the root, a '/', and a
well-formed local path. -/
theorem createdStep_eq {w : TemporaryWidget} {e : JsonValue} {segs : List NameIndexTuple}
    (hs : localSegs w.rootPropertyPath e = some segs) :
    createdStep w e =
      match w.idPropertyDict (entryId e) with
      | some old =>
        match deref (w.m_localPropertyRoot.getOrCreateWithSegs segs w.nextSerial).1 old with
        | none => .error .danglingNode
        | some _ =>
          match processChange (w.m_localPropertyRoot.getOrCreateWithSegs segs w.nextSerial).1
              ⟨segs, (w.m_localPropertyRoot.getOrCreateWithSegs segs w.nextSerial).2.2⟩
              (entryValue e) with
          | .error err => .error err
          | .ok root2 =>
            .ok { w with m_localPropertyRoot := root2,
                         nextSerial :=
                           (w.m_localPropertyRoot.getOrCreateWithSegs segs w.nextSerial).2.1 }
      | none =>
        match processChange (w.m_localPropertyRoot.getOrCreateWithSegs segs w.nextSerial).1
            ⟨segs, (w.m_localPropertyRoot.getOrCreateWithSegs segs w.nextSerial).2.2⟩
            (entryValue e) with
        | .error err => .error err
        | .ok root2 =>
          .ok { w with m_localPropertyRoot := root2,
                       nextSerial :=
                         (w.m_localPropertyRoot.getOrCreateWithSegs segs w.nextSerial).2.1,
                       idPropertyDict := dictInsert w.idPropertyDict (entryId e)
                         ⟨segs, (w.m_localPropertyRoot.getOrCreateWithSegs segs
                           w.nextSerial).2.2⟩ } := by
  unfold localSegs at hs
  simp only at hs
  split at hs
  · rename_i hpre
    have hroot : w.rootPropertyPath.isPrefixOf
        (toUtf8 (objValue e.toObject "path").toQString) = true := by
      rw [ List.isPrefixOf_iff_prefix] at hpre ⊢
      exact (List.prefix_append _ _).trans hpre
    have h0 := QByteArray.indexOf_eq_zero hroot
    cases hp : parsePath ((toUtf8 (objValue e.toObject "path").toQString).drop
        (w.rootPropertyPath.length + 1)) with
    | error err => rw [hp] at hs; exact absurd hs (by simp)
    | ok sg =>
      rw [hp] at hs
      simp only [Option.some.injEq] at hs
      subst hs
      unfold createdStep propertyFromPath LocalProp.getOrCreateWithPath QByteArray.mid
      simp only [h0, ne_eq, not_true_eq_false, if_false, hp, entryId, entryValue]
  · exact absurd hs (by simp)

end TemporaryWidget

namespace TemporaryWidget

/-- One well-formed `created` entry in a session with a live id table: the step
succeeds, the node at the local path holds the entry's value, nothing else changes
value, the table keeps its entries and gains the entry's id if it was unknown. -/
theorem createdStep_spec {w : TemporaryWidget} {e : JsonValue} {segs : List NameIndexTuple}
    (hs : localSegs w.rootPropertyPath e = some segs) (hl : dictLive w) :
    ∃ w1, createdStep w e = .ok w1
      ∧ w1.rootPropertyPath = w.rootPropertyPath
      ∧ dictLive w1
      ∧ valueAt w1.m_localPropertyRoot segs = some (entryValue e)
      ∧ (∀ p x, p ≠ segs → valueAt w.m_localPropertyRoot p = some x →
          valueAt w1.m_localPropertyRoot p = some x)
      ∧ (∀ i r, w.idPropertyDict i = some r → w1.idPropertyDict i = some r)
      ∧ (∀ i, i ≠ entryId e → w1.idPropertyDict i = w.idPropertyDict i)
      ∧ (w.idPropertyDict (entryId e) = none →
          ∃ s, w1.idPropertyDict (entryId e) = some ⟨segs, s⟩)
      ∧ (∀ p s, serialAt w.m_localPropertyRoot p = some s →
          serialAt w1.m_localPropertyRoot p = some s) := by
  rw [createdStep_eq hs]
  have hself := LocalProp.getOrCreateWithSegs_self segs w.m_localPropertyRoot w.nextSerial
  obtain ⟨u, hu, hval, hser, hne⟩ := processChange_live
    (t := (w.m_localPropertyRoot.getOrCreateWithSegs segs w.nextSerial).1)
    (r := ⟨segs, (w.m_localPropertyRoot.getOrCreateWithSegs segs w.nextSerial).2.2⟩)
    (entryValue e) hself
  have hpres : ∀ p s, serialAt w.m_localPropertyRoot p = some s → serialAt u p = some s := by
    intro p s hp
    rw [hser p]
    exact serialAt_getOrCreateWithSegs segs w.nextSerial hp
  have hkeep : ∀ p x, p ≠ segs → valueAt w.m_localPropertyRoot p = some x →
      valueAt u p = some x := by
    intro p x hp hx
    rw [hne p hp]
    exact valueAt_getOrCreateWithSegs segs w.nextSerial hx
  have hlive : ∀ i r, w.idPropertyDict i = some r → serialAt u r.path = some r.serial := by
    intro i r hr
    rw [hser r.path]
    exact serialAt_getOrCreateWithSegs segs w.nextSerial (hl i r hr)
  cases hd : w.idPropertyDict (entryId e) with
  | some old =>
    have hold := serialAt_getOrCreateWithSegs segs w.nextSerial (hl _ old hd)
    obtain ⟨n, hn⟩ := (deref_eq_some_iff _ old).mpr hold
    simp only [hn, hu]
    refine ⟨_, rfl, rfl, ?_, hval, hkeep, fun i r h => h, fun i _ => rfl, ?_, hpres⟩
    · intro i r hr
      exact hlive i r hr
    · intro h
      exact absurd h (by simp)
  | none =>
    simp only [hu]
    refine ⟨_, rfl, rfl, ?_, hval, hkeep, ?_, ?_, ?_, hpres⟩
    · intro i r hr
      simp only [dictInsert] at hr
      by_cases hi : i = entryId e
      · simp only [hi, if_true, Option.some.injEq] at hr
        subst hr
        rw [hser]
        exact hself
      · simp only [hi, if_false] at hr
        exact hlive i r hr
    · intro i r hr
      simp only [dictInsert]
      by_cases hi : i = entryId e
      · subst hi
        rw [hd] at hr
        exact absurd hr (by simp)
      · simp only [hi, if_false]
        exact hr
    · intro i hi
      simp only [dictInsert, hi, if_false]
    · intro _
      exact ⟨(w.m_localPropertyRoot.getOrCreateWithSegs segs w.nextSerial).2.2,
        by simp only [dictInsert, if_true]⟩

/-- A list of well-formed `created` entries in a session with a live id table: the
loop succeeds, the table keeps its entries, ids that no entry carries are untouched,
and a node that no entry names keeps its value. -/
theorem forEach_createdStep_spec (es : List JsonValue) :
    ∀ w : TemporaryWidget, dictLive w →
      (∀ e ∈ es, (localSegs w.rootPropertyPath e).isSome = true) →
      ∃ w1, forEach createdStep w es = .ok w1
        ∧ w1.rootPropertyPath = w.rootPropertyPath
        ∧ dictLive w1
        ∧ (∀ i r, w.idPropertyDict i = some r → w1.idPropertyDict i = some r)
        ∧ (∀ i, (∀ e ∈ es, entryId e ≠ i) → w1.idPropertyDict i = w.idPropertyDict i)
        ∧ (∀ p x, (∀ e ∈ es, localSegs w.rootPropertyPath e ≠ some p) →
            valueAt w.m_localPropertyRoot p = some x →
            valueAt w1.m_localPropertyRoot p = some x)
        ∧ (∀ p s, serialAt w.m_localPropertyRoot p = some s →
            serialAt w1.m_localPropertyRoot p = some s) := by
  induction es with
  | nil =>
    intro w hl _
    exact ⟨w, rfl, rfl, hl, fun _ _ h => h, fun _ _ => rfl, fun _ _ _ h => h,
      fun _ _ h => h⟩
  | cons e es ih =>
    intro w hl hwf
    have he := hwf e (List.mem_cons_self e es)
    obtain ⟨segs, hsegs⟩ := Option.isSome_iff_exists.mp he
    obtain ⟨w1, h1, hr1, hl1, _, hk1, hd1, hi1, _, hp1⟩ := createdStep_spec hsegs hl
    have hwf1 : ∀ x ∈ es, (localSegs w1.rootPropertyPath x).isSome = true := by
      intro x hx
      rw [hr1]
      exact hwf x (List.mem_cons_of_mem e hx)
    obtain ⟨w2, h2, hr2, hl2, hd2, hi2, hk2, hp2⟩ := ih w1 hl1 hwf1
    refine ⟨w2, ?_, hr2.trans hr1, hl2, fun i r h => hd2 i r (hd1 i r h), ?_, ?_,
      fun p s h => hp2 p s (hp1 p s h)⟩
    · simp only [forEach, h1]
      exact h2
    · intro i hi
      rw [hi2 i (fun x hx => hi x (List.mem_cons_of_mem e hx)),
        hi1 i (fun h => hi e (List.mem_cons_self e es) h.symm)]
    · intro p x hp hx
      apply hk2 p x
      · intro y hy
        rw [hr1]
        exact hp y (List.mem_cons_of_mem e hy)
      · apply hk1 p x _ hx
        intro hps
        apply hp e (List.mem_cons_self e es)
        rw [hsegs, hps]

/-- One `changed` entry in a session with a live id table: the step succeeds and
leaves the root path and the id table as they were. -/
theorem changedStep_spec {w : TemporaryWidget} (c : JsonValue) (hl : dictLive w) :
    ∃ w1, changedStep w c = .ok w1
      ∧ w1.rootPropertyPath = w.rootPropertyPath
      ∧ w1.idPropertyDict = w.idPropertyDict
      ∧ dictLive w1 := by
  unfold changedStep
  by_cases hlen : c.toArray.length ≠ 2
  · rw [if_pos hlen]
    exact ⟨w, rfl, rfl, rfl, hl⟩
  · rw [if_neg hlen]
    cases hd : w.idPropertyDict (toUInt (c.toArray.getD 0 .undefined).toInt) with
    | none => exact ⟨w, by simp only [hd], rfl, rfl, hl⟩
    | some lp =>
      obtain ⟨u, hu, _, hser, _⟩ := processChange_live (c.toArray.getD 1 .undefined)
        (hl _ lp hd)
      simp only [hd, hu]
      refine ⟨_, rfl, rfl, rfl, ?_⟩
      intro i r hr
      rw [hser]
      exact hl i r hr

theorem forEach_changedStep_spec (cs : List JsonValue) :
    ∀ w : TemporaryWidget, dictLive w →
      ∃ w1, forEach changedStep w cs = .ok w1
        ∧ w1.rootPropertyPath = w.rootPropertyPath
        ∧ w1.idPropertyDict = w.idPropertyDict
        ∧ dictLive w1 := by
  induction cs with
  | nil => intro w hl; exact ⟨w, rfl, rfl, rfl, hl⟩
  | cons c cs ih =>
    intro w hl
    obtain ⟨w1, h1, hr1, hd1, hl1⟩ := changedStep_spec c hl
    obtain ⟨w2, h2, hr2, hd2, hl2⟩ := ih w1 hl1
    exact ⟨w2, by simp only [forEach, h1]; exact h2, hr2.trans hr1, hd2.trans hd1, hl2⟩

end TemporaryWidget

namespace TemporaryWidget

/-- The `created` loop over `pre ++ e :: post`, all entries well-formed, in a session
with a live id table: it succeeds; the node of `e` holds the value of `e` unless a
later entry names the same node; an id first carried by `e` maps to the node of `e`. -/
theorem forEach_createdStep_entry {w : TemporaryWidget} {pre post : List JsonValue}
    {e : JsonValue} {segs : List NameIndexTuple} (hl : dictLive w)
    (hwf : ∀ x ∈ pre ++ e :: post, (localSegs w.rootPropertyPath x).isSome = true)
    (hsegs : localSegs w.rootPropertyPath e = some segs) :
    ∃ w1, forEach createdStep w (pre ++ e :: post) = .ok w1
      ∧ w1.rootPropertyPath = w.rootPropertyPath
      ∧ dictLive w1
      ∧ (serialAt w1.m_localPropertyRoot segs).isSome = true
      ∧ ((∀ x ∈ post, localSegs w.rootPropertyPath x ≠ some segs) →
          valueAt w1.m_localPropertyRoot segs = some (entryValue e))
      ∧ (w.idPropertyDict (entryId e) = none → (∀ x ∈ pre, entryId x ≠ entryId e) →
          ∃ s, w1.idPropertyDict (entryId e) = some ⟨segs, s⟩) := by
  have hwfa : ∀ x ∈ pre, (localSegs w.rootPropertyPath x).isSome = true :=
    fun x hx => hwf x (List.mem_append_left _ hx)
  obtain ⟨wa, ha, hra, hla, _, hia, _, _⟩ := forEach_createdStep_spec pre w hl hwfa
  have hsegsa : localSegs wa.rootPropertyPath e = some segs := by rw [hra]; exact hsegs
  obtain ⟨wb, hb, hrb, hlb, hvb, _, _, _, hnb, _⟩ := createdStep_spec hsegsa hla
  have hexb : ∃ s, serialAt wb.m_localPropertyRoot segs = some s := by
    unfold valueAt at hvb
    unfold serialAt
    cases hg : wb.m_localPropertyRoot.getNode segs with
    | none => rw [hg] at hvb; exact absurd hvb (by simp)
    | some m => exact ⟨m.serial, rfl⟩
  have hwfb : ∀ x ∈ post, (localSegs wb.rootPropertyPath x).isSome = true := by
    intro x hx
    rw [hrb, hra]
    exact hwf x (List.mem_append_right _ (List.mem_cons_of_mem e hx))
  obtain ⟨wc, hc, hrc, hlc, hdc, _, hkc, hpc⟩ := forEach_createdStep_spec post wb hlb hwfb
  refine ⟨wc, ?_, (hrc.trans hrb).trans hra, hlc, ?_, ?_, ?_⟩
  · rw [forEach_append, ha]
    simp only [forEach, hb]
    exact hc
  · obtain ⟨s, hs⟩ := hexb
    rw [hpc segs s hs]
    rfl
  · intro hlast
    apply hkc segs (entryValue e) _ hvb
    intro x hx
    rw [hrb, hra]
    exact hlast x hx
  · intro hnew hfirst
    have hna : wa.idPropertyDict (entryId e) = none := by
      rw [hia (entryId e) hfirst]
      exact hnew
    obtain ⟨s, hs⟩ := hnb hna
    exact ⟨s, hdc _ _ hs⟩

/-- A duplicate `created` entry whose old node is live: the step succeeds, the id
table is as before, the old node stays where it was, the new node holds the value. -/
theorem createdStep_duplicate {w : TemporaryWidget} {e : JsonValue}
    {segs : List NameIndexTuple} {old : NodeRef}
    (hs : localSegs w.rootPropertyPath e = some segs)
    (hold : w.idPropertyDict (entryId e) = some old)
    (hlive : serialAt w.m_localPropertyRoot old.path = some old.serial) :
    ∃ w1, createdStep w e = .ok w1
      ∧ w1.idPropertyDict = w.idPropertyDict
      ∧ serialAt w1.m_localPropertyRoot old.path = some old.serial
      ∧ valueAt w1.m_localPropertyRoot segs = some (entryValue e)
      ∧ (old.path ≠ segs → valueAt w1.m_localPropertyRoot old.path
          = valueAt w.m_localPropertyRoot old.path) := by
  rw [createdStep_eq hs]
  have hself := LocalProp.getOrCreateWithSegs_self segs w.m_localPropertyRoot w.nextSerial
  obtain ⟨u, hu, hval, hser, hne⟩ := processChange_live
    (t := (w.m_localPropertyRoot.getOrCreateWithSegs segs w.nextSerial).1)
    (r := ⟨segs, (w.m_localPropertyRoot.getOrCreateWithSegs segs w.nextSerial).2.2⟩)
    (entryValue e) hself
  have hold1 := serialAt_getOrCreateWithSegs segs w.nextSerial hlive
  obtain ⟨n, hn⟩ := (deref_eq_some_iff _ old).mpr hold1
  simp only [hold, hn, hu]
  refine ⟨_, rfl, rfl, ?_, hval, ?_⟩
  · show serialAt u old.path = some old.serial
    rw [hser]
    exact hold1
  · intro hp
    show valueAt u old.path = valueAt w.m_localPropertyRoot old.path
    rw [hne old.path hp]
    cases hv : valueAt w.m_localPropertyRoot old.path with
    | some x => exact valueAt_getOrCreateWithSegs segs w.nextSerial hv
    | none =>
      exfalso
      unfold serialAt at hlive
      unfold valueAt at hv
      cases hg : w.m_localPropertyRoot.getNode old.path with
      | none => rw [hg] at hlive; exact absurd hlive (by simp)
      | some m => rw [hg] at hv; exact absurd hv (by simp)

theorem onTextMessageReceived_obj (w : TemporaryWidget) (o : List (String × JsonValue)) :
    onTextMessageReceived w (.obj o) =
      match forEach createdStep w (objValue o "created").toArray with
      | .error e => .error e
      | .ok w1 =>
        match forEach removedStep w1 (objValue o "remvoed").toArray with
        | .error e => .error e
        | .ok w2 => forEach changedStep w2 (objValue o "changed").toArray := by
  unfold onTextMessageReceived
  simp only [JsonValue.isObject, JsonValue.toObject, if_true]

end TemporaryWidget

/-! ## The claims -/

/-- C2, as amended: in a session whose id table names only live nodes, for a message
that consists of well-formed created entries under the root, `onTextMessageReceived`
succeeds, the node of every entry exists at the entry's local path (the remote path
with the root prefix and the following '/' stripped), and it holds that entry's
initial value provided no later entry of the message names the same node. -/
theorem TemporaryWidget.onTextMessageReceived_created_values
    (w : TemporaryWidget) (o : List (String × JsonValue)) (pre post : List JsonValue)
    (e : JsonValue) (segs : List NameIndexTuple)
    (hl : dictLive w)
    (hcreated : (objValue o "created").toArray = pre ++ e :: post)
    (hremoved : (objValue o "remvoed").toArray = [])
    (hchanged : (objValue o "changed").toArray = [])
    (hwf : ∀ x ∈ pre ++ e :: post, (localSegs w.rootPropertyPath x).isSome = true)
    (hsegs : localSegs w.rootPropertyPath e = some segs) :
    ∃ w1, TemporaryWidget.onTextMessageReceived w (.obj o) = .ok w1
      ∧ (serialAt w1.m_localPropertyRoot segs).isSome = true
      ∧ ((∀ x ∈ post, localSegs w.rootPropertyPath x ≠ some segs) →
          valueAt w1.m_localPropertyRoot segs = some (entryValue e)) := by
  obtain ⟨wc, hc, _, _, hex, hvc, _⟩ :=
    TemporaryWidget.forEach_createdStep_entry hl hwf hsegs
  refine ⟨wc, ?_, hex, hvc⟩
  rw [TemporaryWidget.onTextMessageReceived_obj, hcreated, hc, hremoved, hchanged]
  simp only [TemporaryWidget.forEach]

/-- An instance of C2: against root `/canvas`, a message creating `group[0]` with
value 7 and then `group[0]/path[0]` leaves the group node in place with value 7. -/
theorem TemporaryWidget.onTextMessageReceived_created_values_witness :
    ∃ w1, TemporaryWidget.onTextMessageReceived
        (TemporaryWidget.connected "/canvas".toList)
        (.obj [("created", .arr [
                  .obj [("path", .str "/canvas/group[0]"), ("id", .num 1), ("value", .num 7)],
                  .obj [("path", .str "/canvas/group[0]/path[0]"), ("id", .num 2),
                        ("value", .null)]])]) = .ok w1
      ∧ (serialAt w1.m_localPropertyRoot [⟨"group".toList, 0⟩]).isSome = true
      ∧ valueAt w1.m_localPropertyRoot [⟨"group".toList, 0⟩] = some (.num 7) :=
  (TemporaryWidget.onTextMessageReceived_created_values
    (TemporaryWidget.connected "/canvas".toList)
    [("created", .arr [
      .obj [("path", .str "/canvas/group[0]"), ("id", .num 1), ("value", .num 7)],
      .obj [("path", .str "/canvas/group[0]/path[0]"), ("id", .num 2), ("value", .null)]])]
    []
    [.obj [("path", .str "/canvas/group[0]/path[0]"), ("id", .num 2), ("value", .null)]]
    (.obj [("path", .str "/canvas/group[0]"), ("id", .num 1), ("value", .num 7)])
    [⟨"group".toList, 0⟩]
    (by intro i r h; simp [TemporaryWidget.connected] at h)
    rfl rfl rfl
    (by
      intro x hx
      simp only [List.nil_append, List.mem_cons, List.mem_singleton,
        List.not_mem_nil, or_false] at hx
      rcases hx with rfl | rfl <;> rfl)
    rfl).imp
    (fun _ h => ⟨h.1, h.2.1, h.2.2 (by
      intro x hx
      simp only [List.mem_singleton] at hx
      subst hx
      decide)⟩)

/-- C2 fails as stated: with root `/canvas`, (1) two well-formed created entries for
the same path `/canvas/a` with values 1 and 2 leave the node with 2, so the first
entry's node does not hold that entry's value; (2) in a session whose id table still
names a destroyed node under id 2, a well-formed created entry with id 2 makes the
handler read the destroyed node, and there is no result. -/
theorem TemporaryWidget.onTextMessageReceived_created_values_counterexample :
    (∃ w1, TemporaryWidget.onTextMessageReceived
        (TemporaryWidget.connected "/canvas".toList)
        (.obj [("created", .arr [
                  .obj [("path", .str "/canvas/a"), ("id", .num 1), ("value", .num 1)],
                  .obj [("path", .str "/canvas/a"), ("id", .num 2), ("value", .num 2)]])])
          = .ok w1
      ∧ valueAt w1.m_localPropertyRoot [⟨"a".toList, 0⟩] = some (.num 2)
      ∧ valueAt w1.m_localPropertyRoot [⟨"a".toList, 0⟩] ≠ some (.num 1))
    ∧ TemporaryWidget.onTextMessageReceived staleSession
        (.obj [("created", .arr [
                  .obj [("path", .str "/canvas/text"), ("id", .num 2), ("value", .null)]])])
          = .error .danglingNode :=
  ⟨⟨_, rfl, rfl, fun h => by
      have h2 : some (JsonValue.num 2) = some (.num 1) := h
      simp at h2⟩, rfl⟩

/-- C3: evaluation at the failing input. In `sampleSession` id 1 names `group` and id 2
names its child `group/path`. After the removal of id 1, id 1 is no longer a key, but
id 2 is still a key and names the destroyed node; a change or a removal naming id 2
in the same message is not ignored as an unknown id: it goes through the dangling
pointer. -/
theorem TemporaryWidget.onTextMessageReceived_removal_keeps_descendant_id :
    (∃ w1, TemporaryWidget.onTextMessageReceived sampleSession
        (.obj [("remvoed", .arr [.num 1])]) = .ok w1
      ∧ w1.idPropertyDict 1 = none
      ∧ w1.idPropertyDict 2 = some ⟨[⟨"group".toList, 0⟩, ⟨"path".toList, 0⟩], 2⟩
      ∧ (deref w1.m_localPropertyRoot
          ⟨[⟨"group".toList, 0⟩, ⟨"path".toList, 0⟩], 2⟩).isSome = false)
    ∧ TemporaryWidget.onTextMessageReceived sampleSession
        (.obj [("remvoed", .arr [.num 1]), ("changed", .arr [.arr [.num 2, .str "x"]])])
        = .error .danglingNode
    ∧ TemporaryWidget.onTextMessageReceived sampleSession
        (.obj [("remvoed", .arr [.num 1, .num 2])]) = .error .danglingNode :=
  ⟨⟨_, rfl, rfl, rfl, rfl⟩, rfl, rfl⟩

/-- C4, as amended: when id k already maps to a live node n_old and a well-formed
created entry under the root carries id k, `onTextMessageReceived` succeeds, the id
table still maps k to n_old (the entry is not overwritten), n_old is still in the tree
at its place (with its value, when the entry names another node), and the node at the
entry's path holds the entry's value. -/
theorem TemporaryWidget.onTextMessageReceived_duplicate_id
    (w : TemporaryWidget) (o : List (String × JsonValue)) (e : JsonValue)
    (segs : List NameIndexTuple) (old : NodeRef)
    (hcreated : (objValue o "created").toArray = [e])
    (hremoved : (objValue o "remvoed").toArray = [])
    (hchanged : (objValue o "changed").toArray = [])
    (hsegs : localSegs w.rootPropertyPath e = some segs)
    (hold : w.idPropertyDict (entryId e) = some old)
    (hlive : serialAt w.m_localPropertyRoot old.path = some old.serial) :
    ∃ w1, TemporaryWidget.onTextMessageReceived w (.obj o) = .ok w1
      ∧ w1.idPropertyDict (entryId e) = some old
      ∧ serialAt w1.m_localPropertyRoot old.path = some old.serial
      ∧ (old.path ≠ segs → valueAt w1.m_localPropertyRoot old.path
          = valueAt w.m_localPropertyRoot old.path)
      ∧ valueAt w1.m_localPropertyRoot segs = some (entryValue e) := by
  obtain ⟨w1, h1, hd, hs, hv, hk⟩ := TemporaryWidget.createdStep_duplicate hsegs hold hlive
  refine ⟨w1, ?_, by rw [hd]; exact hold, hs, hk, hv⟩
  rw [TemporaryWidget.onTextMessageReceived_obj, hcreated, hremoved, hchanged]
  simp only [TemporaryWidget.forEach, h1]

/-- An instance of C4: in `sampleSession`, where id 1 names `group`, a created entry
for `/canvas/text` with id 1 leaves id 1 naming `group`, leaves `group` in place with
its value, and creates `text` with the entry's value. -/
theorem TemporaryWidget.onTextMessageReceived_duplicate_id_witness :
    ∃ w1, TemporaryWidget.onTextMessageReceived sampleSession
        (.obj [("created", .arr [
          .obj [("path", .str "/canvas/text"), ("id", .num 1), ("value", .str "t")]])])
          = .ok w1
      ∧ w1.idPropertyDict 1 = some ⟨[⟨"group".toList, 0⟩], 1⟩
      ∧ serialAt w1.m_localPropertyRoot [⟨"group".toList, 0⟩] = some 1
      ∧ valueAt w1.m_localPropertyRoot [⟨"group".toList, 0⟩] = some .null
      ∧ valueAt w1.m_localPropertyRoot [⟨"text".toList, 0⟩] = some (.str "t") :=
  (TemporaryWidget.onTextMessageReceived_duplicate_id sampleSession
    [("created", .arr [
      .obj [("path", .str "/canvas/text"), ("id", .num 1), ("value", .str "t")]])]
    (.obj [("path", .str "/canvas/text"), ("id", .num 1), ("value", .str "t")])
    [⟨"text".toList, 0⟩] ⟨[⟨"group".toList, 0⟩], 1⟩ rfl rfl rfl rfl rfl rfl).imp
    (fun _ h => ⟨h.1, h.2.1, h.2.2.1, (h.2.2.2.1 (by decide)).trans rfl, h.2.2.2.2⟩)

/-- C4 fails as stated: in `sampleSession`, where id 1 names `group`, a created entry
for `/canvas/text` with id 1 creates the node `text` (serial 3), but the id table
maps id 1 to `group` as before and not to the new node. -/
theorem TemporaryWidget.onTextMessageReceived_duplicate_id_counterexample :
    ∃ w1, TemporaryWidget.onTextMessageReceived sampleSession
        (.obj [("created", .arr [
          .obj [("path", .str "/canvas/text"), ("id", .num 1), ("value", .str "t")]])])
          = .ok w1
      ∧ serialAt w1.m_localPropertyRoot [⟨"text".toList, 0⟩] = some 3
      ∧ w1.idPropertyDict 1 = some ⟨[⟨"group".toList, 0⟩], 1⟩
      ∧ w1.idPropertyDict 1 ≠ some ⟨[⟨"text".toList, 0⟩], 3⟩ :=
  ⟨_, rfl, rfl, rfl, by decide⟩

/-- C5: evaluation at the failing input. With root `/canvas`, the created entry with
path `/canvasXfoo` is not under the root, yet it is not ignored: the node `foo` is
created below the local root and id 1 enters the id table. -/
theorem TemporaryWidget.onTextMessageReceived_path_outside_root :
    ∃ w1, TemporaryWidget.onTextMessageReceived
        (TemporaryWidget.connected "/canvas".toList)
        (.obj [("created", .arr [
          .obj [("path", .str "/canvasXfoo"), ("id", .num 1), ("value", .null)]])])
          = .ok w1
      ∧ serialAt (TemporaryWidget.connected "/canvas".toList).m_localPropertyRoot
          [⟨"foo".toList, 0⟩] = none
      ∧ serialAt w1.m_localPropertyRoot [⟨"foo".toList, 0⟩] = some 1
      ∧ (TemporaryWidget.connected "/canvas".toList).idPropertyDict 1 = none
      ∧ w1.idPropertyDict 1 = some ⟨[⟨"foo".toList, 0⟩], 1⟩ :=
  ⟨_, rfl, rfl, rfl, rfl, rfl⟩

/-- C6: for an id that is not a key of the id table, a message whose only content is
a change of that id, or a removal of that id (under the member name `remvoed` the
handler reads, or under `removed`), is processed without failure and leaves the
session (property tree and id table) exactly as it was. -/
theorem TemporaryWidget.onTextMessageReceived_unknown_id
    (w : TemporaryWidget) (k v : JsonValue)
    (hk : w.idPropertyDict (toUInt k.toInt) = none) :
    TemporaryWidget.onTextMessageReceived w (.obj [("changed", .arr [.arr [k, v]])]) = .ok w
      ∧ TemporaryWidget.onTextMessageReceived w (.obj [("remvoed", .arr [k])]) = .ok w
      ∧ TemporaryWidget.onTextMessageReceived w (.obj [("removed", .arr [k])]) = .ok w := by
  refine ⟨?_, ?_, ?_⟩
  · rw [TemporaryWidget.onTextMessageReceived_obj]
    simp [objValue, List.lookup, JsonValue.toArray, TemporaryWidget.forEach,
      TemporaryWidget.changedStep, hk]
  · rw [TemporaryWidget.onTextMessageReceived_obj]
    simp [objValue, List.lookup, JsonValue.toArray, TemporaryWidget.forEach,
      TemporaryWidget.removedStep, hk]
  · rw [TemporaryWidget.onTextMessageReceived_obj]
    simp [objValue, List.lookup, JsonValue.toArray, TemporaryWidget.forEach]

/-- An instance of C6: in `sampleSession` id 99 is unknown; changing or removing it
leaves the session as it was. -/
theorem TemporaryWidget.onTextMessageReceived_unknown_id_witness :
    sampleSession.idPropertyDict 99 = none
      ∧ TemporaryWidget.onTextMessageReceived sampleSession
          (.obj [("changed", .arr [.arr [.num 99, .str "x"]])]) = .ok sampleSession
      ∧ TemporaryWidget.onTextMessageReceived sampleSession
          (.obj [("remvoed", .arr [.num 99])]) = .ok sampleSession
      ∧ TemporaryWidget.onTextMessageReceived sampleSession
          (.obj [("removed", .arr [.num 99])]) = .ok sampleSession :=
  ⟨rfl, TemporaryWidget.onTextMessageReceived_unknown_id sampleSession (.num 99) (.str "x")
    rfl⟩

theorem objValue_dropMalformed_ne (ms : List (String × JsonValue)) (key : String)
    (hkey : key ≠ "changed") :
    objValue (ms.map (fun m => if m.1 = "changed" then (m.1, keepPairs m.2) else m)) key
      = objValue ms key := by
  unfold objValue
  induction ms with
  | nil => rfl
  | cons m ms ih =>
    obtain ⟨a, b⟩ := m
    by_cases ha : a = "changed"
    · have hne : (key == a) = false := by
        rw [ha]; exact beq_false_of_ne hkey
      simp only [List.map_cons, ha, if_true, List.lookup_cons] at ih ⊢
      rw [ha] at hne
      simp only [hne]
      exact ih
    · simp only [List.map_cons, ha, if_false, List.lookup_cons] at ih ⊢
      cases hka : key == a
      · simpa using ih
      · rfl

theorem objValue_dropMalformed_changed (ms : List (String × JsonValue)) :
    objValue (ms.map (fun m => if m.1 = "changed" then (m.1, keepPairs m.2) else m))
        "changed" = keepPairs (objValue ms "changed") := by
  unfold objValue
  induction ms with
  | nil => rfl
  | cons m ms ih =>
    obtain ⟨a, b⟩ := m
    by_cases ha : a = "changed"
    · subst ha
      simp [List.lookup_cons]
    · have hne : ("changed" == a) = false := beq_false_of_ne (Ne.symm ha)
      simp only [List.map_cons, ha, if_false, List.lookup_cons, hne]
      exact ih

theorem TemporaryWidget.forEach_changedStep_filter (xs : List JsonValue) :
    ∀ w : TemporaryWidget,
      TemporaryWidget.forEach TemporaryWidget.changedStep w
          (xs.filter (fun x => decide (x.toArray.length = 2)))
        = TemporaryWidget.forEach TemporaryWidget.changedStep w xs := by
  induction xs with
  | nil => intro w; rfl
  | cons x xs ih =>
    intro w
    by_cases hx : x.toArray.length = 2
    · simp only [List.filter_cons, hx, decide_True, if_true, TemporaryWidget.forEach]
      cases TemporaryWidget.changedStep w x with
      | error e => rfl
      | ok w1 => exact ih w1
    · have hstep : TemporaryWidget.changedStep w x = .ok w := by
        unfold TemporaryWidget.changedStep
        simp only [ne_eq, hx, not_false_eq_true, if_true]
      simp only [List.filter_cons, hx, decide_False, TemporaryWidget.forEach, hstep]
      simpa using ih w

/-- C7: the result of `onTextMessageReceived` equals the result for the same message
with every `changed` entry that is not a 2-element array deleted from it: a malformed
change entry is skipped and the entries after it are applied all the same. -/
theorem TemporaryWidget.onTextMessageReceived_skips_malformed_changes
    (w : TemporaryWidget) (json : JsonValue) :
    TemporaryWidget.onTextMessageReceived w json
      = TemporaryWidget.onTextMessageReceived w (dropMalformedChanges json) := by
  cases json with
  | obj ms =>
    simp only [dropMalformedChanges]
    rw [TemporaryWidget.onTextMessageReceived_obj, TemporaryWidget.onTextMessageReceived_obj,
      objValue_dropMalformed_ne ms "created" (by decide),
      objValue_dropMalformed_ne ms "remvoed" (by decide),
      objValue_dropMalformed_changed ms]
    have hch : ∀ w2 : TemporaryWidget,
        TemporaryWidget.forEach TemporaryWidget.changedStep w2
            (keepPairs (objValue ms "changed")).toArray
          = TemporaryWidget.forEach TemporaryWidget.changedStep w2
            (objValue ms "changed").toArray := by
      intro w2
      cases objValue ms "changed" with
      | arr items =>
        simp only [keepPairs, JsonValue.toArray]
        exact TemporaryWidget.forEach_changedStep_filter items w2
      | _ => rfl
    simp only [hch]
  | _ => rfl

/-- C8: evaluation at the failing inputs. For the property path "" the root path
computed is "/", which ends with '/'; for "/" it is "", which does not start with
'/'; for "canvas//" it is "/canvas/", which ends with '/'. -/
theorem TemporaryWidget.onStartConnect_rootPath_not_normalised :
    TemporaryWidget.onStartConnect "ws://host:8080".toList "".toList
        = some ("ws://host:8080/".toList, "/".toList)
      ∧ TemporaryWidget.onStartConnect "ws://host:8080".toList "/".toList
        = some ("ws://host:8080".toList, [])
      ∧ TemporaryWidget.onStartConnect "ws://host:8080".toList "canvas//".toList
        = some ("ws://host:8080/canvas/".toList, "/canvas/".toList) := by
  decide

theorem List.findIdx_split_first {α : Type} (p : α → Bool) (cs : List α)
    (h : ∃ x ∈ cs, p x = true) :
    ∃ pre c post, cs = pre ++ c :: post ∧ p c = true ∧ (∀ x ∈ pre, p x = false)
      ∧ cs.findIdx p = pre.length ∧ cs.eraseIdx pre.length = pre ++ post := by
  induction cs with
  | nil => simp at h
  | cons a cs ih =>
    by_cases ha : p a = true
    · exact ⟨[], a, cs, rfl, ha, by simp, by simp [List.findIdx_cons, ha], by simp⟩
    · have ha2 : p a = false := by simpa using ha
      have h2 : ∃ x ∈ cs, p x = true := by
        obtain ⟨x, hx, hpx⟩ := h
        rcases List.mem_cons.mp hx with rfl | hx
        · exact absurd hpx ha
        · exact ⟨x, hx, hpx⟩
      obtain ⟨pre, c, post, hcs, hc, hpre, hidx, her⟩ := ih h2
      refine ⟨a :: pre, c, post, by rw [hcs]; rfl, hc, ?_, ?_, ?_⟩
      · intro x hx
        rcases List.mem_cons.mp hx with rfl | hx
        · exact ha2
        · exact hpre x hx
      · simp [List.findIdx_cons, ha2, hidx]
      · simp [her]

theorem List.findIdx_eq_length_of_none {α : Type} (p : α → Bool) (cs : List α)
    (h : ∀ x ∈ cs, p x = false) : cs.findIdx p = cs.length := by
  induction cs with
  | nil => rfl
  | cons a cs ih =>
    have ha := h a (List.mem_cons_self a cs)
    simp [List.findIdx_cons, ha, ih (fun x hx => h x (List.mem_cons_of_mem a hx))]

/-- C9: for a property node whose name is an element tag and that the base handler does
not consume, `onChildAdded` returns true and the child list becomes the previous list
followed by one new element of the matching class bound to that node. -/
theorem FGCanvasGroup.onChildAdded_appends_element (base : NodeRef → Bool)
    (g : FGCanvasGroup) (prop : NodeRef) (kind : ElementKind)
    (hbase : base prop = false) (hkind : ElementKind.ofName prop.name = some kind) :
    (FGCanvasGroup.onChildAdded base g prop).1 = true
      ∧ (FGCanvasGroup.onChildAdded base g prop).2.1._children
          = g._children ++ [⟨kind, prop⟩] := by
  unfold ElementKind.ofName at hkind
  unfold FGCanvasGroup.onChildAdded
  simp only [hbase, Bool.false_eq_true, if_false]
  by_cases h1 : prop.name = "group".toList
  · rw [if_pos h1] at hkind ⊢
    cases hkind
    exact ⟨rfl, rfl⟩
  rw [if_neg h1] at hkind ⊢
  by_cases h2 : prop.name = "path".toList
  · rw [if_pos h2] at hkind ⊢
    cases hkind
    exact ⟨rfl, rfl⟩
  rw [if_neg h2] at hkind ⊢
  by_cases h3 : prop.name = "text".toList
  · rw [if_pos h3] at hkind ⊢
    cases hkind
    exact ⟨rfl, rfl⟩
  rw [if_neg h3] at hkind ⊢
  by_cases h4 : prop.name = "image".toList
  · rw [if_pos h4] at hkind ⊢
    cases hkind
    exact ⟨rfl, rfl⟩
  rw [if_neg h4] at hkind ⊢
  by_cases h5 : prop.name = "map".toList
  · rw [if_pos h5] at hkind ⊢
    cases hkind
    exact ⟨rfl, rfl⟩
  rw [if_neg h5] at hkind
  exact absurd hkind (by simp)

/-- An instance of C9: a node named `path` added to `sampleGroup` becomes its fourth
child, a path element. -/
theorem FGCanvasGroup.onChildAdded_appends_element_witness :
    (FGCanvasGroup.onChildAdded (fun _ => false) sampleGroup
        ⟨[⟨"path".toList, 1⟩], 4⟩).1 = true
      ∧ (FGCanvasGroup.onChildAdded (fun _ => false) sampleGroup
          ⟨[⟨"path".toList, 1⟩], 4⟩).2.1._children
          = sampleGroup._children ++ [⟨.path, ⟨[⟨"path".toList, 1⟩], 4⟩⟩] :=
  FGCanvasGroup.onChildAdded_appends_element (fun _ => false) sampleGroup
    ⟨[⟨"path".toList, 1⟩], 4⟩ .path rfl (by decide)

/-- C10: for a property node with an element-backed name that the base handler does
not consume, `onChildRemoved` returns true; if some child is bound to the node, the
child list loses exactly the first such child, the others keep their order, and the
one signal emitted is `childRemoved` with the index that child had; if no child is
bound to the node, the group is unchanged and no signal is emitted. -/
theorem FGCanvasGroup.onChildRemoved_removes_first (base : NodeRef → Bool)
    (g : FGCanvasGroup) (prop : NodeRef)
    (hbase : base prop = false) (hname : (ElementKind.ofName prop.name).isSome = true) :
    (FGCanvasGroup.onChildRemoved base g prop).1 = true
      ∧ ((∃ c ∈ g._children, c.property = prop) →
          ∃ pre c post, g._children = pre ++ c :: post
            ∧ c.property = prop
            ∧ (∀ x ∈ pre, x.property ≠ prop)
            ∧ (FGCanvasGroup.onChildRemoved base g prop).2.1._children = pre ++ post
            ∧ (FGCanvasGroup.onChildRemoved base g prop).2.2
                = [.childRemoved (pre.length : Int)])
      ∧ ((∀ c ∈ g._children, c.property ≠ prop) →
          (FGCanvasGroup.onChildRemoved base g prop).2.1 = g
            ∧ (FGCanvasGroup.onChildRemoved base g prop).2.2 = []) := by
  have hnm : prop.name = "group".toList ∨ prop.name = "image".toList
      ∨ prop.name = "path".toList ∨ prop.name = "text".toList
      ∨ prop.name = "map".toList := by
    unfold ElementKind.ofName at hname
    by_cases h1 : prop.name = "group".toList
    · exact Or.inl h1
    rw [if_neg h1] at hname
    by_cases h2 : prop.name = "path".toList
    · exact Or.inr (Or.inr (Or.inl h2))
    rw [if_neg h2] at hname
    by_cases h3 : prop.name = "text".toList
    · exact Or.inr (Or.inr (Or.inr (Or.inl h3)))
    rw [if_neg h3] at hname
    by_cases h4 : prop.name = "image".toList
    · exact Or.inr (Or.inl h4)
    rw [if_neg h4] at hname
    by_cases h5 : prop.name = "map".toList
    · exact Or.inr (Or.inr (Or.inr (Or.inr h5)))
    rw [if_neg h5] at hname
    exact absurd hname (by simp)
  refine ⟨?_, ?_, ?_⟩
  · unfold FGCanvasGroup.onChildRemoved
    simp only [hbase, hnm]
    split_ifs <;> rfl
  · intro hex
    have hex2 : ∃ x ∈ g._children, (fun child : FGCanvasElement =>
        decide (child.property = prop)) x = true := by
      obtain ⟨c, hc, hp⟩ := hex
      exact ⟨c, hc, by simpa using hp⟩
    obtain ⟨pre, c, post, hcs, hc, hpre, hidx, her⟩ := List.findIdx_split_first _ _ hex2
    refine ⟨pre, c, post, hcs, by simpa using hc, fun x hx => by simpa using hpre x hx, ?_⟩
    have hlt : pre.length ≠ g._children.length := by
      rw [hcs]; simp
    have hi : g.indexOfChildWithProp prop = (pre.length : Int) := by
      unfold FGCanvasGroup.indexOfChildWithProp
      simp only [hidx, hlt, if_false]
    unfold FGCanvasGroup.onChildRemoved
    simp only [hbase, hnm, hi]
    simp [her]
  · intro hno
    have hidx := List.findIdx_eq_length_of_none
      (fun child : FGCanvasElement => decide (child.property = prop)) g._children
      (fun x hx => by simpa using hno x hx)
    have hi : g.indexOfChildWithProp prop = -1 := by
      unfold FGCanvasGroup.indexOfChildWithProp
      simp only [hidx, if_true]
    unfold FGCanvasGroup.onChildRemoved
    simp only [hbase, hnm, hi]
    simp

/-- An instance of C10: removing the node `path` from `sampleGroup`, where it is bound
to the second of three children, leaves the first and third child and emits
`childRemoved(1)`. -/
theorem FGCanvasGroup.onChildRemoved_removes_first_witness :
    (FGCanvasGroup.onChildRemoved (fun _ => false) sampleGroup
        ⟨[⟨"path".toList, 0⟩], 2⟩).1 = true
      ∧ (∃ pre c post, sampleGroup._children = pre ++ c :: post
            ∧ c.property = ⟨[⟨"path".toList, 0⟩], 2⟩
            ∧ (∀ x ∈ pre, x.property ≠ ⟨[⟨"path".toList, 0⟩], 2⟩)
            ∧ (FGCanvasGroup.onChildRemoved (fun _ => false) sampleGroup
                ⟨[⟨"path".toList, 0⟩], 2⟩).2.1._children = pre ++ post
            ∧ (FGCanvasGroup.onChildRemoved (fun _ => false) sampleGroup
                ⟨[⟨"path".toList, 0⟩], 2⟩).2.2 = [.childRemoved (pre.length : Int)])
      ∧ FGCanvasGroup.onChildRemoved (fun _ => false) sampleGroup ⟨[⟨"path".toList, 0⟩], 2⟩
          = (true,
              { sampleGroup with
                _children := [⟨.group, ⟨[⟨"group".toList, 0⟩], 1⟩⟩,
                              ⟨.text, ⟨[⟨"text".toList, 0⟩], 3⟩⟩] },
              [.childRemoved 1]) :=
  ⟨(FGCanvasGroup.onChildRemoved_removes_first (fun _ => false) sampleGroup
      ⟨[⟨"path".toList, 0⟩], 2⟩ rfl (by decide)).1,
   (FGCanvasGroup.onChildRemoved_removes_first (fun _ => false) sampleGroup
      ⟨[⟨"path".toList, 0⟩], 2⟩ rfl (by decide)).2.1
      ⟨⟨.path, ⟨[⟨"path".toList, 0⟩], 2⟩⟩, by decide, rfl⟩,
   by decide⟩

/-! ## Lemmas on painting -/

theorem QByteArray.split_of_not_mem (sep : Char) (a : QByteArray) (h : sep ∉ a) :
    QByteArray.split sep a = [a] := by
  induction a with
  | nil => rfl
  | cons c cs ih =>
    have hc : ¬ c = sep := fun e => h (by rw [e]; exact List.mem_cons_self _ _)
    have hcs : sep ∉ cs := fun e => h (List.mem_cons_of_mem _ e)
    rw [QByteArray.split, if_neg hc, ih hcs]

theorem QByteArray.split_append_sep (sep : Char) (a rest : QByteArray) (h : sep ∉ a) :
    QByteArray.split sep (a ++ sep :: rest) = a :: QByteArray.split sep rest := by
  induction a with
  | nil =>
    rw [List.nil_append, QByteArray.split, if_pos rfl]
  | cons c cs ih =>
    have hc : ¬ c = sep := fun e => h (by rw [e]; exact List.mem_cons_self _ _)
    have hcs : sep ∉ cs := fun e => h (List.mem_cons_of_mem _ e)
    rw [List.cons_append, QByteArray.split, if_neg hc, ih hcs]

namespace FGCanvasGroup

/-- The clip part leaves the children and the other dirty flags alone. -/
theorem recomputeClip_keeps {clipSpec : JsonValue} {g g1 : FGCanvasGroup}
    (h : recomputeClip clipSpec g = some g1) :
    g1._children = g._children ∧ g1._zIndicesDirty = g._zIndicesDirty
      ∧ g1._cachedSymbolDirty = g._cachedSymbolDirty := by
  unfold recomputeClip at h
  by_cases hd : g._clipDirty = true
  · rw [if_pos hd] at h
    by_cases hn : QVariant.isNull clipSpec = true
    · rw [if_pos hn] at h
      cases h
      exact ⟨rfl, rfl, rfl⟩
    · rw [if_neg hn] at h
      simp only at h
      split at h
      · cases h
        exact ⟨rfl, rfl, rfl⟩
      · exact absurd h (by simp)
  · rw [if_neg hd] at h
    cases h
    exact ⟨rfl, rfl, rfl⟩

/-- With at least four fields every access `clipRectDesc.at(i)`, i = 0..3, is in
range. -/
theorem atIndex_of_four (fields : List (List Char)) (h : 4 ≤ fields.length) :
    ∃ f0 f1 f2 f3 rest, fields = f0 :: f1 :: f2 :: f3 :: rest := by
  match fields, h with
  | f0 :: f1 :: f2 :: f3 :: rest, _ => exact ⟨f0, f1, f2, f3, rest, rfl⟩

/-- The clip part is defined when the clip is clean, the value is null, or the value
splits into at least four fields. -/
theorem recomputeClip_isSome (clipSpec : JsonValue) (g : FGCanvasGroup)
    (h : g._clipDirty = false ∨ QVariant.isNull clipSpec = true
      ∨ 4 ≤ (QByteArray.split ',' (QVariant.toQString clipSpec)).length) :
    ∃ g1, recomputeClip clipSpec g = some g1 := by
  unfold recomputeClip
  by_cases hd : g._clipDirty = true
  · rw [if_pos hd]
    by_cases hn : QVariant.isNull clipSpec = true
    · rw [if_pos hn]
      exact ⟨_, rfl⟩
    · rw [if_neg hn]
      rcases h with h | h | h
      · rw [h] at hd
        exact absurd hd (by simp)
      · exact absurd h hn
      · obtain ⟨f0, f1, f2, f3, rest, hf⟩ := atIndex_of_four _ h
        simp only [hf, QStringList.atIndex, List.get?_cons_zero, List.get?_cons_succ]
        exact ⟨_, rfl⟩
  · rw [if_neg hd]
    exact ⟨_, rfl⟩

/-- The shape of `doPaint` once the clip part is known. -/
theorem doPaint_of_recomputeClip
    (stdSort : (FGCanvasElement → FGCanvasElement → Bool) → List FGCanvasElement →
      List FGCanvasElement)
    (zIndex : FGCanvasElement → Int) {clipSpec : JsonValue} {g g1 : FGCanvasGroup}
    (h : recomputeClip clipSpec g = some g1) :
    ∃ g3 ops, doPaint stdSort zIndex clipSpec g = some (g3, ops)
      ∧ g3._hasClip = g1._hasClip ∧ g3._clipRect = g1._clipRect
      ∧ g3._clipDirty = g1._clipDirty
      ∧ g3._zIndicesDirty = false
      ∧ g3._children =
          if g1._zIndicesDirty then
            stdSort (fun a b => decide (zIndex a < zIndex b)) g1._children
          else g1._children := by
  unfold doPaint
  rw [h]
  refine ⟨_, _, rfl, ?_⟩
  by_cases hz : g1._zIndicesDirty = true
  · simp only [hz, if_true]
    split_ifs <;> exact ⟨rfl, rfl, rfl, rfl, rfl⟩
  · have hz2 : g1._zIndicesDirty = false := by simpa using hz
    simp only [hz2, Bool.false_eq_true, if_false]
    split_ifs
    · exact ⟨rfl, rfl, rfl, rfl, rfl⟩
    · exact ⟨rfl, rfl, rfl, hz2, rfl⟩

end FGCanvasGroup

/-- C14: evaluation at the failing input, and in general. Adding a node named `path`
to `sampleGroup` appends the path element but emits no signal; `onChildAdded` emits
no signal for any group, node and base handler, since every element branch returns
before `emit childAdded()` is reached. -/
theorem FGCanvasGroup.onChildAdded_emits_no_signal :
    (FGCanvasGroup.onChildAdded (fun _ => false) sampleGroup
        ⟨[⟨"path".toList, 1⟩], 4⟩).2.1._children
        = sampleGroup._children ++ [⟨.path, ⟨[⟨"path".toList, 1⟩], 4⟩⟩]
      ∧ (FGCanvasGroup.onChildAdded (fun _ => false) sampleGroup
          ⟨[⟨"path".toList, 1⟩], 4⟩).2.2 = []
      ∧ ∀ (base : NodeRef → Bool) (g : FGCanvasGroup) (prop : NodeRef),
          (FGCanvasGroup.onChildAdded base g prop).2.2 = [] := by
  refine ⟨by decide, by decide, ?_⟩
  intro base g prop
  unfold FGCanvasGroup.onChildAdded
  simp only [gt_iff_lt, lt_self_iff_false, if_false]
  split_ifs <;> rfl

/-- C15: for a property node whose name is not an element tag, `clip` or
`symbol-type`, and that the base handler does not consume, `onChildAdded` leaves the
group (its child list included) unchanged; it returns true exactly when the group is
the root group and the name is `view`, `size`, `name`, `mipmapping`, `placement` or
starts with `status`; otherwise it returns false. -/
theorem FGCanvasGroup.onChildAdded_other_names (base : NodeRef → Bool)
    (g : FGCanvasGroup) (prop : NodeRef)
    (hbase : base prop = false)
    (h1 : prop.name ≠ "group".toList) (h2 : prop.name ≠ "path".toList)
    (h3 : prop.name ≠ "text".toList) (h4 : prop.name ≠ "image".toList)
    (h5 : prop.name ≠ "map".toList) (h6 : prop.name ≠ "clip".toList)
    (h7 : prop.name ≠ "symbol-type".toList) :
    (FGCanvasGroup.onChildAdded base g prop).2.1 = g
      ∧ ((FGCanvasGroup.onChildAdded base g prop).1 = true ↔
          (g.isRootGroup = true ∧ (prop.name = "view".toList ∨ prop.name = "size".toList
            ∨ "status".toList.isPrefixOf prop.name = true ∨ prop.name = "name".toList
            ∨ prop.name = "mipmapping".toList ∨ prop.name = "placement".toList)))
      ∧ (¬ (g.isRootGroup = true ∧ (prop.name = "view".toList ∨ prop.name = "size".toList
            ∨ "status".toList.isPrefixOf prop.name = true ∨ prop.name = "name".toList
            ∨ prop.name = "mipmapping".toList ∨ prop.name = "placement".toList)) →
          (FGCanvasGroup.onChildAdded base g prop).1 = false) := by
  unfold FGCanvasGroup.onChildAdded
  simp only [hbase, Bool.false_eq_true, if_false]
  rw [if_neg h1, if_neg h2, if_neg h3, if_neg h4, if_neg h5, if_neg h6, if_neg h7]
  by_cases hr : g.isRootGroup = true ∧ (prop.name = "view".toList
      ∨ prop.name = "size".toList
      ∨ "status".toList.isPrefixOf prop.name = true ∨ prop.name = "name".toList
      ∨ prop.name = "mipmapping".toList ∨ prop.name = "placement".toList)
  · rw [if_pos hr]
    exact ⟨rfl, ⟨fun _ => hr, fun _ => rfl⟩, fun hn => absurd hr hn⟩
  · rw [if_neg hr]
    simp only [gt_iff_lt, lt_self_iff_false, if_false]
    exact ⟨trivial, ⟨fun h => absurd h (by simp), fun h => absurd h hr⟩, fun _ => trivial⟩

/-- Instances of C15: under the root group `sampleGroup` a node named `size` is
accepted and a node named `foo` is reported unknown; neither changes the group. -/
theorem FGCanvasGroup.onChildAdded_other_names_witness :
    FGCanvasGroup.onChildAdded (fun _ => false) sampleGroup ⟨[⟨"size".toList, 0⟩], 5⟩
        = (true, sampleGroup, [])
      ∧ FGCanvasGroup.onChildAdded (fun _ => false) sampleGroup ⟨[⟨"foo".toList, 0⟩], 6⟩
        = (false, sampleGroup, [])
      ∧ (FGCanvasGroup.onChildAdded (fun _ => false) sampleGroup
          ⟨[⟨"foo".toList, 0⟩], 6⟩).2.1 = sampleGroup :=
  ⟨by decide, by decide,
    (FGCanvasGroup.onChildAdded_other_names (fun _ => false) sampleGroup
      ⟨[⟨"foo".toList, 0⟩], 6⟩ rfl (by decide) (by decide) (by decide) (by decide)
      (by decide) (by decide) (by decide)).1⟩

theorem FGCanvasGroup.recomputeClip_short (clipSpec : JsonValue) (g : FGCanvasGroup)
    (hd : g._clipDirty = true) (hn : QVariant.isNull clipSpec = false)
    (hlen : (QByteArray.split ',' (QVariant.toQString clipSpec)).length < 4) :
    FGCanvasGroup.recomputeClip clipSpec g = none := by
  unfold FGCanvasGroup.recomputeClip
  rw [if_pos hd, hn]
  simp only [Bool.false_eq_true, if_false]
  generalize QByteArray.split ',' (QVariant.toQString clipSpec) = fields at hlen
  match fields, hlen with
  | [], _ => rfl
  | [_], _ => rfl
  | [_, _], _ => rfl
  | [_, _, _], _ => rfl
  | _ :: _ :: _ :: _ :: _, h => simp at h; omega

/-- C16: for a non-null clip value whose split on ',' yields at least four fields,
each of the accesses `clipRectDesc.at(0..3)` is in range and `doPaint` has a result;
for the non-null clip values "1,2,3" and "" an access is out of range (index 3 and
index 1), and `doPaint` of a group whose clip is dirty has no result. -/
theorem FGCanvasGroup.doPaint_clip_defined
    (stdSort : (FGCanvasElement → FGCanvasElement → Bool) → List FGCanvasElement →
      List FGCanvasElement)
    (zIndex : FGCanvasElement → Int) (clipSpec : JsonValue) (g : FGCanvasGroup)
    (hnn : QVariant.isNull clipSpec = false)
    (hlen : 4 ≤ (QByteArray.split ',' (QVariant.toQString clipSpec)).length) :
    (∀ i, i < 4 → (QStringList.atIndex
        (QByteArray.split ',' (QVariant.toQString clipSpec)) i).isSome = true)
      ∧ (FGCanvasGroup.doPaint stdSort zIndex clipSpec g).isSome = true
      ∧ QVariant.isNull (.str "1,2,3") = false
      ∧ QStringList.atIndex (QByteArray.split ',' (QVariant.toQString (.str "1,2,3"))) 3
          = none
      ∧ QVariant.isNull (.str "") = false
      ∧ QStringList.atIndex (QByteArray.split ',' (QVariant.toQString (.str ""))) 1 = none
      ∧ (g._clipDirty = true →
          FGCanvasGroup.doPaint stdSort zIndex (.str "1,2,3") g = none
            ∧ FGCanvasGroup.doPaint stdSort zIndex (.str "") g = none) := by
  have _ := hnn
  refine ⟨?_, ?_, rfl, by decide, rfl, by decide, ?_⟩
  · intro i hi
    obtain ⟨f0, f1, f2, f3, rest, hf⟩ := FGCanvasGroup.atIndex_of_four _ hlen
    rw [hf]
    match i, hi with
    | 0, _ => rfl
    | 1, _ => rfl
    | 2, _ => rfl
    | 3, _ => rfl
  · obtain ⟨g1, hg1⟩ := FGCanvasGroup.recomputeClip_isSome clipSpec g (Or.inr (Or.inr hlen))
    obtain ⟨g3, ops, h3, _⟩ := FGCanvasGroup.doPaint_of_recomputeClip stdSort zIndex hg1
    rw [h3]
    rfl
  · intro hd
    constructor
    · unfold FGCanvasGroup.doPaint
      rw [FGCanvasGroup.recomputeClip_short (.str "1,2,3") g hd rfl (by decide)]
    · unfold FGCanvasGroup.doPaint
      rw [FGCanvasGroup.recomputeClip_short (.str "") g hd rfl (by decide)]

/-- An instance of C16: the clip value "1,2,3,4" has four fields, so painting
`sampleGroup` with a dirty clip has a result; with "1,2,3" or "" it has none. -/
theorem FGCanvasGroup.doPaint_clip_defined_witness :
    (FGCanvasGroup.doPaint reverseInsertionSort (fun _ => 0) (.str "1,2,3,4")
        { sampleGroup with _clipDirty := true }).isSome = true
      ∧ FGCanvasGroup.doPaint reverseInsertionSort (fun _ => 0) (.str "1,2,3")
          { sampleGroup with _clipDirty := true } = none
      ∧ FGCanvasGroup.doPaint reverseInsertionSort (fun _ => 0) (.str "")
          { sampleGroup with _clipDirty := true } = none :=
  ⟨(FGCanvasGroup.doPaint_clip_defined reverseInsertionSort (fun _ => 0) (.str "1,2,3,4")
      { sampleGroup with _clipDirty := true } rfl (by decide)).2.1,
   (FGCanvasGroup.doPaint_clip_defined reverseInsertionSort (fun _ => 0) (.str "1,2,3,4")
      { sampleGroup with _clipDirty := true } rfl (by decide)).2.2.2.2.2.2 rfl⟩

/-- Insertion sort of the reversed input keeps the promise of `std::sort`. -/
theorem reverseInsertionSort_isStdSort : IsStdSort reverseInsertionSort := by
  intro comp hasymm hneg l
  haveI : IsTotal FGCanvasElement (fun a b => comp b a = false) :=
    ⟨fun a b => by
      cases hba : comp b a with
      | false => exact Or.inl rfl
      | true => exact Or.inr (hasymm b a hba)⟩
  haveI : IsTrans FGCanvasElement (fun a b => comp b a = false) :=
    ⟨fun a b c hab hbc => hneg c b a hbc hab⟩
  constructor
  · exact (List.perm_insertionSort _ l.reverse).trans (List.reverse_perm l)
  · exact List.sorted_insertionSort (fun a b => comp b a = false) l.reverse

/-! ## Lemmas on `std::sort` -/

theorem LibStdCxx.elemAt_append_length {α : Type} (d : α) (P : List α) (y : α) (T : List α) :
    LibStdCxx.elemAt d (P ++ y :: T) P.length = y := by
  induction P with
  | nil => rfl
  | cons a P ih => simpa [LibStdCxx.elemAt] using ih

theorem LibStdCxx.set_append_length {α : Type} (P : List α) (x v : α) (T : List α) :
    (P ++ x :: T).set P.length v = P ++ v :: T := by
  induction P with
  | nil => rfl
  | cons a P ih => simp [ih]

theorem LibStdCxx.unguarded_linear_insert_spec {α : Type} (comp : α → α → Bool) (d val : α) :
    ∀ (fuel : Nat) (P : List α) (x : α) (R : List α), P.length ≤ fuel →
      ∃ P1 P2, P = P1 ++ P2
        ∧ LibStdCxx.__unguarded_linear_insert comp d fuel (P ++ x :: R) P.length val
            = P1 ++ val :: (P2 ++ R)
        ∧ (∀ e ∈ P2, comp val e = true)
        ∧ (∀ e, P1.getLast? = some e → comp val e = false) := by
  intro fuel
  induction fuel with
  | zero =>
    intro P x R hP
    have hnil : P = [] := List.length_eq_zero.mp (Nat.le_zero.mp hP)
    subst hnil
    exact ⟨[], [], rfl, rfl, by simp, by simp⟩
  | succ fuel ih =>
    intro P x R hP
    rcases List.eq_nil_or_concat P with hnil | ⟨P0, y, hPy⟩
    · subst hnil
      exact ⟨[], [], rfl, rfl, by simp, by simp⟩
    · rw [List.concat_eq_append] at hPy
      subst hPy
      have hlen : (P0 ++ [y]).length = P0.length + 1 := by simp
      have hy : LibStdCxx.elemAt d (P0 ++ [y] ++ x :: R) ((P0 ++ [y]).length - 1) = y := by
        rw [hlen, Nat.add_sub_cancel, List.append_assoc]
        exact LibStdCxx.elemAt_append_length d P0 y _
      unfold LibStdCxx.__unguarded_linear_insert
      rw [if_neg (by simp), hy]
      cases hc : comp val y with
      | true =>
        rw [if_pos rfl]
        have hset : (P0 ++ [y] ++ x :: R).set (P0 ++ [y]).length y = P0 ++ y :: (y :: R) := by
          rw [LibStdCxx.set_append_length]
          simp
        rw [hset]
        have hl1 : (P0 ++ [y]).length - 1 = P0.length := by simp
        rw [hl1]
        obtain ⟨P1, P2, h1, h2, h3, h4⟩ := ih P0 y (y :: R) (by simp at hP; omega)
        refine ⟨P1, P2 ++ [y], by rw [h1]; simp, ?_, ?_, h4⟩
        · rw [h2]; simp
        · intro e he
          rcases List.mem_append.mp he with h | h
          · exact h3 e h
          · simp at h; subst h; exact hc
      | false =>
        rw [if_neg (by simp)]
        refine ⟨P0 ++ [y], [], by simp, ?_, by simp, ?_⟩
        · rw [LibStdCxx.set_append_length]
          simp
        · intro e he
          simp at he
          subst he
          exact hc

theorem IsStableSortByZ.le_getLast (zIndex : FGCanvasElement → Int)
    (P : List FGCanvasElement) (y : FGCanvasElement)
    (hs : P.Pairwise (fun a b => zIndex a ≤ zIndex b)) (hy : P.getLast? = some y) :
    ∀ e ∈ P, zIndex e ≤ zIndex y := by
  intro e he
  rcases List.eq_nil_or_concat P with hnil | ⟨Q, y1, hQ⟩
  · subst hnil
    simp at he
  · rw [List.concat_eq_append] at hQ
    subst hQ
    have hyy : y1 = y := by simpa using hy
    subst hyy
    rcases List.mem_append.mp he with h | h
    · exact (List.pairwise_append.mp hs).2.2 e h y1 (by simp)
    · simp at h
      subst h
      exact le_refl _

theorem IsStableSortByZ.insert (zIndex : FGCanvasElement → Int)
    (P0 P1 P2 : List FGCanvasElement) (v : FGCanvasElement)
    (hst : IsStableSortByZ zIndex P0 (P1 ++ P2))
    (h2 : ∀ e ∈ P2, zIndex v < zIndex e)
    (h1 : ∀ e ∈ P1, zIndex e ≤ zIndex v) :
    IsStableSortByZ zIndex (P0 ++ [v]) (P1 ++ v :: P2) := by
  obtain ⟨hperm, hsorted, hfilter⟩ := hst
  obtain ⟨hs1, hs2, hs12⟩ := List.pairwise_append.mp hsorted
  refine ⟨?_, ?_, ?_⟩
  · exact (List.perm_middle.trans (hperm.cons v)).trans (List.perm_append_singleton v P0).symm
  · refine List.pairwise_append.mpr ⟨hs1, List.pairwise_cons.mpr ⟨?_, hs2⟩, ?_⟩
    · intro e he
      exact le_of_lt (h2 e he)
    · intro a ha b hb
      rcases List.mem_cons.mp hb with h | h
      · subst h
        exact h1 a ha
      · exact hs12 a ha b h
  · intro z
    have hf := hfilter z
    rw [List.filter_append] at hf
    rw [List.filter_append, List.filter_append, ← hf]
    by_cases hz : zIndex v = z
    · have hP2 : P2.filter (fun e => decide (zIndex e = z)) = [] := by
        rw [List.filter_eq_nil_iff]
        intro e he
        have := h2 e he
        simp only [decide_eq_true_eq]
        omega
      rw [List.filter_cons_of_pos (by simpa using hz), hP2,
        List.filter_cons_of_pos (by simpa using hz)]
      simp
    · rw [List.filter_cons_of_neg (by simpa using hz),
        List.filter_cons_of_neg (by simpa using hz)]
      simp

theorem LibStdCxx.insertionSortLoop_stable (zIndex : FGCanvasElement → Int)
    (d : FGCanvasElement) :
    ∀ (count : Nat) (P0 P S : List FGCanvasElement), P ≠ [] → S.length = count →
      IsStableSortByZ zIndex P0 P →
      IsStableSortByZ zIndex (P0 ++ S)
        (LibStdCxx.insertionSortLoop (fun a b => decide (zIndex a < zIndex b)) d 0 count
          (P ++ S) P.length) := by
  intro count
  induction count with
  | zero =>
    intro P0 P S _ hS hst
    have hnil : S = [] := List.length_eq_zero.mp hS
    subst hnil
    simpa [LibStdCxx.insertionSortLoop] using hst
  | succ count ih =>
    intro P0 P S hP hS hst
    obtain ⟨v, S1, hvS⟩ : ∃ v S1, S = v :: S1 := by
      cases S with
      | nil => simp at hS
      | cons v S1 => exact ⟨v, S1, rfl⟩
    subst hvS
    obtain ⟨a, P1, haP⟩ : ∃ a P1, P = a :: P1 := by
      cases P with
      | nil => exact absurd rfl hP
      | cons a P1 => exact ⟨a, P1, rfl⟩
    have hv : LibStdCxx.elemAt d (P ++ v :: S1) P.length = v :=
      LibStdCxx.elemAt_append_length d P v S1
    have ha : LibStdCxx.elemAt d (P ++ v :: S1) 0 = a := by
      rw [haP]
      rfl
    have hlen1 : S1.length = count := by simpa using hS
    have key : ∃ Q, (if (fun a b => decide (zIndex a < zIndex b))
          (LibStdCxx.elemAt d (P ++ v :: S1) P.length)
          (LibStdCxx.elemAt d (P ++ v :: S1) 0) = true then
          (P ++ v :: S1).take 0 ++ LibStdCxx.elemAt d (P ++ v :: S1) P.length ::
            ((P ++ v :: S1).drop 0).take (P.length - 0) ++ (P ++ v :: S1).drop (P.length + 1)
        else LibStdCxx.__unguarded_linear_insert (fun a b => decide (zIndex a < zIndex b)) d
          (P ++ v :: S1).length (P ++ v :: S1) P.length
          (LibStdCxx.elemAt d (P ++ v :: S1) P.length)) = Q ++ S1
        ∧ Q.length = P.length + 1 ∧ IsStableSortByZ zIndex (P0 ++ [v]) Q := by
      rw [hv, ha]
      by_cases hc : zIndex v < zIndex a
      · rw [if_pos (by simpa using hc)]
        refine ⟨v :: P, ?_, by simp, ?_⟩
        · have h1 : (P ++ v :: S1).drop (P.length + 1) = S1 := by
            rw [← List.drop_drop, List.drop_left]
            rfl
          rw [h1]
          simp
        · have := IsStableSortByZ.insert zIndex P0 [] P v (by simpa using hst)
            (by
              intro e he
              have hsorted := hst.2.1
              rw [haP] at hsorted he
              rcases List.mem_cons.mp he with h | h
              · subst h
                exact hc
              · have := (List.pairwise_cons.mp hsorted).1 e h
                omega)
            (by simp)
          simpa using this
      · rw [if_neg (by simpa using hc)]
        obtain ⟨Q1, Q2, hQ, hres, hQ2, hQ1⟩ :=
          LibStdCxx.unguarded_linear_insert_spec
            (fun a b => decide (zIndex a < zIndex b)) d v (P ++ v :: S1).length P v S1
            (by simp)
        refine ⟨Q1 ++ v :: Q2, ?_, ?_, ?_⟩
        · rw [hres]
          simp
        · rw [hQ]
          simp
          omega
        · refine IsStableSortByZ.insert zIndex P0 Q1 Q2 v (by rw [← hQ]; exact hst) ?_ ?_
          · intro e he
            simpa using hQ2 e he
          · intro e he
            have hsorted := hst.2.1
            rw [hQ] at hsorted
            rcases hgl : Q1.getLast? with _ | y
            · rw [List.getLast?_eq_none_iff] at hgl
              subst hgl
              simp at he
            · have h1 := IsStableSortByZ.le_getLast zIndex Q1 y
                (List.pairwise_append.mp hsorted).1 hgl e he
              have h2 : ¬ zIndex v < zIndex y := by simpa using hQ1 y hgl
              omega
    obtain ⟨Q, hQeq, hQlen, hQst⟩ := key
    unfold LibStdCxx.insertionSortLoop
    simp only []
    rw [hQeq, ← hQlen]
    have := ih (P0 ++ [v]) Q S1 (by intro h; rw [h] at hQlen; simp at hQlen) hlen1 hQst
    simpa using this

theorem LibStdCxx.sort_stable_of_short (zIndex : FGCanvasElement → Int)
    (l : List FGCanvasElement) (h : l.length ≤ 16) :
    IsStableSortByZ zIndex l
      (LibStdCxx.sort (fun a b => decide (zIndex a < zIndex b)) l) := by
  cases l with
  | nil => exact ⟨List.Perm.refl _, List.Pairwise.nil, fun _ => rfl⟩
  | cons a T =>
    have hintro : ∀ k, LibStdCxx.__introsort_loop (fun a b => decide (zIndex a < zIndex b)) a
        (a :: T).length (a :: T) 0 (a :: T).length k = a :: T := by
      intro k
      rw [List.length_cons]
      unfold LibStdCxx.__introsort_loop
      rw [if_neg (by simp at h ⊢; omega)]
    unfold LibStdCxx.sort
    simp only []
    rw [hintro]
    unfold LibStdCxx.__final_insertion_sort
    rw [if_neg (by simp at h ⊢; omega)]
    unfold LibStdCxx.__insertion_sort
    rw [if_neg (by simp)]
    have := LibStdCxx.insertionSortLoop_stable zIndex a T.length [a] [a] T (by simp) rfl
      ⟨List.Perm.refl _, by simp, fun _ => rfl⟩
    simpa using this

theorem LibStdCxx.sorted_insert {α : Type} (comp : α → α → Bool)
    (hasymm : ∀ a b, comp a b = true → comp b a = false)
    (hneg : ∀ a b c, comp a b = false → comp b c = false → comp a c = false)
    (Q1 Q2 : List α) (v : α)
    (hs : (Q1 ++ Q2).Pairwise (fun a b => comp b a = false))
    (h2 : ∀ e ∈ Q2, comp v e = true)
    (h1 : ∀ y, Q1.getLast? = some y → comp v y = false) :
    (Q1 ++ v :: Q2).Pairwise (fun a b => comp b a = false) := by
  obtain ⟨hs1, hs2, hs12⟩ := List.pairwise_append.mp hs
  refine List.pairwise_append.mpr ⟨hs1, List.pairwise_cons.mpr ⟨?_, hs2⟩, ?_⟩
  · intro e he
    exact hasymm v e (h2 e he)
  · intro a ha b hb
    rcases List.mem_cons.mp hb with h | h
    · subst h
      rcases List.eq_nil_or_concat Q1 with hnil | ⟨Q, y, hQ⟩
      · subst hnil
        simp at ha
      · rw [List.concat_eq_append] at hQ
        subst hQ
        have hvy : comp b y = false := h1 y (by simp)
        rcases List.mem_append.mp ha with h | h
        · exact hneg b y a hvy ((List.pairwise_append.mp hs1).2.2 a h y (by simp))
        · simp at h
          subst h
          exact hvy
    · exact hs12 a ha b h

theorem LibStdCxx.insertion_step {α : Type} (comp : α → α → Bool) (d : α)
    (hneg : ∀ a b c, comp a b = false → comp b c = false → comp a c = false)
    (P : List α) (v : α) (T : List α) (hP : P ≠ [])
    (hs : P.Pairwise (fun a b => comp b a = false)) :
    ∃ Q1 Q2, P = Q1 ++ Q2
      ∧ (if comp (LibStdCxx.elemAt d (P ++ v :: T) P.length)
            (LibStdCxx.elemAt d (P ++ v :: T) 0) = true then
          (P ++ v :: T).take 0 ++ LibStdCxx.elemAt d (P ++ v :: T) P.length ::
            ((P ++ v :: T).drop 0).take (P.length - 0) ++ (P ++ v :: T).drop (P.length + 1)
        else LibStdCxx.__unguarded_linear_insert comp d (P ++ v :: T).length (P ++ v :: T)
          P.length (LibStdCxx.elemAt d (P ++ v :: T) P.length)) = (Q1 ++ v :: Q2) ++ T
      ∧ (∀ e ∈ Q2, comp v e = true)
      ∧ (∀ y, Q1.getLast? = some y → comp v y = false) := by
  obtain ⟨a, P1, haP⟩ : ∃ a P1, P = a :: P1 := by
    cases P with
    | nil => exact absurd rfl hP
    | cons a P1 => exact ⟨a, P1, rfl⟩
  have hv : LibStdCxx.elemAt d (P ++ v :: T) P.length = v :=
    LibStdCxx.elemAt_append_length d P v T
  have ha : LibStdCxx.elemAt d (P ++ v :: T) 0 = a := by
    rw [haP]
    rfl
  rw [hv, ha]
  cases hc : comp v a with
  | true =>
    rw [if_pos rfl]
    refine ⟨[], P, rfl, ?_, ?_, by simp⟩
    · have h1 : (P ++ v :: T).drop (P.length + 1) = T := by
        rw [← List.drop_drop, List.drop_left]
        rfl
      rw [h1]
      simp
    · intro e he
      rw [haP] at hs he
      rcases List.mem_cons.mp he with h | h
      · subst h
        exact hc
      · have hea : comp e a = false := (List.pairwise_cons.mp hs).1 e h
        cases hve : comp v e with
        | true => rfl
        | false =>
          have := hneg v e a hve hea
          rw [hc] at this
          exact absurd this (by simp)
  | false =>
    rw [if_neg (by simp)]
    obtain ⟨Q1, Q2, hQ, hres, hQ2, hQ1⟩ :=
      LibStdCxx.unguarded_linear_insert_spec comp d v (P ++ v :: T).length P v T (by simp)
    refine ⟨Q1, Q2, hQ, ?_, hQ2, hQ1⟩
    rw [hres]
    simp

theorem LibStdCxx.insertionSortLoop_sorted {α : Type} (comp : α → α → Bool) (d : α)
    (hasymm : ∀ a b, comp a b = true → comp b a = false)
    (hneg : ∀ a b c, comp a b = false → comp b c = false → comp a c = false) :
    ∀ (count : Nat) (P S1 S2 : List α), P ≠ [] → S1.length = count →
      P.Pairwise (fun a b => comp b a = false) →
      ∃ Q, LibStdCxx.insertionSortLoop comp d 0 count (P ++ (S1 ++ S2)) P.length = Q ++ S2
        ∧ Q.Perm (P ++ S1) ∧ Q.Pairwise (fun a b => comp b a = false) := by
  intro count
  induction count with
  | zero =>
    intro P S1 S2 _ hS hs
    have hnil : S1 = [] := List.length_eq_zero.mp hS
    subst hnil
    exact ⟨P, by simp [LibStdCxx.insertionSortLoop], by simp, hs⟩
  | succ count ih =>
    intro P S1 S2 hP hS hs
    obtain ⟨v, T, hvT⟩ : ∃ v T, S1 = v :: T := by
      cases S1 with
      | nil => simp at hS
      | cons v T => exact ⟨v, T, rfl⟩
    subst hvT
    have hlen1 : T.length = count := by simpa using hS
    obtain ⟨Q1, Q2, hQ, hstep, hQ2, hQ1⟩ :=
      LibStdCxx.insertion_step comp d hneg P v (T ++ S2) hP hs
    have hQs : (Q1 ++ v :: Q2).Pairwise (fun a b => comp b a = false) :=
      LibStdCxx.sorted_insert comp hasymm hneg Q1 Q2 v (by rw [← hQ]; exact hs) hQ2 hQ1
    have hQlen : (Q1 ++ v :: Q2).length = P.length + 1 := by
      rw [hQ]
      simp
      omega
    obtain ⟨Q, hres, hperm, hsorted⟩ := ih (Q1 ++ v :: Q2) T S2 (by simp) hlen1 hQs
    refine ⟨Q, ?_, ?_, hsorted⟩
    · unfold LibStdCxx.insertionSortLoop
      simp only [List.cons_append]
      rw [hstep, ← hQlen]
      exact hres
    · refine hperm.trans ?_
      rw [hQ]
      simp only [List.append_assoc, List.cons_append]
      exact List.Perm.append_left Q1 List.perm_middle.symm

theorem LibStdCxx.unguarded_insertion_sort_sorted {α : Type} (comp : α → α → Bool) (d : α)
    (hasymm : ∀ a b, comp a b = true → comp b a = false)
    (hneg : ∀ a b c, comp a b = false → comp b c = false → comp a c = false) :
    ∀ (count : Nat) (P S : List α), S.length = count →
      P.Pairwise (fun a b => comp b a = false) →
      (LibStdCxx.__unguarded_insertion_sort comp d count (P ++ S) P.length).Perm (P ++ S)
        ∧ (LibStdCxx.__unguarded_insertion_sort comp d count (P ++ S) P.length).Pairwise
            (fun a b => comp b a = false) := by
  intro count
  induction count with
  | zero =>
    intro P S hS hs
    have hnil : S = [] := List.length_eq_zero.mp hS
    subst hnil
    simpa [LibStdCxx.__unguarded_insertion_sort] using hs
  | succ count ih =>
    intro P S hS hs
    obtain ⟨v, T, hvT⟩ : ∃ v T, S = v :: T := by
      cases S with
      | nil => simp at hS
      | cons v T => exact ⟨v, T, rfl⟩
    subst hvT
    have hlen1 : T.length = count := by simpa using hS
    obtain ⟨Q1, Q2, hQ, hres, hQ2, hQ1⟩ :=
      LibStdCxx.unguarded_linear_insert_spec comp d v (P ++ v :: T).length P v T (by simp)
    have hQs : (Q1 ++ v :: Q2).Pairwise (fun a b => comp b a = false) :=
      LibStdCxx.sorted_insert comp hasymm hneg Q1 Q2 v (by rw [← hQ]; exact hs) hQ2 hQ1
    have hQlen : (Q1 ++ v :: Q2).length = P.length + 1 := by
      rw [hQ]
      simp
      omega
    have hv : LibStdCxx.elemAt d (P ++ v :: T) P.length = v :=
      LibStdCxx.elemAt_append_length d P v T
    have hih := ih (Q1 ++ v :: Q2) T hlen1 hQs
    unfold LibStdCxx.__unguarded_insertion_sort
    rw [hv, hres, ← hQlen]
    have heq : Q1 ++ v :: (Q2 ++ T) = (Q1 ++ v :: Q2) ++ T := by simp
    rw [heq]
    refine ⟨hih.1.trans ?_, hih.2⟩
    rw [hQ]
    simp only [List.append_assoc, List.cons_append]
    exact List.Perm.append_left Q1 List.perm_middle.symm

theorem LibStdCxx.final_insertion_sort_sorted {α : Type} (comp : α → α → Bool) (d : α)
    (hasymm : ∀ a b, comp a b = true → comp b a = false)
    (hneg : ∀ a b c, comp a b = false → comp b c = false → comp a c = false)
    (l : List α) (hl : l ≠ []) :
    (LibStdCxx.__final_insertion_sort comp d l 0 l.length).Perm l
      ∧ (LibStdCxx.__final_insertion_sort comp d l 0 l.length).Pairwise
          (fun a b => comp b a = false) := by
  obtain ⟨a, T, haT⟩ : ∃ a T, l = a :: T := by
    cases l with
    | nil => exact absurd rfl hl
    | cons a T => exact ⟨a, T, rfl⟩
  unfold LibStdCxx.__final_insertion_sort
  by_cases hbig : l.length - 0 > 16
  · rw [if_pos hbig]
    have hT : 15 ≤ T.length := by
      rw [haT] at hbig
      simp at hbig
      omega
    have hsplit : T = T.take 15 ++ T.drop 15 := (List.take_append_drop 15 T).symm
    have htake : (T.take 15).length = 15 := by
      rw [List.length_take]
      omega
    obtain ⟨Q, hres, hperm, hsorted⟩ :=
      LibStdCxx.insertionSortLoop_sorted comp d hasymm hneg 15 [a] (T.take 15) (T.drop 15)
        (by simp) htake (by simp)
    have hQlen : Q.length = 16 := by
      rw [hperm.length_eq]
      simp [htake]
    have hins : LibStdCxx.__insertion_sort comp d l 0 (0 + 16) = Q ++ T.drop 15 := by
      unfold LibStdCxx.__insertion_sort
      rw [if_neg (by omega)]
      rw [haT]
      have : a :: T = [a] ++ (T.take 15 ++ T.drop 15) := by
        rw [← hsplit]
        rfl
      rw [this]
      exact hres
    rw [hins]
    have hcount : l.length - (0 + 16) = (T.drop 15).length := by
      rw [haT, List.length_drop]
      simp
    rw [hcount]
    have h16 : (0 + 16) = Q.length := by rw [hQlen]
    rw [h16]
    have hu := LibStdCxx.unguarded_insertion_sort_sorted comp d hasymm hneg
      (T.drop 15).length Q (T.drop 15) rfl hsorted
    refine ⟨hu.1.trans ?_, hu.2⟩
    rw [haT]
    have h1 : (Q ++ T.drop 15).Perm (([a] ++ T.take 15) ++ T.drop 15) :=
      hperm.append_right _
    refine h1.trans ?_
    rw [List.append_assoc, ← hsplit]
    rfl
  · rw [if_neg hbig]
    unfold LibStdCxx.__insertion_sort
    rw [if_neg (by rw [haT]; simp)]
    obtain ⟨Q, hres, hperm, hsorted⟩ :=
      LibStdCxx.insertionSortLoop_sorted comp d hasymm hneg T.length [a] T [] (by simp) rfl
        (by simp)
    have hl1 : l.length - (0 + 1) = T.length := by
      rw [haT]
      simp
    rw [hl1]
    have hl2 : l = [a] ++ (T ++ []) := by
      rw [haT]
      simp
    have hres2 : LibStdCxx.insertionSortLoop comp d 0 T.length l (0 + 1) = Q := by
      rw [hl2]
      simpa using hres
    rw [hres2]
    exact ⟨hperm.trans (by rw [haT]; rfl), hsorted⟩

theorem LibStdCxx.elemAt_of_lt {α : Type} (d : α) (l : List α) (i : Nat) (h : i < l.length) :
    LibStdCxx.elemAt d l i = l[i] := by
  unfold LibStdCxx.elemAt
  exact List.getD_eq_getElem l d h

theorem LibStdCxx.elemAt_set_self {α : Type} (d : α) (l : List α) (i : Nat) (v : α)
    (h : i < l.length) : LibStdCxx.elemAt d (l.set i v) i = v := by
  rw [LibStdCxx.elemAt_of_lt d _ i (by simpa using h)]
  simp

theorem LibStdCxx.elemAt_set_ne {α : Type} (d : α) (l : List α) (i j : Nat) (v : α)
    (h : i ≠ j) : LibStdCxx.elemAt d (l.set i v) j = LibStdCxx.elemAt d l j := by
  unfold LibStdCxx.elemAt
  rw [List.getD_eq_getElem?_getD, List.getD_eq_getElem?_getD, List.getElem?_set_ne h]

theorem LibStdCxx.set_elemAt_self {α : Type} (d : α) (l : List α) (i : Nat) :
    l.set i (LibStdCxx.elemAt d l i) = l := by
  induction l generalizing i with
  | nil => rfl
  | cons a l ih =>
    cases i with
    | zero => rfl
    | succ i =>
      have h : LibStdCxx.elemAt d (a :: l) (i + 1) = LibStdCxx.elemAt d l i := rfl
      rw [h, List.set_cons_succ, ih]

theorem LibStdCxx.set_set_perm {α : Type} (d : α) (l : List α) (h s : Nat) (v : α)
    (hh : h < l.length) (hs : s < l.length) :
    ((l.set h (LibStdCxx.elemAt d l s)).set s v).Perm (l.set h v) := by
  classical
  rw [List.perm_iff_count]
  intro a
  have hs1 : s < (l.set h (LibStdCxx.elemAt d l s)).length := by simpa using hs
  rw [List.count_set _ _ _ _ hs1, List.count_set _ _ _ _ hh, List.count_set _ _ _ _ hh]
  have hget : (l.set h (LibStdCxx.elemAt d l s))[s] = l[s] := by
    rw [List.getElem_set]
    split
    · exact LibStdCxx.elemAt_of_lt d l s hs
    · rfl
  rw [hget, LibStdCxx.elemAt_of_lt d l s hs]
  split_ifs <;> omega

theorem LibStdCxx.iter_swap_perm {α : Type} (d : α) (l : List α) (i j : Nat)
    (hi : i < l.length) (hj : j < l.length) : (LibStdCxx.iter_swap d l i j).Perm l := by
  unfold LibStdCxx.iter_swap
  have := LibStdCxx.set_set_perm d l i j (LibStdCxx.elemAt d l i) hi hj
  rwa [LibStdCxx.set_elemAt_self] at this

theorem LibStdCxx.push_heap_perm {α : Type} (comp : α → α → Bool) (d : α) (first : Nat)
    (value : α) :
    ∀ (fuel : Nat) (l : List α) (holeIndex topIndex : Nat), first + holeIndex < l.length →
      (LibStdCxx.__push_heap comp d first fuel l holeIndex topIndex value).Perm
        (l.set (first + holeIndex) value) := by
  intro fuel
  induction fuel with
  | zero =>
    intro l holeIndex topIndex _
    exact List.Perm.refl _
  | succ fuel ih =>
    intro l holeIndex topIndex hh
    unfold LibStdCxx.__push_heap
    simp only []
    split
    · have hp : first + (holeIndex - 1) / 2 < l.length := by omega
      refine (ih _ _ topIndex (by simpa using hp)).trans ?_
      exact LibStdCxx.set_set_perm d l _ _ value hh hp
    · exact List.Perm.refl _

theorem LibStdCxx.siftDown_perm {α : Type} (comp : α → α → Bool) (d : α) (first len : Nat)
    (value : α) :
    ∀ (fuel : Nat) (l : List α) (holeIndex secondChild : Nat), first + len ≤ l.length →
      holeIndex < len →
      ((LibStdCxx.siftDown comp d first len fuel l holeIndex secondChild).1.set
          (first + (LibStdCxx.siftDown comp d first len fuel l holeIndex secondChild).2.1)
          value).Perm (l.set (first + holeIndex) value)
        ∧ (LibStdCxx.siftDown comp d first len fuel l holeIndex secondChild).2.1 < len
        ∧ (LibStdCxx.siftDown comp d first len fuel l holeIndex secondChild).1.length
            = l.length := by
  intro fuel
  induction fuel with
  | zero =>
    intro l holeIndex secondChild _ hh
    exact ⟨List.Perm.refl _, hh, rfl⟩
  | succ fuel ih =>
    intro l holeIndex secondChild hlen hh
    unfold LibStdCxx.siftDown
    split
    · rename_i hsc
      simp only []
      generalize hsc1 : (if comp (LibStdCxx.elemAt d l (first + 2 * (secondChild + 1)))
          (LibStdCxx.elemAt d l (first + (2 * (secondChild + 1) - 1))) = true
          then 2 * (secondChild + 1) - 1 else 2 * (secondChild + 1)) = sc1
      have hsc1lt : sc1 < len := by
        rw [← hsc1]
        split <;> omega
      obtain ⟨h1, h2, h3⟩ := ih (l.set (first + holeIndex) (LibStdCxx.elemAt d l (first + sc1)))
        sc1 sc1 (by simpa using hlen) hsc1lt
      refine ⟨h1.trans ?_, h2, by rw [h3]; simp⟩
      exact LibStdCxx.set_set_perm d l _ _ value (by omega) (by omega)
    · exact ⟨List.Perm.refl _, hh, rfl⟩

theorem LibStdCxx.adjust_heap_perm {α : Type} (comp : α → α → Bool) (d : α) (first : Nat)
    (l : List α) (holeIndex len : Nat) (value : α) (hlen : first + len ≤ l.length)
    (hh : holeIndex < len) :
    (LibStdCxx.__adjust_heap comp d first l holeIndex len value).Perm
      (l.set (first + holeIndex) value) := by
  obtain ⟨h1, h2, h3⟩ := LibStdCxx.siftDown_perm comp d first len value l.length l holeIndex
    holeIndex hlen hh
  unfold LibStdCxx.__adjust_heap
  simp only []
  generalize LibStdCxx.siftDown comp d first len l.length l holeIndex holeIndex = r at h1 h2 h3
  split
  · rename_i hc
    have hk : 2 * (r.2.2 + 1) - 1 < len := by omega
    refine (LibStdCxx.push_heap_perm comp d first value l.length _ _ holeIndex
      (by simp; omega)).trans ?_
    refine (LibStdCxx.set_set_perm d r.1 _ _ value (by omega) (by omega)).trans h1
  · refine (LibStdCxx.push_heap_perm comp d first value l.length _ _ holeIndex
      (by show first + r.2.1 < r.1.length; omega)).trans h1

theorem LibStdCxx.makeHeapLoop_perm {α : Type} (comp : α → α → Bool) (d : α)
    (first len : Nat) :
    ∀ (fuel : Nat) (l : List α) (parent : Nat), first + len ≤ l.length → parent < len →
      (LibStdCxx.makeHeapLoop comp d first len fuel l parent).Perm l := by
  intro fuel
  induction fuel with
  | zero =>
    intro l parent _ _
    exact List.Perm.refl _
  | succ fuel ih =>
    intro l parent hlen hp
    have h1 : (LibStdCxx.__adjust_heap comp d first l parent len
        (LibStdCxx.elemAt d l (first + parent))).Perm l := by
      have := LibStdCxx.adjust_heap_perm comp d first l parent len
        (LibStdCxx.elemAt d l (first + parent)) hlen hp
      rwa [LibStdCxx.set_elemAt_self] at this
    unfold LibStdCxx.makeHeapLoop
    simp only []
    split
    · exact h1
    · exact (ih _ (parent - 1) (by rw [h1.length_eq]; exact hlen) (by omega)).trans h1

theorem LibStdCxx.make_heap_perm {α : Type} (comp : α → α → Bool) (d : α) (l : List α)
    (first last : Nat) (hlast : last ≤ l.length) :
    (LibStdCxx.__make_heap comp d l first last).Perm l := by
  unfold LibStdCxx.__make_heap
  split
  · exact List.Perm.refl _
  · exact LibStdCxx.makeHeapLoop_perm comp d first (last - first) l.length l _ (by omega)
      (by omega)

theorem LibStdCxx.pop_heap_perm {α : Type} (comp : α → α → Bool) (d : α) (l : List α)
    (first last result : Nat) (hlast : last ≤ l.length) (hfirst : first < last)
    (hresult : result < l.length) :
    (LibStdCxx.__pop_heap comp d l first last result).Perm l := by
  unfold LibStdCxx.__pop_heap
  refine (LibStdCxx.adjust_heap_perm comp d first _ 0 (last - first) _ (by simp; omega)
    (by omega)).trans ?_
  have := LibStdCxx.set_set_perm d l result first (LibStdCxx.elemAt d l result) hresult
    (by omega)
  rwa [LibStdCxx.set_elemAt_self] at this

theorem LibStdCxx.sort_heap_perm {α : Type} (comp : α → α → Bool) (d : α) (first : Nat) :
    ∀ (fuel : Nat) (l : List α) (last : Nat), last ≤ l.length →
      (LibStdCxx.__sort_heap comp d first fuel l last).Perm l := by
  intro fuel
  induction fuel with
  | zero =>
    intro l last _
    exact List.Perm.refl _
  | succ fuel ih =>
    intro l last hlast
    unfold LibStdCxx.__sort_heap
    split
    · have h1 := LibStdCxx.pop_heap_perm comp d l first (last - 1) (last - 1) (by omega)
        (by omega) (by omega)
      exact (ih _ (last - 1) (by rw [h1.length_eq]; omega)).trans h1
    · exact List.Perm.refl _

theorem LibStdCxx.partial_sort_perm {α : Type} (comp : α → α → Bool) (d : α) (l : List α)
    (first last : Nat) (hlast : last ≤ l.length) :
    (LibStdCxx.__partial_sort comp d l first last).Perm l := by
  unfold LibStdCxx.__partial_sort
  have h1 := LibStdCxx.make_heap_perm comp d l first last hlast
  exact (LibStdCxx.sort_heap_perm comp d first l.length _ last
    (by rw [h1.length_eq]; exact hlast)).trans h1

theorem LibStdCxx.iter_swap_elemAt_left {α : Type} (d : α) (l : List α) (i j : Nat)
    (hi : i < l.length) (hij : i ≠ j) :
    LibStdCxx.elemAt d (LibStdCxx.iter_swap d l i j) i = LibStdCxx.elemAt d l j := by
  unfold LibStdCxx.iter_swap
  rw [LibStdCxx.elemAt_set_ne d _ j i _ (Ne.symm hij), LibStdCxx.elemAt_set_self d l i _ hi]

theorem LibStdCxx.iter_swap_elemAt_right {α : Type} (d : α) (l : List α) (i j : Nat)
    (hj : j < l.length) :
    LibStdCxx.elemAt d (LibStdCxx.iter_swap d l i j) j = LibStdCxx.elemAt d l i := by
  unfold LibStdCxx.iter_swap
  rw [LibStdCxx.elemAt_set_self d _ j _ (by simpa using hj)]

theorem LibStdCxx.iter_swap_elemAt_other {α : Type} (d : α) (l : List α) (i j k : Nat)
    (hi : i ≠ k) (hj : j ≠ k) :
    LibStdCxx.elemAt d (LibStdCxx.iter_swap d l i j) k = LibStdCxx.elemAt d l k := by
  unfold LibStdCxx.iter_swap
  rw [LibStdCxx.elemAt_set_ne d _ j k _ hj, LibStdCxx.elemAt_set_ne d l i k _ hi]

theorem LibStdCxx.skipLess_spec {α : Type} (comp : α → α → Bool) (d : α) (l : List α)
    (pivot u : Nat)
    (hu : comp (LibStdCxx.elemAt d l u) (LibStdCxx.elemAt d l pivot) = false) :
    ∀ (fuel first : Nat), first ≤ u → u - first < fuel →
      first ≤ LibStdCxx.skipLess comp d l pivot fuel first
        ∧ LibStdCxx.skipLess comp d l pivot fuel first ≤ u
        ∧ comp (LibStdCxx.elemAt d l (LibStdCxx.skipLess comp d l pivot fuel first))
            (LibStdCxx.elemAt d l pivot) = false := by
  intro fuel
  induction fuel with
  | zero =>
    intro first _ h
    omega
  | succ fuel ih =>
    intro first hfu hfuel
    unfold LibStdCxx.skipLess
    cases hc : comp (LibStdCxx.elemAt d l first) (LibStdCxx.elemAt d l pivot) with
    | true =>
      rw [if_pos rfl]
      have hne : first ≠ u := by
        intro h
        rw [h, hu] at hc
        exact absurd hc (by simp)
      obtain ⟨h1, h2, h3⟩ := ih (first + 1) (by omega) (by omega)
      exact ⟨by omega, h2, h3⟩
    | false =>
      rw [if_neg (by simp)]
      exact ⟨le_refl _, hfu, hc⟩

theorem LibStdCxx.skipGreater_le {α : Type} (comp : α → α → Bool) (d : α) (l : List α)
    (pivot : Nat) :
    ∀ (fuel last : Nat), LibStdCxx.skipGreater comp d l pivot fuel last ≤ last := by
  intro fuel
  induction fuel with
  | zero =>
    intro last
    exact le_refl _
  | succ fuel ih =>
    intro last
    unfold LibStdCxx.skipGreater
    split
    · exact (ih (last - 1)).trans (by omega)
    · exact le_refl _

theorem LibStdCxx.unguarded_partition_spec {α : Type} (comp : α → α → Bool) (d : α)
    (pivot : Nat) :
    ∀ (fuel : Nat) (l : List α) (first last u : Nat), last ≤ l.length → pivot < first →
      first ≤ u → u ≤ last → u < l.length →
      comp (LibStdCxx.elemAt d l u) (LibStdCxx.elemAt d l pivot) = false →
      (LibStdCxx.__unguarded_partition comp d pivot fuel l first last).1.Perm l
        ∧ first ≤ (LibStdCxx.__unguarded_partition comp d pivot fuel l first last).2
        ∧ (LibStdCxx.__unguarded_partition comp d pivot fuel l first last).2 ≤ last := by
  intro fuel
  induction fuel with
  | zero =>
    intro l first last u _ _ h1 h2 _ _
    exact ⟨List.Perm.refl _, le_refl _, h1.trans h2⟩
  | succ fuel ih =>
    intro l first last u hlast hpivot hfu hul hulen hu
    obtain ⟨hs1, hs2, hs3⟩ :=
      LibStdCxx.skipLess_spec comp d l pivot u hu l.length first hfu (by omega)
    have hg := LibStdCxx.skipGreater_le comp d l pivot l.length (last - 1)
    unfold LibStdCxx.__unguarded_partition
    simp only []
    generalize LibStdCxx.skipLess comp d l pivot l.length first = first1 at hs1 hs2 hs3
    generalize LibStdCxx.skipGreater comp d l pivot l.length (last - 1) = last1 at hg
    split
    · rename_i hlt
      have hperm := LibStdCxx.iter_swap_perm d l first1 last1 (by omega) (by omega)
      have hlen := hperm.length_eq
      obtain ⟨h1, h2, h3⟩ := ih (LibStdCxx.iter_swap d l first1 last1) (first1 + 1) last1
        last1 (by omega) (by omega) (by omega) (le_refl _) (by omega)
        (by
          rw [LibStdCxx.iter_swap_elemAt_right d l first1 last1 (by omega),
            LibStdCxx.iter_swap_elemAt_other d l first1 last1 pivot (by omega) (by omega)]
          exact hs3)
      exact ⟨h1.trans hperm, by omega, by omega⟩
    · exact ⟨List.Perm.refl _, hs1, by omega⟩

theorem LibStdCxx.move_median_spec {α : Type} (comp : α → α → Bool) (d : α)
    (hasymm : ∀ a b, comp a b = true → comp b a = false)
    (l : List α) (result a b c : Nat)
    (hr : result < l.length) (ha : a < l.length) (hb : b < l.length) (hc : c < l.length)
    (hra : result ≠ a) (hrb : result ≠ b) (hrc : result ≠ c)
    (hab : a ≠ b) (hac : a ≠ c) (hbc : b ≠ c) :
    (LibStdCxx.__move_median_to_first comp d l result a b c).Perm l
      ∧ ∃ u, (u = a ∨ u = b ∨ u = c)
        ∧ comp (LibStdCxx.elemAt d (LibStdCxx.__move_median_to_first comp d l result a b c) u)
            (LibStdCxx.elemAt d (LibStdCxx.__move_median_to_first comp d l result a b c)
              result) = false := by
  unfold LibStdCxx.__move_median_to_first
  cases h1 : comp (LibStdCxx.elemAt d l a) (LibStdCxx.elemAt d l b) with
  | true =>
    rw [if_pos rfl]
    cases h2 : comp (LibStdCxx.elemAt d l b) (LibStdCxx.elemAt d l c) with
    | true =>
      rw [if_pos rfl]
      refine ⟨LibStdCxx.iter_swap_perm d l result b hr hb, c, Or.inr (Or.inr rfl), ?_⟩
      rw [LibStdCxx.iter_swap_elemAt_other d l result b c hrc hbc,
        LibStdCxx.iter_swap_elemAt_left d l result b hr hrb]
      exact hasymm _ _ h2
    | false =>
      rw [if_neg (by simp)]
      cases h3 : comp (LibStdCxx.elemAt d l a) (LibStdCxx.elemAt d l c) with
      | true =>
        rw [if_pos rfl]
        refine ⟨LibStdCxx.iter_swap_perm d l result c hr hc, b, Or.inr (Or.inl rfl), ?_⟩
        rw [LibStdCxx.iter_swap_elemAt_other d l result c b hrb (Ne.symm hbc),
          LibStdCxx.iter_swap_elemAt_left d l result c hr hrc]
        exact h2
      | false =>
        rw [if_neg (by simp)]
        refine ⟨LibStdCxx.iter_swap_perm d l result a hr ha, b, Or.inr (Or.inl rfl), ?_⟩
        rw [LibStdCxx.iter_swap_elemAt_other d l result a b hrb hab,
          LibStdCxx.iter_swap_elemAt_left d l result a hr hra]
        exact hasymm _ _ h1
  | false =>
    rw [if_neg (by simp)]
    cases h3 : comp (LibStdCxx.elemAt d l a) (LibStdCxx.elemAt d l c) with
    | true =>
      rw [if_pos rfl]
      refine ⟨LibStdCxx.iter_swap_perm d l result a hr ha, c, Or.inr (Or.inr rfl), ?_⟩
      rw [LibStdCxx.iter_swap_elemAt_other d l result a c hrc hac,
        LibStdCxx.iter_swap_elemAt_left d l result a hr hra]
      exact hasymm _ _ h3
    | false =>
      rw [if_neg (by simp)]
      cases h2 : comp (LibStdCxx.elemAt d l b) (LibStdCxx.elemAt d l c) with
      | true =>
        rw [if_pos rfl]
        refine ⟨LibStdCxx.iter_swap_perm d l result c hr hc, a, Or.inl rfl, ?_⟩
        rw [LibStdCxx.iter_swap_elemAt_other d l result c a hra (Ne.symm hac),
          LibStdCxx.iter_swap_elemAt_left d l result c hr hrc]
        exact h3
      | false =>
        rw [if_neg (by simp)]
        refine ⟨LibStdCxx.iter_swap_perm d l result b hr hb, a, Or.inl rfl, ?_⟩
        rw [LibStdCxx.iter_swap_elemAt_other d l result b a hra (Ne.symm hab),
          LibStdCxx.iter_swap_elemAt_left d l result b hr hrb]
        exact h1

theorem LibStdCxx.unguarded_partition_pivot_spec {α : Type} (comp : α → α → Bool) (d : α)
    (hasymm : ∀ a b, comp a b = true → comp b a = false)
    (l : List α) (first last : Nat) (hlast : last ≤ l.length) (hbig : last - first > 16) :
    (LibStdCxx.__unguarded_partition_pivot comp d l first last).1.Perm l
      ∧ first < (LibStdCxx.__unguarded_partition_pivot comp d l first last).2
      ∧ (LibStdCxx.__unguarded_partition_pivot comp d l first last).2 ≤ last := by
  obtain ⟨hperm, u, hu, hcu⟩ := LibStdCxx.move_median_spec comp d hasymm l first (first + 1)
    (first + (last - first) / 2) (last - 1) (by omega) (by omega) (by omega) (by omega)
    (by omega) (by omega) (by omega) (by omega) (by omega) (by omega)
  unfold LibStdCxx.__unguarded_partition_pivot
  simp only []
  generalize LibStdCxx.__move_median_to_first comp d l first (first + 1)
    (first + (last - first) / 2) (last - 1) = l1 at hperm hcu
  have hlen := hperm.length_eq
  obtain ⟨h1, h2, h3⟩ := LibStdCxx.unguarded_partition_spec comp d first l.length l1
    (first + 1) last u (by omega) (by omega) (by omega) (by omega) (by omega) hcu
  exact ⟨h1.trans hperm, by omega, h3⟩

theorem LibStdCxx.introsort_loop_perm {α : Type} (comp : α → α → Bool) (d : α)
    (hasymm : ∀ a b, comp a b = true → comp b a = false) :
    ∀ (fuel : Nat) (l : List α) (first last depth_limit : Nat), last ≤ l.length →
      (LibStdCxx.__introsort_loop comp d fuel l first last depth_limit).Perm l := by
  intro fuel
  induction fuel with
  | zero =>
    intro l first last depth_limit _
    exact List.Perm.refl _
  | succ fuel ih =>
    intro l first last depth_limit hlast
    unfold LibStdCxx.__introsort_loop
    split
    · rename_i hbig
      split
      · exact LibStdCxx.partial_sort_perm comp d l first last hlast
      · obtain ⟨h1, h2, h3⟩ :=
          LibStdCxx.unguarded_partition_pivot_spec comp d hasymm l first last hlast hbig
        simp only []
        generalize LibStdCxx.__unguarded_partition_pivot comp d l first last = r at h1 h2 h3
        have hA := ih r.1 r.2 last (depth_limit - 1) (by rw [h1.length_eq]; exact hlast)
        have hB := ih (LibStdCxx.__introsort_loop comp d fuel r.1 r.2 last (depth_limit - 1))
          first r.2 (depth_limit - 1) (by rw [hA.length_eq, h1.length_eq]; omega)
        exact hB.trans (hA.trans h1)
    · exact List.Perm.refl _

/-- The `std::sort` of GNU libstdc++ keeps the promise of `std::sort`: for a strict weak
ordering it returns a rearrangement of the input in which no element is followed by
one that the comparison puts before it. -/
theorem LibStdCxx.sort_isStdSort : IsStdSort LibStdCxx.sort := by
  intro comp hasymm hneg l
  cases l with
  | nil => exact ⟨List.Perm.refl _, List.Pairwise.nil⟩
  | cons a T =>
    have hperm := LibStdCxx.introsort_loop_perm comp a hasymm (a :: T).length (a :: T) 0
      (a :: T).length (2 * LibStdCxx.__lg (a :: T).length (a :: T).length) (le_refl _)
    unfold LibStdCxx.sort
    simp only []
    generalize LibStdCxx.__introsort_loop comp a (a :: T).length (a :: T) 0
      (a :: T).length (2 * LibStdCxx.__lg (a :: T).length (a :: T).length) = l1 at hperm
    have hne : l1 ≠ [] := by
      intro h
      rw [h] at hperm
      simp at hperm
    have hfin := LibStdCxx.final_insertion_sort_sorted comp a hasymm hneg l1 hne
    rw [hperm.length_eq] at hfin
    exact ⟨hfin.1.trans hperm, hfin.2⟩

/-! ## The sorting step of `doPaint` -/

/-- C11, as amended: for a group whose z-order flag is dirty (and whose clip part is
defined), after `doPaint` the child list is a permutation of the previous child list,
non-decreasing in zIndex, and the z-order dirty flag is cleared, whatever `std::sort`
is used that keeps its promise. When `std::sort` is the one of GNU libstdc++ and the
group has at most 16 children, the child list is moreover the stable sort of the
previous one: children of equal zIndex keep their relative order. -/
theorem FGCanvasGroup.doPaint_sorts_children
    (stdSort : (FGCanvasElement → FGCanvasElement → Bool) → List FGCanvasElement →
      List FGCanvasElement)
    (zIndex : FGCanvasElement → Int) (clipSpec : JsonValue) (g : FGCanvasGroup)
    (hsort : IsStdSort stdSort)
    (hz : g._zIndicesDirty = true)
    (hclip : g._clipDirty = false ∨ QVariant.isNull clipSpec = true
      ∨ 4 ≤ (QByteArray.split ',' (QVariant.toQString clipSpec)).length) :
    ∃ g1 ops, FGCanvasGroup.doPaint stdSort zIndex clipSpec g = some (g1, ops)
      ∧ g1._children.Perm g._children
      ∧ g1._children.Pairwise (fun a b => zIndex a ≤ zIndex b)
      ∧ g1._zIndicesDirty = false
      ∧ (stdSort = LibStdCxx.sort → g._children.length ≤ 16 →
          IsStableSortByZ zIndex g._children g1._children) := by
  obtain ⟨gc, hgc⟩ := FGCanvasGroup.recomputeClip_isSome clipSpec g hclip
  obtain ⟨hch, hzd, _⟩ := FGCanvasGroup.recomputeClip_keeps hgc
  obtain ⟨g3, ops, h3, _, _, _, hz3, hc3⟩ :=
    FGCanvasGroup.doPaint_of_recomputeClip stdSort zIndex hgc
  rw [hzd, hz, if_pos rfl, hch] at hc3
  have hs := hsort (fun a b => decide (zIndex a < zIndex b))
    (fun a b hab => by
      have h1 : zIndex a < zIndex b := by simpa using hab
      simp only [decide_eq_false_iff_not, not_lt]
      omega)
    (fun a b c hab hbc => by
      have h1 : ¬ zIndex a < zIndex b := by simpa using hab
      have h2 : ¬ zIndex b < zIndex c := by simpa using hbc
      simp only [decide_eq_false_iff_not, not_lt]
      omega)
    g._children
  refine ⟨g3, ops, h3, ?_, ?_, hz3, ?_⟩
  · rw [hc3]
    exact hs.1
  · rw [hc3]
    refine hs.2.imp ?_
    intro a b hab
    have h1 : ¬ zIndex b < zIndex a := by simpa using hab
    omega
  · intro hstd hlen
    rw [hc3, hstd]
    exact LibStdCxx.sort_stable_of_short zIndex g._children hlen

/-- An instance of C11: with the `std::sort` of GNU libstdc++ and z-indices 2 (group),
1 (path), 1 (text), painting `sampleGroup` with a dirty z-order leaves a permutation
with non-decreasing z-indices and a clean flag, which is the stable sort of the
previous child list. -/
theorem FGCanvasGroup.doPaint_sorts_children_witness :
    ∃ g1 ops, FGCanvasGroup.doPaint LibStdCxx.sort
        (fun e => if e.kind = .group then 2 else 1) .undefined
        { sampleGroup with _zIndicesDirty := true } = some (g1, ops)
      ∧ g1._children.Perm sampleGroup._children
      ∧ g1._children.Pairwise
          (fun a b => (if a.kind = .group then (2 : Int) else 1)
            ≤ (if b.kind = .group then (2 : Int) else 1))
      ∧ g1._zIndicesDirty = false
      ∧ IsStableSortByZ (fun e => if e.kind = .group then 2 else 1)
          sampleGroup._children g1._children :=
  (FGCanvasGroup.doPaint_sorts_children LibStdCxx.sort
    (fun e => if e.kind = .group then 2 else 1) .undefined
    { sampleGroup with _zIndicesDirty := true } LibStdCxx.sort_isStdSort rfl
    (Or.inl rfl)).imp fun _ h1 => h1.imp fun _ h2 =>
      ⟨h2.1, h2.2.1, h2.2.2.1, h2.2.2.2.1, h2.2.2.2.2 rfl (by decide)⟩

/-- C11 fails as stated. `doPaint` sorts with `std::sort`, which is not a stable sort:
with the `std::sort` of GNU libstdc++ and seventeen children `path[0]` to `path[16]`,
all at z-index 0, `doPaint` leaves the children in the order 8, 16, 15, 14, 13, 12, 11,
10, 9, 0, 7, 6, 5, 4, 3, 2, 1, which is not a stable sort of the previous order 0 to 16.
And when the clip is dirty too and the clip value is "1,2,3", `doPaint` has no result
at all. -/
theorem FGCanvasGroup.doPaint_sorts_children_counterexample :
    (∃ g1 ops, FGCanvasGroup.doPaint LibStdCxx.sort (fun _ => 0) .undefined
          { wideGroup with _zIndicesDirty := true } = some (g1, ops)
        ∧ g1._children
            = [8, 16, 15, 14, 13, 12, 11, 10, 9, 0, 7, 6, 5, 4, 3, 2, 1].map wideChild
        ∧ ¬ IsStableSortByZ (fun _ => 0) wideGroup._children g1._children)
      ∧ FGCanvasGroup.doPaint LibStdCxx.sort (fun _ => 0) (.str "1,2,3")
          { sampleGroup with _zIndicesDirty := true, _clipDirty := true } = none :=
  ⟨⟨_, _, rfl, by decide, fun h => by
    have h0 := h.2.2 0
    revert h0
    decide⟩, by decide⟩

theorem wrapInt32_of_fits (n : Int) (h1 : -2147483648 ≤ n) (h2 : n ≤ 2147483647) :
    wrapInt32 n = n := by
  unfold wrapInt32
  omega

/-- A paint of a group whose clip is clean leaves `_hasClip` and `_clipRect` alone. -/
theorem FGCanvasGroup.doPaint_clean_clip
    (stdSort : (FGCanvasElement → FGCanvasElement → Bool) → List FGCanvasElement →
      List FGCanvasElement)
    (zIndex : FGCanvasElement → Int) (clipSpec : JsonValue) (g : FGCanvasGroup)
    (hd : g._clipDirty = false) :
    ∃ g2 ops2, FGCanvasGroup.doPaint stdSort zIndex clipSpec g = some (g2, ops2)
      ∧ g2._hasClip = g._hasClip ∧ g2._clipRect = g._clipRect := by
  have hr : FGCanvasGroup.recomputeClip clipSpec g = some g := by
    unfold FGCanvasGroup.recomputeClip
    rw [hd]
    rfl
  obtain ⟨g3, ops, h3, hh, hc, _⟩ := FGCanvasGroup.doPaint_of_recomputeClip stdSort zIndex hr
  exact ⟨g3, ops, h3, hh, hc⟩

/-- The clip part for a value of four comma-free fields. -/
theorem FGCanvasGroup.recomputeClip_four (s : String) (g : FGCanvasGroup)
    (f0 f1 f2 f3 : List Char) (hd : g._clipDirty = true)
    (hs : s.toList = f0 ++ ',' :: (f1 ++ ',' :: (f2 ++ ',' :: f3)))
    (h0 : ',' ∉ f0) (h1 : ',' ∉ f1) (h2 : ',' ∉ f2) (h3 : ',' ∉ f3) :
    FGCanvasGroup.recomputeClip (.str s) g =
      some { g with
        _clipRect := ⟨QString.toInt f3, QString.toInt f0,
          wrapInt32 (QString.toInt f1 - QString.toInt f3),
          wrapInt32 (QString.toInt f2 - QString.toInt f0)⟩,
        _hasClip := true,
        _clipDirty := false } := by
  have hsplit : QByteArray.split ',' (QVariant.toQString (.str s)) = [f0, f1, f2, f3] := by
    simp only [QVariant.toQString]
    rw [hs, QByteArray.split_append_sep ',' f0 _ h0, QByteArray.split_append_sep ',' f1 _ h1,
      QByteArray.split_append_sep ',' f2 _ h2, QByteArray.split_of_not_mem ',' f3 h3]
  unfold FGCanvasGroup.recomputeClip
  rw [if_pos hd, hsplit]
  rfl

/-- C12, as amended: for a group whose clip flag is dirty: if the `clip` value is
null (the property is absent), `doPaint` sets `_hasClip` to false; if it is a string
of four comma-separated fields that `QString::toInt` reads as t, r, b, l (top, right,
bottom, left), with r - l and b - t within the range of a 32-bit int, `doPaint` sets
`_hasClip` to true and the clip rectangle to x = l, y = t, width = r - l,
height = b - t; in both cases the clip dirty flag is cleared, and a following
`doPaint` leaves `_hasClip` and the clip rectangle unchanged. -/
theorem FGCanvasGroup.doPaint_recomputes_clip
    (stdSort : (FGCanvasElement → FGCanvasElement → Bool) → List FGCanvasElement →
      List FGCanvasElement)
    (zIndex : FGCanvasElement → Int) (clipSpec : JsonValue) (g : FGCanvasGroup)
    (hd : g._clipDirty = true) :
    (QVariant.isNull clipSpec = true →
      ∃ g1 ops, FGCanvasGroup.doPaint stdSort zIndex clipSpec g = some (g1, ops)
        ∧ g1._hasClip = false ∧ g1._clipDirty = false
        ∧ ∃ g2 ops2, FGCanvasGroup.doPaint stdSort zIndex clipSpec g1 = some (g2, ops2)
          ∧ g2._hasClip = g1._hasClip ∧ g2._clipRect = g1._clipRect)
    ∧ (∀ (s : String) (f0 f1 f2 f3 : List Char) (t r b l : Int),
        clipSpec = .str s →
        s.toList = f0 ++ ',' :: (f1 ++ ',' :: (f2 ++ ',' :: f3)) →
        ',' ∉ f0 → ',' ∉ f1 → ',' ∉ f2 → ',' ∉ f3 →
        QString.toInt f0 = t → QString.toInt f1 = r →
        QString.toInt f2 = b → QString.toInt f3 = l →
        -2147483648 ≤ r - l → r - l ≤ 2147483647 →
        -2147483648 ≤ b - t → b - t ≤ 2147483647 →
        ∃ g1 ops, FGCanvasGroup.doPaint stdSort zIndex clipSpec g = some (g1, ops)
          ∧ g1._hasClip = true ∧ g1._clipRect = ⟨l, t, r - l, b - t⟩
          ∧ g1._clipDirty = false
          ∧ ∃ g2 ops2, FGCanvasGroup.doPaint stdSort zIndex clipSpec g1 = some (g2, ops2)
            ∧ g2._hasClip = g1._hasClip ∧ g2._clipRect = g1._clipRect) := by
  constructor
  · intro hn
    have hr : FGCanvasGroup.recomputeClip clipSpec g
        = some { g with _hasClip := false, _clipDirty := false } := by
      unfold FGCanvasGroup.recomputeClip
      rw [if_pos hd, if_pos hn]
    obtain ⟨g3, ops, h3, hh, _, hcd, _⟩ :=
      FGCanvasGroup.doPaint_of_recomputeClip stdSort zIndex hr
    exact ⟨g3, ops, h3, hh, hcd,
      FGCanvasGroup.doPaint_clean_clip stdSort zIndex clipSpec g3 hcd⟩
  · intro s f0 f1 f2 f3 t r b l hc hs h0 h1 h2 h3 ht hr hb hl hw1 hw2 hh1 hh2
    subst hc
    have hrc := FGCanvasGroup.recomputeClip_four s g f0 f1 f2 f3 hd hs h0 h1 h2 h3
    rw [ht, hr, hb, hl, wrapInt32_of_fits _ hw1 hw2, wrapInt32_of_fits _ hh1 hh2] at hrc
    obtain ⟨g3, ops, h3, hh, hcr, hcd, _⟩ :=
      FGCanvasGroup.doPaint_of_recomputeClip stdSort zIndex hrc
    exact ⟨g3, ops, h3, hh, hcr, hcd,
      FGCanvasGroup.doPaint_clean_clip stdSort zIndex (.str s) g3 hcd⟩

/-- Instances of C12: painting `sampleGroup` with a dirty clip and no clip value
clears `_hasClip`; with the clip value "10,200,110,20" it sets the rectangle
x = 20, y = 10, width = 180, height = 100; a second paint keeps both. -/
theorem FGCanvasGroup.doPaint_recomputes_clip_witness :
    (∃ g1 ops, FGCanvasGroup.doPaint reverseInsertionSort (fun _ => 0) .undefined
        { sampleGroup with _clipDirty := true, _hasClip := true } = some (g1, ops)
      ∧ g1._hasClip = false ∧ g1._clipDirty = false
      ∧ ∃ g2 ops2, FGCanvasGroup.doPaint reverseInsertionSort (fun _ => 0) .undefined g1
          = some (g2, ops2)
        ∧ g2._hasClip = g1._hasClip ∧ g2._clipRect = g1._clipRect)
    ∧ (∃ g1 ops, FGCanvasGroup.doPaint reverseInsertionSort (fun _ => 0)
        (.str "10,200,110,20") { sampleGroup with _clipDirty := true } = some (g1, ops)
      ∧ g1._hasClip = true ∧ g1._clipRect = ⟨20, 10, 200 - 20, 110 - 10⟩
      ∧ g1._clipDirty = false
      ∧ ∃ g2 ops2, FGCanvasGroup.doPaint reverseInsertionSort (fun _ => 0)
          (.str "10,200,110,20") g1 = some (g2, ops2)
        ∧ g2._hasClip = g1._hasClip ∧ g2._clipRect = g1._clipRect) :=
  ⟨(FGCanvasGroup.doPaint_recomputes_clip reverseInsertionSort (fun _ => 0) .undefined
      { sampleGroup with _clipDirty := true, _hasClip := true } rfl).1 rfl,
   (FGCanvasGroup.doPaint_recomputes_clip reverseInsertionSort (fun _ => 0)
      (.str "10,200,110,20") { sampleGroup with _clipDirty := true } rfl).2
      "10,200,110,20" "10".toList "200".toList "110".toList "20".toList 10 200 110 20
      rfl (by decide) (by decide) (by decide) (by decide) (by decide)
      (by decide) (by decide) (by decide) (by decide)
      (by decide) (by decide) (by decide) (by decide)⟩

/-- C12 fails as stated: for the clip value "0,2147483647,0,-1" the width computed in
`int` is -2147483648 and not 2147483647 - (-1); for "4294967296,0,0,0" the first
field does not fit an `int`, `toInt` yields 0, and y is 0 and not 4294967296. -/
theorem FGCanvasGroup.doPaint_recomputes_clip_counterexample :
    (∃ g1 ops, FGCanvasGroup.doPaint reverseInsertionSort (fun _ => 0)
        (.str "0,2147483647,0,-1") { sampleGroup with _clipDirty := true } = some (g1, ops)
      ∧ g1._clipRect = ⟨-1, 0, -2147483648, 0⟩
      ∧ g1._clipRect.width ≠ 2147483647 - (-1))
    ∧ (∃ g1 ops, FGCanvasGroup.doPaint reverseInsertionSort (fun _ => 0)
        (.str "4294967296,0,0,0") { sampleGroup with _clipDirty := true } = some (g1, ops)
      ∧ g1._clipRect = ⟨0, 0, 0, 0⟩
      ∧ g1._clipRect.y ≠ 4294967296) :=
  ⟨⟨_, _, rfl, by decide, by decide⟩, ⟨_, _, rfl, by decide, by decide⟩⟩

/-! ## Lemmas on the image loader -/

namespace FGQCanvasImageLoader

theorem getImage_cached {l : FGQCanvasImageLoader} {p : QByteArray} {pm : QPixmap}
    (h : l.m_cache p = some pm) : l.getImage p = (pm, l) := by
  unfold getImage
  rw [h]

theorem getImage_inFlight {l : FGQCanvasImageLoader} {p : QByteArray}
    (hc : l.m_cache p = none) (h : ∃ t ∈ l.m_transfers, t.url = l.imageUrl p) :
    l.getImage p = (none, l) := by
  have hany : l.m_transfers.any (fun transfer => decide (transfer.url = l.imageUrl p))
      = true := by
    rw [List.any_eq_true]
    obtain ⟨t, ht, hu⟩ := h
    exact ⟨t, ht, by simpa using hu⟩
  unfold getImage
  rw [hc]
  simp only [hany, if_true]

theorem getImage_fresh {l : FGQCanvasImageLoader} {p : QByteArray}
    (hc : l.m_cache p = none) (h : ∀ t ∈ l.m_transfers, t.url ≠ l.imageUrl p) :
    l.getImage p = (none, { l with
      m_transfers := l.m_transfers ++
        [{ handle := l.nextHandle, url := l.imageUrl p, image := p, holder := false }],
      nextHandle := l.nextHandle + 1 }) := by
  have hany : l.m_transfers.any (fun transfer => decide (transfer.url = l.imageUrl p))
      = false := by
    rw [List.any_eq_false]
    intro t ht
    simpa using h t ht
  unfold getImage
  rw [hc]
  simp only [hany, Bool.false_eq_true, if_false]

theorem getImage_urlsDistinct (l : FGQCanvasImageLoader) (p : QByteArray)
    (h : l.urlsDistinct) : (l.getImage p).2.urlsDistinct := by
  cases hc : l.m_cache p with
  | some pm => rw [getImage_cached hc]; exact h
  | none =>
    by_cases hex : ∃ t ∈ l.m_transfers, t.url = l.imageUrl p
    · rw [getImage_inFlight hc hex]; exact h
    · have hno : ∀ t ∈ l.m_transfers, t.url ≠ l.imageUrl p :=
        fun t ht hu => hex ⟨t, ht, hu⟩
      rw [getImage_fresh hc hno]
      unfold urlsDistinct at h ⊢
      simp only [List.map_append, List.map_cons, List.map_nil]
      rw [List.nodup_append]
      refine ⟨h, List.nodup_singleton _, ?_⟩
      intro u hu hu2
      rw [List.mem_singleton] at hu2
      obtain ⟨t, ht, htu⟩ := List.mem_map.mp hu
      exact hno t ht (htu.trans hu2)

theorem onDownloadFinished_urlsDistinct (l : FGQCanvasImageLoader) (reply : QNetworkReply)
    (loaded : Option QByteArray) (h : l.urlsDistinct) :
    (l.onDownloadFinished reply loaded).1.urlsDistinct := by
  have hsub : ((l.m_transfers.eraseP (fun t => decide (t.handle = reply.handle))).map
      QNetworkReply.url).Sublist (l.m_transfers.map QNetworkReply.url) :=
    (List.eraseP_sublist _).map _
  unfold urlsDistinct at h ⊢
  unfold onDownloadFinished
  cases loaded with
  | none => exact h.sublist hsub
  | some pm => exact h.sublist hsub

theorem step_urlsDistinct (l : FGQCanvasImageLoader) (ev : LoaderEvent)
    (h : l.urlsDistinct) : (l.step ev).urlsDistinct := by
  cases ev with
  | getImage p => exact getImage_urlsDistinct l p h
  | downloadFinished reply loaded => exact onDownloadFinished_urlsDistinct l reply loaded h
  | setHost hn pn => exact h

theorem run_urlsDistinct (evs : List LoaderEvent) :
    ∀ l : FGQCanvasImageLoader, l.urlsDistinct → (l.run evs).urlsDistinct := by
  induction evs with
  | nil => intro l h; exact h
  | cons ev evs ih =>
    intro l h
    exact ih (l.step ev) (step_urlsDistinct l ev h)

end FGQCanvasImageLoader

/-- C13: for every loader state and image path p: if p is in the cache, `getImage`
returns the cached image and leaves the loader (its transfers included) as it was; if
p is not cached and a transfer for p's URL is in flight, it returns the empty image
and leaves the loader as it was; otherwise it returns the empty image and appends
exactly one transfer, for p and p's URL. Hence distinct URLs among the transfers stay
distinct, and from the loader as constructed no sequence of requests, finished
downloads and host changes leads to two transfers with the same URL. -/
theorem FGQCanvasImageLoader.getImage_suppresses_duplicates
    (l : FGQCanvasImageLoader) (p : QByteArray) :
    (∀ pm, l.m_cache p = some pm →
        (l.getImage p).1 = pm ∧ (l.getImage p).2.m_transfers = l.m_transfers)
      ∧ (l.m_cache p = none → (∃ t ∈ l.m_transfers, t.url = l.imageUrl p) →
        (l.getImage p).1 = none ∧ (l.getImage p).2.m_transfers = l.m_transfers)
      ∧ (l.m_cache p = none → (∀ t ∈ l.m_transfers, t.url ≠ l.imageUrl p) →
        (l.getImage p).1 = none
          ∧ ∃ reply, (l.getImage p).2.m_transfers = l.m_transfers ++ [reply]
            ∧ reply.url = l.imageUrl p ∧ reply.image = p)
      ∧ (l.urlsDistinct → (l.getImage p).2.urlsDistinct)
      ∧ (∀ evs : List LoaderEvent,
          (FGQCanvasImageLoader.initial.run evs).urlsDistinct) := by
  refine ⟨?_, ?_, ?_, FGQCanvasImageLoader.getImage_urlsDistinct l p, ?_⟩
  · intro pm h
    rw [FGQCanvasImageLoader.getImage_cached h]
    exact ⟨rfl, rfl⟩
  · intro hc h
    rw [FGQCanvasImageLoader.getImage_inFlight hc h]
    exact ⟨rfl, rfl⟩
  · intro hc h
    rw [FGQCanvasImageLoader.getImage_fresh hc h]
    exact ⟨rfl, _, rfl, rfl, rfl⟩
  · intro evs
    exact FGQCanvasImageLoader.run_urlsDistinct evs _ List.nodup_nil

/-- Instances of C13 on `sampleLoader`, which has `a.png` cached and `b.png` in
flight: a request for `a.png` returns the cached image, a request for `b.png` is
suppressed, and a request for `c.png` appends one transfer. -/
theorem FGQCanvasImageLoader.getImage_suppresses_duplicates_witness :
    ((sampleLoader.getImage "a.png".toList).1 = some "A".toList
        ∧ (sampleLoader.getImage "a.png".toList).2.m_transfers = sampleLoader.m_transfers)
      ∧ ((sampleLoader.getImage "b.png".toList).1 = none
        ∧ (sampleLoader.getImage "b.png".toList).2.m_transfers = sampleLoader.m_transfers)
      ∧ ((sampleLoader.getImage "c.png".toList).1 = none
        ∧ ∃ reply, (sampleLoader.getImage "c.png".toList).2.m_transfers
            = sampleLoader.m_transfers ++ [reply]
          ∧ reply.url = sampleLoader.imageUrl "c.png".toList
          ∧ reply.image = "c.png".toList)
      ∧ (sampleLoader.getImage "c.png".toList).2.urlsDistinct :=
  ⟨(FGQCanvasImageLoader.getImage_suppresses_duplicates sampleLoader "a.png".toList).1
      (some "A".toList) rfl,
   (FGQCanvasImageLoader.getImage_suppresses_duplicates sampleLoader "b.png".toList).2.1
      rfl ⟨_, List.mem_singleton.mpr rfl, by decide⟩,
   (FGQCanvasImageLoader.getImage_suppresses_duplicates sampleLoader "c.png".toList).2.2.1
      rfl (by
        intro t ht
        rw [List.mem_singleton.mp ht]
        decide),
   (FGQCanvasImageLoader.getImage_suppresses_duplicates sampleLoader "c.png".toList).2.2.2.1
      (by unfold FGQCanvasImageLoader.urlsDistinct; decide)⟩

/-! ## Lemmas on removal -/

namespace LocalProp

theorem findChild_eraseChild_ne {cs : List LocalProp} {k j : NameIndexTuple} (hj : j ≠ k) :
    findChild (eraseChild cs k) j = findChild cs j := by
  induction cs with
  | nil => rfl
  | cons a cs ih =>
    by_cases ha : a.id = k
    · have h1 : ¬ a.id = j := fun e => hj (e.symm.trans ha)
      simp [eraseChild, ha, findChild, List.find?_cons, h1, Ne.symm hj]
    · by_cases haj : a.id = j
      · have hak : ¬ (j = k) := hj
        simp [eraseChild, ha, findChild, List.find?_cons, haj, hak]
      · simpa [eraseChild, ha, findChild, List.find?_cons, haj] using ih

theorem removeAt_single_some {t c : LocalProp} {k : NameIndexTuple}
    (h : findChild t.children k = some c) :
    removeAt t [k] = some (.mk t.id t.serial t.value (eraseChild t.children k)) := by
  rw [removeAt, h]

theorem removeAt_single_none {t : LocalProp} {k : NameIndexTuple}
    (h : findChild t.children k = none) : removeAt t [k] = none := by
  rw [removeAt, h]

theorem removeAt_cons_some {t c : LocalProp} {k k2 : NameIndexTuple}
    (ks : List NameIndexTuple) (h : findChild t.children k = some c) :
    removeAt t (k :: k2 :: ks) =
      (removeAt c (k2 :: ks)).map
        (fun c1 => .mk t.id t.serial t.value (replaceChild t.children k c1)) := by
  rw [removeAt, h]
  cases hc : removeAt c (k2 :: ks) <;> simp [hc]

theorem removeAt_cons_none {t : LocalProp} {k k2 : NameIndexTuple}
    (ks : List NameIndexTuple) (h : findChild t.children k = none) :
    removeAt t (k :: k2 :: ks) = none := by
  rw [removeAt, h]

theorem removeAt_root {t u : LocalProp} {p : List NameIndexTuple}
    (h : removeAt t p = some u) : u.id = t.id ∧ u.serial = t.serial ∧ u.value = t.value := by
  match p, h with
  | [], h => rw [removeAt] at h; exact absurd h (by simp)
  | [k], h =>
    cases hk : findChild t.children k with
    | none => rw [removeAt_single_none hk] at h; exact absurd h (by simp)
    | some c =>
      rw [removeAt_single_some hk, Option.some.injEq] at h
      subst h
      simp
  | k :: k2 :: ks, h =>
    cases hk : findChild t.children k with
    | none => rw [removeAt_cons_none ks hk] at h; exact absurd h (by simp)
    | some c =>
      rw [removeAt_cons_some ks hk] at h
      cases hc : removeAt c (k2 :: ks) with
      | none => rw [hc] at h; exact absurd h (by simp)
      | some c1 =>
        rw [hc, Option.map_some', Option.some.injEq] at h
        subst h
        simp

/-- Removal succeeds at every position below the root that holds a node. -/
theorem removeAt_isSome (p : List NameIndexTuple) :
    ∀ (t n : LocalProp), p ≠ [] → getNode t p = some n → ∃ u, removeAt t p = some u := by
  induction p with
  | nil => intro t n hp _; exact absurd rfl hp
  | cons k ks ih =>
    intro t n _ h
    cases hk : findChild t.children k with
    | none => rw [getNode_cons_none ks hk] at h; exact absurd h (by simp)
    | some c =>
      rw [getNode_cons_some ks hk] at h
      cases ks with
      | nil => exact ⟨_, removeAt_single_some hk⟩
      | cons k2 ks2 =>
        obtain ⟨u, hu⟩ := ih c n (by simp) h
        exact ⟨_, by rw [removeAt_cons_some ks2 hk, hu, Option.map_some']⟩

/-- Removal leaves every node that is not at or below the removed position where it
was, with its serial and value. -/
theorem removeAt_keeps (p : List NameIndexTuple) :
    ∀ (t u : LocalProp) (q : List NameIndexTuple),
      removeAt t p = some u → p.isPrefixOf q = false →
      serialAt u q = serialAt t q ∧ valueAt u q = valueAt t q := by
  induction p with
  | nil => intro t u q h _; rw [removeAt] at h; exact absurd h (by simp)
  | cons k ks ih =>
    intro t u q h hq
    have hroot := removeAt_root h
    cases q with
    | nil =>
      simp [serialAt, valueAt, getNode_nil, hroot.2.1, hroot.2.2]
    | cons j q =>
      cases hk : findChild t.children k with
      | none =>
        cases ks with
        | nil => rw [removeAt_single_none hk] at h; exact absurd h (by simp)
        | cons k2 ks2 => rw [removeAt_cons_none ks2 hk] at h; exact absurd h (by simp)
      | some c =>
        cases ks with
        | nil =>
          rw [removeAt_single_some hk, Option.some.injEq] at h
          subst h
          have hjk : j ≠ k := by
            intro e
            subst e
            simp [List.isPrefixOf] at hq
          simp only [serialAt, valueAt]
          rw [getNode, getNode]
          simp only [children_mk]
          rw [findChild_eraseChild_ne hjk]
          exact ⟨rfl, rfl⟩
        | cons k2 ks2 =>
          rw [removeAt_cons_some ks2 hk] at h
          cases hc : removeAt c (k2 :: ks2) with
          | none => rw [hc] at h; exact absurd h (by simp)
          | some c1 =>
            rw [hc, Option.map_some', Option.some.injEq] at h
            subst h
            have hid : c1.id = k := ((removeAt_root hc).1).trans (findChild_id hk)
            by_cases hjk : j = k
            · subst hjk
              have hq2 : (k2 :: ks2).isPrefixOf q = false := by
                simpa [List.isPrefixOf] using hq
              have := ih c c1 q hc hq2
              simp only [serialAt, valueAt] at this ⊢
              rw [getNode_cons_some q (by simpa using findChild_replaceChild_same hk hid),
                getNode_cons_some q hk]
              exact this
            · simp only [serialAt, valueAt]
              rw [getNode, getNode]
              simp only [children_mk]
              rw [findChild_replaceChild_ne hid hjk]
              exact ⟨rfl, rfl⟩

end LocalProp

/-! ## Lemmas on a whole message -/

theorem handledSegs_of_localSegs {root : QByteArray} {e : JsonValue}
    {segs : List NameIndexTuple} (h : localSegs root e = some segs) :
    handledSegs root e = some segs := by
  unfold localSegs at h
  simp only at h
  split at h
  · rename_i hpre
    have hroot : root.isPrefixOf (toUtf8 (objValue e.toObject "path").toQString) = true := by
      rw [ List.isPrefixOf_iff_prefix] at hpre ⊢
      exact (List.prefix_append _ _).trans hpre
    have h0 := QByteArray.indexOf_eq_zero hroot
    unfold handledSegs
    simp only [h0, ne_eq, not_true_eq_false, if_false]
    exact h
  · exact absurd h (by simp)

namespace TemporaryWidget

theorem createdStep_skipped {w : TemporaryWidget} {e : JsonValue}
    (h : QByteArray.indexOf (toUtf8 (objValue e.toObject "path").toQString)
      w.rootPropertyPath ≠ 0) : createdStep w e = .ok w := by
  unfold createdStep
  simp only [h, ne_eq, not_false_eq_true, if_true]

/-- One `created` entry that the loop handles, when the node its id already names (if
any) is live: the step succeeds, every node stays where it was with its serial, and
the id enters the table with the node at the entry's position unless it is a key. -/
theorem createdStep_handled {w : TemporaryWidget} {e : JsonValue}
    {segs : List NameIndexTuple} (hs : handledSegs w.rootPropertyPath e = some segs)
    (hold : ∀ old, w.idPropertyDict (entryId e) = some old →
      serialAt w.m_localPropertyRoot old.path = some old.serial) :
    ∃ w1, createdStep w e = .ok w1
      ∧ w1.rootPropertyPath = w.rootPropertyPath
      ∧ (∀ q s, serialAt w.m_localPropertyRoot q = some s →
          serialAt w1.m_localPropertyRoot q = some s)
      ∧ ∃ s, serialAt w1.m_localPropertyRoot segs = some s
          ∧ w1.idPropertyDict =
              if (w.idPropertyDict (entryId e)).isSome then w.idPropertyDict
              else dictInsert w.idPropertyDict (entryId e) ⟨segs, s⟩ := by
  have h0 : QByteArray.indexOf (toUtf8 (objValue e.toObject "path").toQString)
      w.rootPropertyPath = 0 := by
    by_contra hne
    unfold handledSegs at hs
    simp only [hne, ne_eq, not_false_eq_true, if_true] at hs
    exact absurd hs (by simp)
  have hp : parsePath ((toUtf8 (objValue e.toObject "path").toQString).drop
      (w.rootPropertyPath.length + 1)) = .ok segs := by
    unfold handledSegs at hs
    simp only [h0, ne_eq, not_true_eq_false, if_false] at hs
    cases hpp : parsePath ((toUtf8 (objValue e.toObject "path").toQString).drop
        (w.rootPropertyPath.length + 1)) with
    | error err => rw [hpp] at hs; exact absurd hs (by simp)
    | ok sg =>
      rw [hpp] at hs
      simp only [Option.some.injEq] at hs
      rw [hs]
  have hself := LocalProp.getOrCreateWithSegs_self segs w.m_localPropertyRoot w.nextSerial
  obtain ⟨u, hu, _, hser, _⟩ := processChange_live
    (t := (w.m_localPropertyRoot.getOrCreateWithSegs segs w.nextSerial).1)
    (r := ⟨segs, (w.m_localPropertyRoot.getOrCreateWithSegs segs w.nextSerial).2.2⟩)
    (entryValue e) hself
  have hpres : ∀ q s, serialAt w.m_localPropertyRoot q = some s → serialAt u q = some s := by
    intro q s hq
    rw [hser q]
    exact serialAt_getOrCreateWithSegs segs w.nextSerial hq
  have hnew : serialAt u segs
      = some (w.m_localPropertyRoot.getOrCreateWithSegs segs w.nextSerial).2.2 := by
    rw [hser segs]
    exact hself
  unfold createdStep propertyFromPath LocalProp.getOrCreateWithPath QByteArray.mid
  simp only [h0, ne_eq, not_true_eq_false, if_false, hp]
  cases hd : w.idPropertyDict (toUInt (objValue e.toObject "id").toInt) with
  | some old =>
    have hold1 := serialAt_getOrCreateWithSegs segs w.nextSerial (hold old hd)
    obtain ⟨n, hn⟩ := (deref_eq_some_iff _ old).mpr hold1
    have hu2 : processChange (w.m_localPropertyRoot.getOrCreateWithSegs segs w.nextSerial).1
        ⟨segs, (w.m_localPropertyRoot.getOrCreateWithSegs segs w.nextSerial).2.2⟩
        (objValue e.toObject "value") = .ok u := hu
    simp only [hn, hu2]
    refine ⟨_, rfl, rfl, hpres, _, hnew, ?_⟩
    have : (w.idPropertyDict (entryId e)).isSome = true := by
      unfold entryId
      rw [hd]
      rfl
    simp only [this, if_true]
  | none =>
    have hu2 : processChange (w.m_localPropertyRoot.getOrCreateWithSegs segs w.nextSerial).1
        ⟨segs, (w.m_localPropertyRoot.getOrCreateWithSegs segs w.nextSerial).2.2⟩
        (objValue e.toObject "value") = .ok u := hu
    simp only [hu2]
    refine ⟨_, rfl, rfl, hpres, _, hnew, ?_⟩
    have : (w.idPropertyDict (entryId e)).isSome = false := by
      unfold entryId
      rw [hd]
      rfl
    simp only [this, Bool.false_eq_true, if_false]
    rfl

/-- The `created` loop over entries it skips or handles, when the nodes named by the
ids in `U` are live and `U` holds the ids of the handled entries: the loop succeeds,
those nodes stay live, and the table points to the positions `pathsAfterCreated`
gives. -/
theorem forEach_createdStep_general (U : Nat → Prop) (root : QByteArray)
    (cs : List JsonValue) :
    ∀ w : TemporaryWidget, w.rootPropertyPath = root →
      (∀ i r, U i → w.idPropertyDict i = some r →
        serialAt w.m_localPropertyRoot r.path = some r.serial) →
      (∀ x ∈ cs, createdEntryOk root x) →
      (∀ x ∈ cs, (handledSegs root x).isSome = true → U (entryId x)) →
      ∃ wc, forEach createdStep w cs = .ok wc
        ∧ wc.rootPropertyPath = root
        ∧ (∀ i r, U i → wc.idPropertyDict i = some r →
            serialAt wc.m_localPropertyRoot r.path = some r.serial)
        ∧ (∀ i, (wc.idPropertyDict i).map NodeRef.path
            = pathsAfterCreated root (pathTable w) cs i) := by
  induction cs with
  | nil =>
    intro w hr hl _ _
    exact ⟨w, rfl, hr, hl, fun _ => rfl⟩
  | cons x cs ih =>
    intro w hr hl hok hU
    have hokx := hok x (List.mem_cons_self x cs)
    cases hh : handledSegs root x with
    | none =>
      have hskip : QByteArray.indexOf (toUtf8 (objValue x.toObject "path").toQString)
          w.rootPropertyPath ≠ 0 := by
        rcases hokx with h | h
        · rw [hr]; exact h
        · rw [hh] at h; exact absurd h (by simp)
      obtain ⟨wc, hc, hrc, hlc, hpc⟩ := ih w hr hl
        (fun y hy => hok y (List.mem_cons_of_mem x hy))
        (fun y hy => hU y (List.mem_cons_of_mem x hy))
      refine ⟨wc, ?_, hrc, hlc, ?_⟩
      · simp only [forEach, createdStep_skipped hskip]
        exact hc
      · intro i
        have hst : pathsStep root (pathTable w) x = pathTable w := by
          funext j
          unfold pathsStep
          rw [hh]
        rw [hpc i, pathsAfterCreated, hst]
    | some segs =>
      have hUx : U (entryId x) := hU x (List.mem_cons_self x cs) (by rw [hh]; rfl)
      have hhw : handledSegs w.rootPropertyPath x = some segs := by rw [hr]; exact hh
      obtain ⟨w1, h1, hr1, hp1, s, hs1, hd1⟩ := createdStep_handled hhw
        (fun old ho => hl _ old hUx ho)
      have hl1 : ∀ i r, U i → w1.idPropertyDict i = some r →
          serialAt w1.m_localPropertyRoot r.path = some r.serial := by
        intro i r hi hir
        by_cases hsome : (w.idPropertyDict (entryId x)).isSome = true
        · rw [hd1, if_pos hsome] at hir
          exact hp1 _ _ (hl i r hi hir)
        · rw [hd1, if_neg hsome] at hir
          unfold dictInsert at hir
          by_cases hie : i = entryId x
          · rw [if_pos hie, Option.some.injEq] at hir
            subst hir
            exact hs1
          · rw [if_neg hie] at hir
            exact hp1 _ _ (hl i r hi hir)
      have hpt : pathTable w1 = pathsStep root (pathTable w) x := by
        funext i
        have hiso : (pathTable w (entryId x)).isSome = (w.idPropertyDict (entryId x)).isSome := by
          unfold pathTable
          cases w.idPropertyDict (entryId x) <;> rfl
        unfold pathsStep
        rw [hh]
        simp only [hiso]
        by_cases hsome : (w.idPropertyDict (entryId x)).isSome = true
        · have hd2 : w1.idPropertyDict = w.idPropertyDict := by rw [hd1, if_pos hsome]
          have hc : ¬ (i = entryId x ∧ (w.idPropertyDict (entryId x)).isSome = false) := by
            rw [hsome]
            simp
          rw [if_neg hc]
          unfold pathTable
          rw [hd2]
        · have hd2 : w1.idPropertyDict
              = dictInsert w.idPropertyDict (entryId x) ⟨segs, s⟩ := by rw [hd1, if_neg hsome]
          have hfalse : (w.idPropertyDict (entryId x)).isSome = false := by simpa using hsome
          unfold pathTable
          rw [hd2]
          unfold dictInsert
          by_cases hie : i = entryId x
          · rw [if_pos hie, if_pos ⟨hie, hfalse⟩]
            rfl
          · rw [if_neg hie, if_neg (fun h => hie h.1)]
      obtain ⟨wc, hc, hrc, hlc, hpc⟩ := ih w1 (hr1.trans hr) hl1
        (fun y hy => hok y (List.mem_cons_of_mem x hy))
        (fun y hy => hU y (List.mem_cons_of_mem x hy))
      refine ⟨wc, ?_, hrc, hlc, ?_⟩
      · simp only [forEach, h1]
        exact hc
      · intro i
        rw [hpc i, hpt, pathsAfterCreated]

end TemporaryWidget

theorem pathsAfterCreated_append (root : QByteArray) (xs ys : List JsonValue) :
    ∀ d, pathsAfterCreated root d (xs ++ ys)
      = pathsAfterCreated root (pathsAfterCreated root d xs) ys := by
  induction xs with
  | nil => intro d; rfl
  | cons x xs ih =>
    intro d
    rw [List.cons_append, pathsAfterCreated, pathsAfterCreated, ih]

theorem pathsStep_keeps (root : QByteArray) (d : Nat → Option (List NameIndexTuple))
    (x : JsonValue) (i : Nat) (p : List NameIndexTuple) (h : d i = some p) :
    pathsStep root d x i = some p := by
  unfold pathsStep
  cases hh : handledSegs root x with
  | none => exact h
  | some segs =>
    have hc : ¬ (i = entryId x ∧ (d (entryId x)).isSome = false) := by
      intro hcon
      rw [← hcon.1, h] at hcon
      exact absurd hcon.2 (by simp)
    simp only [if_neg hc]
    exact h

theorem pathsAfterCreated_keeps (root : QByteArray) (xs : List JsonValue) :
    ∀ d i p, d i = some p → pathsAfterCreated root d xs i = some p := by
  induction xs with
  | nil => intro d i p h; exact h
  | cons x xs ih =>
    intro d i p h
    rw [pathsAfterCreated]
    exact ih _ i p (pathsStep_keeps root d x i p h)

theorem pathsAfterCreated_untouched (root : QByteArray) (xs : List JsonValue) :
    ∀ d i, (∀ x ∈ xs, (handledSegs root x).isSome = true → entryId x ≠ i) →
      pathsAfterCreated root d xs i = d i := by
  induction xs with
  | nil => intro d i _; rfl
  | cons x xs ih =>
    intro d i h
    rw [pathsAfterCreated, ih _ i (fun y hy => h y (List.mem_cons_of_mem x hy))]
    unfold pathsStep
    cases hh : handledSegs root x with
    | none => rfl
    | some segs =>
      have hne : entryId x ≠ i := h x (List.mem_cons_self x xs) (by rw [hh]; rfl)
      have hc : ¬ (i = entryId x ∧ (d (entryId x)).isSome = false) :=
        fun hcon => hne hcon.1.symm
      simp only [if_neg hc]

/-- The id first carried by a handled entry points to that entry's position after the
`created` loop. -/
theorem pathsAfterCreated_introduced (root : QByteArray) (pre post : List JsonValue)
    (e : JsonValue) (segs : List NameIndexTuple) (d : Nat → Option (List NameIndexTuple))
    (hd : d (entryId e) = none)
    (hpre : ∀ x ∈ pre, (handledSegs root x).isSome = true → entryId x ≠ entryId e)
    (he : handledSegs root e = some segs) :
    pathsAfterCreated root d (pre ++ e :: post) (entryId e) = some segs := by
  rw [pathsAfterCreated_append, pathsAfterCreated]
  apply pathsAfterCreated_keeps
  have h1 := pathsAfterCreated_untouched root pre d (entryId e) hpre
  unfold pathsStep
  rw [he]
  have hnone : (pathsAfterCreated root d pre (entryId e)).isSome = false := by
    rw [h1, hd]; rfl
  simp only [hnone, and_self, if_true]

namespace TemporaryWidget

theorem removedStep_unknown {w : TemporaryWidget} {r : JsonValue}
    (h : w.idPropertyDict (removalId r) = none) : removedStep w r = .ok w := by
  unfold removedStep
  unfold removalId at h
  simp only [h]

/-- A removal through a live pointer to a node other than the root succeeds: the node
leaves the tree and the id leaves the table. -/
theorem removedStep_known {w : TemporaryWidget} {r : JsonValue} {ref : NodeRef}
    (h : w.idPropertyDict (removalId r) = some ref)
    (hlive : serialAt w.m_localPropertyRoot ref.path = some ref.serial)
    (hne : ref.path ≠ []) :
    ∃ t1, LocalProp.removeAt w.m_localPropertyRoot ref.path = some t1
      ∧ removedStep w r
          = .ok { w with m_localPropertyRoot := t1,
                         idPropertyDict := dictRemove w.idPropertyDict (removalId r) } := by
  obtain ⟨n, hn⟩ := (deref_eq_some_iff _ ref).mpr hlive
  have hg : ∃ m, w.m_localPropertyRoot.getNode ref.path = some m := by
    unfold serialAt at hlive
    cases hm : w.m_localPropertyRoot.getNode ref.path with
    | none => rw [hm] at hlive; exact absurd hlive (by simp)
    | some m => exact ⟨m, rfl⟩
  obtain ⟨m, hm⟩ := hg
  obtain ⟨t1, ht1⟩ := LocalProp.removeAt_isSome ref.path w.m_localPropertyRoot m hne hm
  refine ⟨t1, ht1, ?_⟩
  unfold removedStep removeFromParent
  unfold removalId at h
  simp only [h, hn, ht1]
  rfl

/-- The removal loop, when every removal that names a key names a live node other
than the root that no earlier removal of the list destroyed: the loop succeeds, the
ids named leave the table, and every node that is not at or below a removed position
stays where it was with its serial and value. -/
theorem forEach_removedStep_spec (rs : List JsonValue) :
    ∀ w : TemporaryWidget,
      (∀ rs1 r rs2, rs = rs1 ++ r :: rs2 → (∀ x ∈ rs1, removalId x ≠ removalId r) →
        ∀ ref, w.idPropertyDict (removalId r) = some ref →
          serialAt w.m_localPropertyRoot ref.path = some ref.serial
            ∧ ref.path ≠ []
            ∧ ∀ x ∈ rs1, ∀ ref1, w.idPropertyDict (removalId x) = some ref1 →
                ref1.path.isPrefixOf ref.path = false) →
      ∃ w1, forEach removedStep w rs = .ok w1
        ∧ (∀ i, w1.idPropertyDict i
            = if i ∈ rs.map removalId then none else w.idPropertyDict i)
        ∧ (∀ q, (∀ x ∈ rs, ∀ ref, w.idPropertyDict (removalId x) = some ref →
              ref.path.isPrefixOf q = false) →
            serialAt w1.m_localPropertyRoot q = serialAt w.m_localPropertyRoot q
              ∧ valueAt w1.m_localPropertyRoot q = valueAt w.m_localPropertyRoot q) := by
  induction rs with
  | nil =>
    intro w _
    exact ⟨w, rfl, fun i => by simp, fun q _ => ⟨rfl, rfl⟩⟩
  | cons r rest ih =>
    intro w H
    cases hd : w.idPropertyDict (removalId r) with
    | none =>
      have Hrest : ∀ rs1 r2 rs2, rest = rs1 ++ r2 :: rs2 →
          (∀ x ∈ rs1, removalId x ≠ removalId r2) →
          ∀ ref, w.idPropertyDict (removalId r2) = some ref →
            serialAt w.m_localPropertyRoot ref.path = some ref.serial
              ∧ ref.path ≠ []
              ∧ ∀ x ∈ rs1, ∀ ref1, w.idPropertyDict (removalId x) = some ref1 →
                  ref1.path.isPrefixOf ref.path = false := by
        intro rs1 r2 rs2 hsplit hguard ref href
        have hne : removalId r ≠ removalId r2 := by
          intro e
          rw [e, href] at hd
          exact absurd hd (by simp)
        have hg2 : ∀ x ∈ r :: rs1, removalId x ≠ removalId r2 := by
          intro x hx
          rcases List.mem_cons.mp hx with rfl | hx
          · exact hne
          · exact hguard x hx
        obtain ⟨h1, h2, h3⟩ := H (r :: rs1) r2 rs2 (by rw [hsplit]; rfl) hg2 ref href
        exact ⟨h1, h2, fun x hx => h3 x (List.mem_cons_of_mem r hx)⟩
      obtain ⟨w1, hw1, hdict, hkeep⟩ := ih w Hrest
      refine ⟨w1, ?_, ?_, ?_⟩
      · simp only [forEach, removedStep_unknown hd]
        exact hw1
      · intro i
        rw [hdict i]
        by_cases hi : i ∈ rest.map removalId
        · simp [hi]
        · by_cases hir : i = removalId r
          · subst hir
            simp [hd]
          · simp [hi, hir]
      · intro q hq
        exact hkeep q (fun x hx => hq x (List.mem_cons_of_mem r hx))
    | some ref =>
      obtain ⟨hlive, hne, _⟩ := H [] r rest rfl (fun _ hx => absurd hx (by simp)) ref hd
      obtain ⟨t1, ht1, hstep⟩ := removedStep_known hd hlive hne
      have Hrest : ∀ rs1 r2 rs2, rest = rs1 ++ r2 :: rs2 →
          (∀ x ∈ rs1, removalId x ≠ removalId r2) →
          ∀ ref2, dictRemove w.idPropertyDict (removalId r) (removalId r2) = some ref2 →
            serialAt t1 ref2.path = some ref2.serial
              ∧ ref2.path ≠ []
              ∧ ∀ x ∈ rs1, ∀ ref1,
                  dictRemove w.idPropertyDict (removalId r) (removalId x) = some ref1 →
                  ref1.path.isPrefixOf ref2.path = false := by
        intro rs1 r2 rs2 hsplit hguard ref2 href2
        unfold dictRemove at href2
        by_cases he : removalId r2 = removalId r
        · rw [if_pos he] at href2
          exact absurd href2 (by simp)
        · rw [if_neg he] at href2
          have hg2 : ∀ x ∈ r :: rs1, removalId x ≠ removalId r2 := by
            intro x hx
            rcases List.mem_cons.mp hx with rfl | hx
            · exact fun e => he e.symm
            · exact hguard x hx
          obtain ⟨h1, h2, h3⟩ := H (r :: rs1) r2 rs2 (by rw [hsplit]; rfl) hg2 ref2 href2
          have hnp : ref.path.isPrefixOf ref2.path = false :=
            h3 r (List.mem_cons_self r rs1) ref hd
          refine ⟨?_, h2, ?_⟩
          · rw [(LocalProp.removeAt_keeps ref.path _ t1 ref2.path ht1 hnp).1]
            exact h1
          · intro x hx ref1 href1
            unfold dictRemove at href1
            by_cases hx2 : removalId x = removalId r
            · rw [if_pos hx2] at href1
              exact absurd href1 (by simp)
            · rw [if_neg hx2] at href1
              exact h3 x (List.mem_cons_of_mem r hx) ref1 href1
      obtain ⟨w1, hw1, hdict, hkeep⟩ := ih
        { w with m_localPropertyRoot := t1,
                 idPropertyDict := dictRemove w.idPropertyDict (removalId r) } Hrest
      refine ⟨w1, ?_, ?_, ?_⟩
      · simp only [forEach, hstep]
        exact hw1
      · intro i
        rw [hdict i]
        show (if i ∈ rest.map removalId then none
          else dictRemove w.idPropertyDict (removalId r) i) = _
        unfold dictRemove
        by_cases hi : i ∈ rest.map removalId
        · simp [hi]
        · by_cases hir : i = removalId r
          · simp [hir]
          · simp [hi, hir]
      · intro q hq
        have hq1 := hkeep q (by
          intro x hx ref1 href1
          have href1' : dictRemove w.idPropertyDict (removalId r) (removalId x)
              = some ref1 := href1
          unfold dictRemove at href1'
          by_cases hx2 : removalId x = removalId r
          · rw [if_pos hx2] at href1'
            exact absurd href1' (by simp)
          · rw [if_neg hx2] at href1'
            exact hq x (List.mem_cons_of_mem r hx) ref1 href1')
        have hq2 := LocalProp.removeAt_keeps ref.path _ t1 q ht1
          (hq r (List.mem_cons_self r rest) ref hd)
        exact ⟨hq1.1.trans hq2.1, hq1.2.trans hq2.2⟩

/-- The `changed` loop, when every pair that names a key names a live node: the loop
succeeds, the id table and every serial stay, and a node that no pair names keeps its
value. -/
theorem forEach_changedStep_general (cs : List JsonValue) :
    ∀ w : TemporaryWidget,
      (∀ c ∈ cs, c.toArray.length = 2 → ∀ ref, w.idPropertyDict (changeId c) = some ref →
        serialAt w.m_localPropertyRoot ref.path = some ref.serial) →
      ∃ w1, forEach changedStep w cs = .ok w1
        ∧ w1.idPropertyDict = w.idPropertyDict
        ∧ (∀ q, serialAt w1.m_localPropertyRoot q = serialAt w.m_localPropertyRoot q)
        ∧ (∀ q, (∀ c ∈ cs, c.toArray.length = 2 → ∀ ref,
              w.idPropertyDict (changeId c) = some ref → ref.path ≠ q) →
            valueAt w1.m_localPropertyRoot q = valueAt w.m_localPropertyRoot q) := by
  induction cs with
  | nil => intro w _; exact ⟨w, rfl, rfl, fun _ => rfl, fun _ _ => rfl⟩
  | cons c cs ih =>
    intro w H
    have hstep : ∃ w1, changedStep w c = .ok w1
        ∧ w1.idPropertyDict = w.idPropertyDict
        ∧ (∀ q, serialAt w1.m_localPropertyRoot q = serialAt w.m_localPropertyRoot q)
        ∧ (∀ q, (c.toArray.length = 2 → ∀ ref,
              w.idPropertyDict (changeId c) = some ref → ref.path ≠ q) →
            valueAt w1.m_localPropertyRoot q = valueAt w.m_localPropertyRoot q) := by
      unfold changedStep
      by_cases hlen : c.toArray.length ≠ 2
      · rw [if_pos hlen]
        exact ⟨w, rfl, rfl, fun _ => rfl, fun _ _ => rfl⟩
      · rw [if_neg hlen]
        have hlen2 : c.toArray.length = 2 := by simpa using hlen
        cases hd : w.idPropertyDict (toUInt (c.toArray.getD 0 .undefined).toInt) with
        | none => exact ⟨w, by simp only [hd], rfl, fun _ => rfl, fun _ _ => rfl⟩
        | some lp =>
          obtain ⟨u, hu, _, hser, hne⟩ := processChange_live (c.toArray.getD 1 .undefined)
            (H c (List.mem_cons_self c cs) hlen2 lp hd)
          simp only [hd, hu]
          refine ⟨_, rfl, rfl, hser, ?_⟩
          intro q hq
          exact hne q (fun e => hq hlen2 lp hd e.symm)
    obtain ⟨w1, h1, hd1, hs1, hv1⟩ := hstep
    obtain ⟨w2, h2, hd2, hs2, hv2⟩ := ih w1 (by
      intro x hx hlen ref href
      rw [hd1] at href
      rw [hs1]
      exact H x (List.mem_cons_of_mem c hx) hlen ref href)
    refine ⟨w2, ?_, hd2.trans hd1, fun q => (hs2 q).trans (hs1 q), ?_⟩
    · simp only [forEach, h1]
      exact h2
    · intro q hq
      rw [hv2 q (by
        intro x hx hlen ref href
        rw [hd1] at href
        exact hq x (List.mem_cons_of_mem c hx) hlen ref href)]
      exact hv1 q (fun hlen ref href => hq c (List.mem_cons_self c cs) hlen ref href)

/-- The `changed` loop, when every pair that names a key names a live node: a node that
holds `v` and of which every pair that names it carries `v` holds `v` afterwards. -/
theorem forEach_changedStep_value (cs : List JsonValue) (q : List NameIndexTuple)
    (v : JsonValue) :
    ∀ w w1 : TemporaryWidget,
      (∀ c ∈ cs, c.toArray.length = 2 → ∀ ref, w.idPropertyDict (changeId c) = some ref →
        serialAt w.m_localPropertyRoot ref.path = some ref.serial) →
      (∀ c ∈ cs, c.toArray.length = 2 → ∀ ref, w.idPropertyDict (changeId c) = some ref →
        ref.path = q → changeValue c = v) →
      valueAt w.m_localPropertyRoot q = some v →
      forEach changedStep w cs = .ok w1 →
      valueAt w1.m_localPropertyRoot q = some v := by
  induction cs with
  | nil =>
    intro w w1 _ _ hv h
    simp only [forEach] at h
    cases h
    exact hv
  | cons c cs ih =>
    intro w w1 H Hv hv h
    have hstep : ∃ w2, changedStep w c = .ok w2
        ∧ w2.idPropertyDict = w.idPropertyDict
        ∧ (∀ p, serialAt w2.m_localPropertyRoot p = serialAt w.m_localPropertyRoot p)
        ∧ valueAt w2.m_localPropertyRoot q = some v := by
      unfold changedStep
      by_cases hlen : c.toArray.length ≠ 2
      · rw [if_pos hlen]
        exact ⟨w, rfl, rfl, fun _ => rfl, hv⟩
      · rw [if_neg hlen]
        have hlen2 : c.toArray.length = 2 := by simpa using hlen
        cases hd : w.idPropertyDict (toUInt (c.toArray.getD 0 .undefined).toInt) with
        | none => exact ⟨w, by simp only [hd], rfl, fun _ => rfl, hv⟩
        | some lp =>
          obtain ⟨u, hu, hself, hser, hne⟩ := processChange_live (c.toArray.getD 1 .undefined)
            (H c (List.mem_cons_self c cs) hlen2 lp hd)
          simp only [hd, hu]
          refine ⟨_, rfl, rfl, hser, ?_⟩
          by_cases hq : lp.path = q
          · have hcv : c.toArray.getD 1 .undefined = v :=
              Hv c (List.mem_cons_self c cs) hlen2 lp hd hq
            show valueAt u q = some v
            rw [← hq, hself, hcv]
          · show valueAt u q = some v
            rw [hne q (fun e => hq e.symm)]
            exact hv
    obtain ⟨w2, h2, hd2, hs2, hv2⟩ := hstep
    simp only [forEach, h2] at h
    exact ih w2 w1
      (by
        intro x hx hlen ref href
        rw [hd2] at href
        rw [hs2]
        exact H x (List.mem_cons_of_mem c hx) hlen ref href)
      (by
        intro x hx hlen ref href
        rw [hd2] at href
        exact Hv x (List.mem_cons_of_mem c hx) hlen ref href)
      hv2 h

end TemporaryWidget

/-- C1, as amended: for a message in which a created entry under the root introduces
a node with an id k that is not in the id table when the entry is applied, and whose
changed array holds the pair of k and a value v, `onTextMessageReceived` succeeds and
the node at the created path holds v, provided that (a) the table entries the message
looks up name live nodes, (b) every created entry is skipped (its path does not start
with the root) or has a well-formed local path, (c) no removal entry removes the node
or one of its ancestors, (d) a removal entry that names a key names a node that no
earlier removal of the message destroyed, (e) a changed pair that names a key names a
node that no removal of the message destroyed, and (f) every changed pair after the
pair of k and v that names the node carries v too. -/
theorem TemporaryWidget.onTextMessageReceived_create_then_change
    (w : TemporaryWidget) (o : List (String × JsonValue))
    (pre post removed ch1 ch2 : List JsonValue) (e kj v : JsonValue)
    (segs : List NameIndexTuple)
    (hcreated : (objValue o "created").toArray = pre ++ e :: post)
    (hremoved : (objValue o "remvoed").toArray = removed)
    (hchanged : (objValue o "changed").toArray = ch1 ++ .arr [kj, v] :: ch2)
    (hsegs : localSegs w.rootPropertyPath e = some segs)
    (hnew : w.idPropertyDict (entryId e) = none)
    (hfirst : ∀ x ∈ pre, (handledSegs w.rootPropertyPath x).isSome = true →
      entryId x ≠ entryId e)
    (hk : toUInt kj.toInt = entryId e)
    (hlive : ∀ i ref, w.idPropertyDict i = some ref →
      ((∃ x ∈ pre ++ e :: post,
          (handledSegs w.rootPropertyPath x).isSome = true ∧ entryId x = i)
        ∨ (∃ r ∈ removed, removalId r = i)
        ∨ (∃ c ∈ ch1 ++ .arr [kj, v] :: ch2, c.toArray.length = 2 ∧ changeId c = i)) →
      serialAt w.m_localPropertyRoot ref.path = some ref.serial)
    (hok : ∀ x ∈ pre ++ e :: post, createdEntryOk w.rootPropertyPath x)
    (hkeep : ∀ r ∈ removed, ∀ p, w.pathsAfter (pre ++ e :: post) (removalId r) = some p →
      p.isPrefixOf segs = false)
    (hrem : ∀ rs1 r rs2, removed = rs1 ++ r :: rs2 →
      (∀ x ∈ rs1, removalId x ≠ removalId r) →
      ∀ p, w.pathsAfter (pre ++ e :: post) (removalId r) = some p →
        ∀ x ∈ rs1, ∀ p1, w.pathsAfter (pre ++ e :: post) (removalId x) = some p1 →
          p1.isPrefixOf p = false)
    (hch : ∀ c ∈ ch1 ++ .arr [kj, v] :: ch2, c.toArray.length = 2 →
      (∀ r ∈ removed, removalId r ≠ changeId c) →
      ∀ q, w.pathsAfter (pre ++ e :: post) (changeId c) = some q →
        ∀ r ∈ removed, ∀ p, w.pathsAfter (pre ++ e :: post) (removalId r) = some p →
          p.isPrefixOf q = false)
    (hlater : ∀ c ∈ ch2, c.toArray.length = 2 →
      w.pathsAfter (pre ++ e :: post) (changeId c) = some segs → changeValue c = v) :
    ∃ w1, TemporaryWidget.onTextMessageReceived w (.obj o) = .ok w1
      ∧ valueAt w1.m_localPropertyRoot segs = some v := by
  -- the created entries
  have he := handledSegs_of_localSegs hsegs
  obtain ⟨wc, hc, _, hlc, hpc⟩ := TemporaryWidget.forEach_createdStep_general
    (fun i => (∃ x ∈ pre ++ e :: post,
          (handledSegs w.rootPropertyPath x).isSome = true ∧ entryId x = i)
        ∨ (∃ r ∈ removed, removalId r = i)
        ∨ (∃ c ∈ ch1 ++ .arr [kj, v] :: ch2, c.toArray.length = 2 ∧ changeId c = i))
    w.rootPropertyPath (pre ++ e :: post) w rfl
    (fun i r hU hir => hlive i r hir hU) hok
    (fun x hx hh => Or.inl ⟨x, hx, hh, rfl⟩)
  have hT : ∀ i ref, wc.idPropertyDict i = some ref →
      w.pathsAfter (pre ++ e :: post) i = some ref.path := by
    intro i ref hi
    have := hpc i
    rw [hi] at this
    exact this.symm
  have hTk : w.pathsAfter (pre ++ e :: post) (entryId e) = some segs :=
    pathsAfterCreated_introduced w.rootPropertyPath pre post e segs (pathTable w)
      (by unfold pathTable; rw [hnew]; rfl) hfirst he
  obtain ⟨refk, hrefk, hpathk⟩ : ∃ refk, wc.idPropertyDict (entryId e) = some refk
      ∧ refk.path = segs := by
    have := hpc (entryId e)
    rw [show pathsAfterCreated w.rootPropertyPath (pathTable w) (pre ++ e :: post)
      (entryId e) = some segs from hTk] at this
    cases hd : wc.idPropertyDict (entryId e) with
    | none => rw [hd] at this; exact absurd this (by simp)
    | some r =>
      rw [hd] at this
      exact ⟨r, rfl, by simpa using this⟩
  have hlivek : serialAt wc.m_localPropertyRoot segs = some refk.serial := by
    have := hlc (entryId e) refk
      (Or.inl ⟨e, List.mem_append_right _ (List.mem_cons_self e post),
        by rw [he]; rfl, rfl⟩) hrefk
    rw [hpathk] at this
    exact this
  -- the removals
  obtain ⟨wr, hr, hdictr, hkeepr⟩ := TemporaryWidget.forEach_removedStep_spec removed wc (by
    intro rs1 r rs2 hsplit hguard ref href
    have hmem : r ∈ removed := by rw [hsplit]; exact List.mem_append_right _ (List.mem_cons_self _ _)
    refine ⟨hlc _ ref (Or.inr (Or.inl ⟨r, hmem, rfl⟩)) href, ?_, ?_⟩
    · intro hnil
      have := hkeep r hmem ref.path (hT _ ref href)
      rw [hnil] at this
      simp [List.isPrefixOf] at this
    · intro x hx ref1 href1
      exact hrem rs1 r rs2 hsplit hguard ref.path (hT _ ref href) x hx ref1.path
        (hT _ ref1 href1))
  have hkr : wr.idPropertyDict (entryId e) = some refk := by
    rw [hdictr]
    have hnot : entryId e ∉ removed.map removalId := by
      intro hmem
      obtain ⟨r, hrm, hre⟩ := List.mem_map.mp hmem
      have := hkeep r hrm segs (by rw [hre]; exact hTk)
      have hrefl : segs.isPrefixOf segs = true := by
        rw [ List.isPrefixOf_iff_prefix]
      rw [hrefl] at this
      exact absurd this (by simp)
    rw [if_neg hnot]
    exact hrefk
  have hsegkeep := hkeepr segs (fun x hx ref href => hkeep x hx ref.path (hT _ ref href))
  have hliver : ∀ c ∈ ch1 ++ .arr [kj, v] :: ch2, c.toArray.length = 2 →
      ∀ ref, wr.idPropertyDict (changeId c) = some ref →
        serialAt wr.m_localPropertyRoot ref.path = some ref.serial
          ∧ w.pathsAfter (pre ++ e :: post) (changeId c) = some ref.path := by
    intro c hcm hlen ref href
    rw [hdictr] at href
    by_cases hin : changeId c ∈ removed.map removalId
    · rw [if_pos hin] at href
      exact absurd href (by simp)
    · rw [if_neg hin] at href
      have hnr : ∀ r ∈ removed, removalId r ≠ changeId c :=
        fun r hrm hre => hin (List.mem_map.mpr ⟨r, hrm, hre⟩)
      have hq := hkeepr ref.path (fun x hx ref1 href1 =>
        hch c hcm hlen hnr ref.path (hT _ ref href) x hx ref1.path (hT _ ref1 href1))
      refine ⟨?_, hT _ ref href⟩
      rw [hq.1]
      exact hlc _ ref (Or.inr (Or.inr ⟨c, hcm, hlen, rfl⟩)) href
  -- the changes before the pair
  obtain ⟨wd, hd, hdictd, hserd, _⟩ := TemporaryWidget.forEach_changedStep_general ch1 wr
    (fun c hcm hlen ref href => (hliver c (List.mem_append_left _ hcm) hlen ref href).1)
  -- the pair
  have hkd : wd.idPropertyDict (toUInt kj.toInt) = some refk := by
    rw [hdictd, hk]
    exact hkr
  have hlived : serialAt wd.m_localPropertyRoot refk.path = some refk.serial := by
    rw [hserd, hpathk, hsegkeep.1]
    exact hlivek
  obtain ⟨u, hu, hval, hseru, _⟩ := processChange_live v hlived
  have hpair : TemporaryWidget.changedStep wd (.arr [kj, v])
      = .ok { wd with m_localPropertyRoot := u } := by
    simp only [TemporaryWidget.changedStep, JsonValue.toArray, List.length_cons,
      List.length_nil, List.getD_cons_zero, List.getD_cons_succ, hkd, hu]
    simp
  -- the changes after the pair
  have hlivef : ∀ c ∈ ch2, c.toArray.length = 2 → ∀ ref,
      wd.idPropertyDict (changeId c) = some ref → serialAt u ref.path = some ref.serial := by
    intro c hcm hlen ref href
    have href2 : wr.idPropertyDict (changeId c) = some ref := by
      rw [← hdictd]; exact href
    rw [hseru, hserd]
    exact (hliver c (List.mem_append_right _ (List.mem_cons_of_mem _ hcm)) hlen ref
      href2).1
  obtain ⟨wf, hf, _, _, _⟩ := TemporaryWidget.forEach_changedStep_general ch2
    { wd with m_localPropertyRoot := u } hlivef
  refine ⟨wf, ?_, ?_⟩
  · rw [TemporaryWidget.onTextMessageReceived_obj, hcreated, hc, hremoved, hchanged]
    simp only [hr]
    rw [TemporaryWidget.forEach_append, hd]
    simp only [TemporaryWidget.forEach, hpair]
    exact hf
  · refine TemporaryWidget.forEach_changedStep_value ch2 segs v
      { wd with m_localPropertyRoot := u } wf hlivef ?_ ?_ hf
    · intro c hcm hlen ref href hpq
      have href2 : wr.idPropertyDict (changeId c) = some ref := by
        rw [← hdictd]; exact href
      have hTc := (hliver c (List.mem_append_right _ (List.mem_cons_of_mem _ hcm)) hlen ref
        href2).2
      exact hlater c hcm hlen (by rw [hTc, hpq])
    · show valueAt u segs = some v
      rw [← hpathk]
      exact hval

/-- Two instances of C1. In `sampleSession` (root `/canvas`, id 1 names `group`, id 2
names `group/path`), a message that has a created entry outside the root, creates
`/canvas/new` with id 5, removes id 2, and changes id 5 to "v" and then id 1 to
"other" leaves the node `new` with "v". And the scenario of the specification:
against root `/canvas`, a message creating `group[0]` (id 1) and `group[0]/path[0]`
(id 2) and changing id 2 leaves the path node with the changed value. -/
theorem TemporaryWidget.onTextMessageReceived_create_then_change_witness :
    (∃ w1, TemporaryWidget.onTextMessageReceived sampleSession
        (.obj [("created", .arr [
                  .obj [("path", .str "/elsewhere/x"), ("id", .num 9), ("value", .null)],
                  .obj [("path", .str "/canvas/new"), ("id", .num 5), ("value", .null)]]),
               ("remvoed", .arr [.num 2]),
               ("changed", .arr [.arr [.num 5, .str "v"], .arr [.num 1, .str "other"]])])
          = .ok w1
      ∧ valueAt w1.m_localPropertyRoot [⟨"new".toList, 0⟩] = some (.str "v"))
    ∧ (∃ w1, TemporaryWidget.onTextMessageReceived
        (TemporaryWidget.connected "/canvas".toList)
        (.obj [("created", .arr [
                  .obj [("path", .str "/canvas/group[0]"), ("id", .num 1), ("value", .null)],
                  .obj [("path", .str "/canvas/group[0]/path[0]"), ("id", .num 2),
                        ("value", .null)]]),
               ("changed", .arr [.arr [.num 2, .str "M0 0 L10 10"]])]) = .ok w1
      ∧ valueAt w1.m_localPropertyRoot [⟨"group".toList, 0⟩, ⟨"path".toList, 0⟩]
          = some (.str "M0 0 L10 10")) := by
  constructor
  · have hT2 : sampleSession.pathsAfter
        ([.obj [("path", .str "/elsewhere/x"), ("id", .num 9), ("value", .null)]]
          ++ .obj [("path", .str "/canvas/new"), ("id", .num 5), ("value", .null)] :: [])
        (removalId (.num 2)) = some [⟨"group".toList, 0⟩, ⟨"path".toList, 0⟩] := rfl
    exact TemporaryWidget.onTextMessageReceived_create_then_change sampleSession
      [("created", .arr [
          .obj [("path", .str "/elsewhere/x"), ("id", .num 9), ("value", .null)],
          .obj [("path", .str "/canvas/new"), ("id", .num 5), ("value", .null)]]),
       ("remvoed", .arr [.num 2]),
       ("changed", .arr [.arr [.num 5, .str "v"], .arr [.num 1, .str "other"]])]
      [.obj [("path", .str "/elsewhere/x"), ("id", .num 9), ("value", .null)]] []
      [.num 2] [] [.arr [.num 1, .str "other"]]
      (.obj [("path", .str "/canvas/new"), ("id", .num 5), ("value", .null)])
      (.num 5) (.str "v") [⟨"new".toList, 0⟩]
      rfl rfl rfl rfl rfl
      (by
        intro x hx hh
        rw [List.mem_singleton] at hx
        subst hx
        exact absurd hh (by decide))
      rfl
      (by
        intro i ref hi _
        by_cases h1 : i = 1
        · subst h1
          have : ref = ⟨[⟨"group".toList, 0⟩], 1⟩ := (Option.some.inj hi).symm
          subst this
          rfl
        · by_cases h2 : i = 2
          · subst h2
            have : ref = ⟨[⟨"group".toList, 0⟩, ⟨"path".toList, 0⟩], 2⟩ :=
              (Option.some.inj hi).symm
            subst this
            rfl
          · simp [sampleSession, h1, h2] at hi)
      (by
        intro x hx
        simp only [List.cons_append, List.nil_append, List.mem_cons, List.mem_singleton,
          List.not_mem_nil, or_false] at hx
        rcases hx with rfl | rfl
        · exact Or.inl (by decide)
        · exact Or.inr rfl)
      (by
        intro r hr p hp
        rw [List.mem_singleton] at hr
        subst hr
        rw [hT2, Option.some.injEq] at hp
        subst hp
        decide)
      (by
        intro rs1 r rs2 hsplit _ p _ x hx
        cases rs1 with
        | nil => exact absurd hx (by simp)
        | cons a t =>
          have := congrArg List.length hsplit
          simp at this)
      (by
        intro c hc _ _ q hq r hr p hp
        rw [List.mem_singleton] at hr
        subst hr
        rw [hT2, Option.some.injEq] at hp
        subst hp
        simp only [List.nil_append, List.mem_cons, List.mem_singleton, List.not_mem_nil,
          or_false] at hc
        rcases hc with rfl | rfl
        · have h5 : sampleSession.pathsAfter
              ([.obj [("path", .str "/elsewhere/x"), ("id", .num 9), ("value", .null)]]
                ++ .obj [("path", .str "/canvas/new"), ("id", .num 5), ("value", .null)] :: [])
              (changeId (.arr [.num 5, .str "v"])) = some [⟨"new".toList, 0⟩] := rfl
          rw [h5, Option.some.injEq] at hq
          subst hq
          decide
        · have h1 : sampleSession.pathsAfter
              ([.obj [("path", .str "/elsewhere/x"), ("id", .num 9), ("value", .null)]]
                ++ .obj [("path", .str "/canvas/new"), ("id", .num 5), ("value", .null)] :: [])
              (changeId (.arr [.num 1, .str "other"])) = some [⟨"group".toList, 0⟩] := rfl
          rw [h1, Option.some.injEq] at hq
          subst hq
          decide)
      (by
        intro c hc _ hq
        rw [List.mem_singleton] at hc
        subst hc
        have h1 : sampleSession.pathsAfter
            ([.obj [("path", .str "/elsewhere/x"), ("id", .num 9), ("value", .null)]]
              ++ .obj [("path", .str "/canvas/new"), ("id", .num 5), ("value", .null)] :: [])
            (changeId (.arr [.num 1, .str "other"])) = some [⟨"group".toList, 0⟩] := rfl
        rw [h1] at hq
        exact absurd hq (by decide))
  · exact TemporaryWidget.onTextMessageReceived_create_then_change
      (TemporaryWidget.connected "/canvas".toList)
      [("created", .arr [
          .obj [("path", .str "/canvas/group[0]"), ("id", .num 1), ("value", .null)],
          .obj [("path", .str "/canvas/group[0]/path[0]"), ("id", .num 2),
                ("value", .null)]]),
       ("changed", .arr [.arr [.num 2, .str "M0 0 L10 10"]])]
      [.obj [("path", .str "/canvas/group[0]"), ("id", .num 1), ("value", .null)]] []
      [] [] []
      (.obj [("path", .str "/canvas/group[0]/path[0]"), ("id", .num 2), ("value", .null)])
      (.num 2) (.str "M0 0 L10 10") [⟨"group".toList, 0⟩, ⟨"path".toList, 0⟩]
      rfl rfl rfl rfl rfl
      (by
        intro x hx _
        rw [List.mem_singleton] at hx
        subst hx
        decide)
      rfl
      (by
        intro i ref hi _
        simp [TemporaryWidget.connected] at hi)
      (by
        intro x hx
        simp only [List.cons_append, List.nil_append, List.mem_cons, List.mem_singleton,
          List.not_mem_nil, or_false] at hx
        rcases hx with rfl | rfl
        · exact Or.inr rfl
        · exact Or.inr rfl)
      (by
        intro r hr
        exact absurd hr (by simp))
      (by
        intro rs1 r rs2 hsplit
        have := congrArg List.length hsplit
        simp only [List.length_nil, List.length_append, List.length_cons] at this
        omega)
      (by
        intro c _ _ _ q _ r hr
        exact absurd hr (by simp))
      (by
        intro c hc
        exact absurd hc (by simp))

/-- C1 fails as stated. With root `/canvas`: (1) a message that creates `group` with
id 1, removes id 1 and changes id 1 to "a" leaves no node at the created path, the
change being dropped as an unknown id; (2) a message that creates `group` with id 1 and
changes id 1 to "a" and then to "b" leaves the node with "b", not "a"; (3) a message
that creates `g` (id 1) and `g/p` (id 2), removes id 1 and changes id 2 goes through
the pointer to the destroyed node `g/p`; (4) a message with a created entry
`/canvas//x` before the entry for `group` stops at the malformed path; (5) in
`staleSession`, whose id 2 names a destroyed node, a message that creates `new` with
id 5 and changes id 2 before id 5 goes through the dangling pointer; (6) in
`sampleSession` a message that creates `new` with id 5, removes id 1 and then id 2
(a child of the node of id 1) goes through the pointer to the destroyed child. In
(3) to (6) there is no result. -/
theorem TemporaryWidget.onTextMessageReceived_create_then_change_counterexample :
    (∃ w1, TemporaryWidget.onTextMessageReceived
        (TemporaryWidget.connected "/canvas".toList)
        (.obj [("created", .arr [
                  .obj [("path", .str "/canvas/group"), ("id", .num 1), ("value", .null)]]),
               ("remvoed", .arr [.num 1]),
               ("changed", .arr [.arr [.num 1, .str "a"]])]) = .ok w1
      ∧ valueAt w1.m_localPropertyRoot [⟨"group".toList, 0⟩] = none
      ∧ valueAt w1.m_localPropertyRoot [⟨"group".toList, 0⟩] ≠ some (.str "a"))
    ∧ (∃ w1, TemporaryWidget.onTextMessageReceived
        (TemporaryWidget.connected "/canvas".toList)
        (.obj [("created", .arr [
                  .obj [("path", .str "/canvas/group"), ("id", .num 1), ("value", .null)]]),
               ("changed", .arr [.arr [.num 1, .str "a"], .arr [.num 1, .str "b"]])])
          = .ok w1
      ∧ valueAt w1.m_localPropertyRoot [⟨"group".toList, 0⟩] = some (.str "b")
      ∧ valueAt w1.m_localPropertyRoot [⟨"group".toList, 0⟩] ≠ some (.str "a"))
    ∧ TemporaryWidget.onTextMessageReceived
        (TemporaryWidget.connected "/canvas".toList)
        (.obj [("created", .arr [
                  .obj [("path", .str "/canvas/g"), ("id", .num 1), ("value", .null)],
                  .obj [("path", .str "/canvas/g/p"), ("id", .num 2), ("value", .null)]]),
               ("remvoed", .arr [.num 1]),
               ("changed", .arr [.arr [.num 2, .str "a"]])]) = .error .danglingNode
    ∧ TemporaryWidget.onTextMessageReceived
        (TemporaryWidget.connected "/canvas".toList)
        (.obj [("created", .arr [
                  .obj [("path", .str "/canvas//x"), ("id", .num 3), ("value", .null)],
                  .obj [("path", .str "/canvas/group"), ("id", .num 1), ("value", .null)]]),
               ("changed", .arr [.arr [.num 1, .str "a"]])]) = .error .malformedPath
    ∧ TemporaryWidget.onTextMessageReceived staleSession
        (.obj [("created", .arr [
                  .obj [("path", .str "/canvas/new"), ("id", .num 5), ("value", .null)]]),
               ("changed", .arr [.arr [.num 2, .str "x"], .arr [.num 5, .str "v"]])])
          = .error .danglingNode
    ∧ TemporaryWidget.onTextMessageReceived sampleSession
        (.obj [("created", .arr [
                  .obj [("path", .str "/canvas/new"), ("id", .num 5), ("value", .null)]]),
               ("remvoed", .arr [.num 1, .num 2]),
               ("changed", .arr [.arr [.num 5, .str "v"]])]) = .error .danglingNode :=
  ⟨⟨_, rfl, rfl, fun h => by
      have h2 : (none : Option JsonValue) = some (.str "a") := h
      simp at h2⟩,
   ⟨_, rfl, rfl, fun h => by
      have h2 : some (JsonValue.str "b") = some (.str "a") := h
      simp at h2⟩,
   rfl, rfl, rfl, rfl⟩
